import Mathlib

/-
Verification of the HAMT immutable-map core of `immutables` (`_map.c`,
`_map.h`).

Two embeddings are developed, both translated from the C source:

* a pure-tree embedding of the node structure and of the node/map level
  operations (`map_node_assoc`, `map_node_without`, `map_node_find`,
  `map_assoc`, `map_without`, `map_find`, bulk `map_node_update`, the
  mutation-draft operations `mapmut_set` / `mapmut_delete` / `mapmut_pop`
  / `mapmut_finish`, and the iterator `map_iterator_*` step machine).
  In the C source every mutating branch is doubled: an in-place update
  (taken when `mutid != 0 && self->?_mutid == mutid`) and a cloning
  update stamping `mutid`; both branches construct the same logical
  record (in the in-place branch the node's token already equals
  `mutid`), so the pure embedding returns that record.  Aliasing itself
  is modelled separately;

* a store (heap) embedding in which nodes live at addresses in a
  `Store`, in-place mutation writes through an address, and cloning
  allocates, exactly following the C branch structure.  This embedding
  settles the frame/aliasing claims about mutation drafts.

Host-language interface: the host hash of a key is modelled by the
`Key.hash` field, already folded to 32 bits by `map_hash` (the XOR fold
and the `-1 -> -2` remap happen before any code considered here sees the
value; the 32-bit quantity is represented as its unsigned reinterpretation,
which is how every use site (`map_mask`) consumes it).  Host equality is
the decidable equality of `Key`.  Both primitives are total here, so the
`F_ERROR` / `W_ERROR` arms of the C result enums, which only report host
hash/equality failures, have no counterpart.  Values are opaque data
(`Val`); the C pointer-identity comparisons on values (`val ==
val_or_node`) are modelled by equality on `Val`.
-/

namespace Immutables

/-! ## Bit-counting toolkit

`map_bitcount` in the C source computes the population count of a 32-bit
word with the Stanford bit-twiddling formula (the comment in the source
states it computes popcount).  It is embedded as the mathematical
popcount, defined by binary recursion. -/

def popcountAux : Nat → Nat → Nat
  | 0, _ => 0
  | fuel + 1, n => if n = 0 then 0 else popcountAux fuel (n / 2) + n % 2

def popcount (n : Nat) : Nat := popcountAux n n

theorem popcountAux_congr : ∀ (f1 : Nat) (n : Nat), n ≤ f1 → ∀ (f2 : Nat),
    n ≤ f2 → popcountAux f1 n = popcountAux f2 n := by
  intro f1
  induction f1 with
  | zero =>
    intro n h1 f2 h2
    have hn : n = 0 := Nat.le_zero.mp h1
    subst hn
    cases f2 with
    | zero => rfl
    | succ f2 => rw [popcountAux, popcountAux, if_pos rfl]
  | succ f1 ih =>
    intro n h1 f2 h2
    cases f2 with
    | zero =>
      have hn : n = 0 := Nat.le_zero.mp h2
      subst hn
      rw [popcountAux, popcountAux, if_pos rfl]
    | succ f2 =>
      rw [popcountAux, popcountAux]
      by_cases hn : n = 0
      · rw [if_pos hn, if_pos hn]
      · rw [if_neg hn, if_neg hn]
        have hd : n / 2 ≤ f1 := by omega
        have hd2 : n / 2 ≤ f2 := by omega
        rw [ih (n / 2) hd f2 hd2]

@[simp] theorem popcount_zero : popcount 0 = 0 := rfl

theorem popcount_eq (n : Nat) : popcount n = if n = 0 then 0 else popcount (n / 2) + n % 2 := by
  cases n with
  | zero => rfl
  | succ m =>
    rw [popcount, popcount, popcountAux, if_neg (Nat.succ_ne_zero m),
      if_neg (Nat.succ_ne_zero m)]
    have h1 : (m + 1) / 2 ≤ m := by omega
    rw [popcountAux_congr m ((m + 1) / 2) h1 ((m + 1) / 2) (le_refl _)]

theorem popcount_pos_eq (n : Nat) (h : n ≠ 0) : popcount n = popcount (n / 2) + n % 2 := by
  rw [popcount_eq]; simp [h]

theorem popcount_div_two (n : Nat) : popcount n = popcount (n / 2) + n % 2 := by
  rcases eq_or_ne n 0 with rfl | h
  · simp
  · exact popcount_pos_eq n h

theorem popcount_eq_zero {n : Nat} : popcount n = 0 ↔ n = 0 := by
  constructor
  · induction n using Nat.strongRecOn with
    | _ n ih =>
      intro h
      by_contra hn
      rw [popcount_pos_eq n hn] at h
      have h3 : n / 2 = 0 :=
        ih (n / 2) (Nat.div_lt_self (Nat.pos_of_ne_zero hn) one_lt_two) (by omega)
      omega
  · rintro rfl; simp

/-- popcount splits along a low/high cut: `popcount n = popcount (n % 2^j) + popcount (n / 2^j)`. -/
theorem popcount_split (j : Nat) : ∀ n, popcount n = popcount (n % 2 ^ j) + popcount (n / 2 ^ j) := by
  induction j with
  | zero => intro n; simp [Nat.pow_zero, Nat.mod_one]
  | succ j ih =>
    intro n
    have h1 : n % 2 ^ (j + 1) = n % 2 + 2 * (n / 2 % 2 ^ j) := by
      have : (2 : Nat) ^ (j + 1) = 2 * 2 ^ j := by ring
      rw [this, Nat.mod_mul]
    have h2 : n / 2 ^ (j + 1) = n / 2 / 2 ^ j := by
      rw [Nat.div_div_eq_div_mul]
      congr 1
      ring
    have hb : n / 2 % 2 ^ j < 2 ^ j := Nat.mod_lt _ (Nat.two_pow_pos j)
    have h3 : (n % 2 + 2 * (n / 2 % 2 ^ j)) / 2 = n / 2 % 2 ^ j := by omega
    have h4 : (n % 2 + 2 * (n / 2 % 2 ^ j)) % 2 = n % 2 := by omega
    rw [h1, h2, popcount_div_two (n % 2 + 2 * (n / 2 % 2 ^ j)), h3, h4,
        popcount_div_two n, ih (n / 2)]
    omega

theorem popcount_mod_le (n j : Nat) : popcount (n % 2 ^ j) ≤ popcount n := by
  rw [popcount_split j n]; omega

/-- Incrementing the cut exposes the bit at the cut: popcount of the low
`j+1` bits is popcount of the low `j` bits plus the bit `j`. -/
theorem popcount_mod_succ (n j : Nat) :
    popcount (n % 2 ^ (j + 1)) = popcount (n % 2 ^ j) + (n.testBit j).toNat := by
  have h1 : n % 2 ^ (j + 1) = n % 2 ^ j + 2 ^ j * (n / 2 ^ j % 2) := by
    have : (2 : Nat) ^ (j + 1) = 2 ^ j * 2 := by ring
    rw [this, Nat.mod_mul]
  have hlt : n % 2 ^ j < 2 ^ j := Nat.mod_lt _ (Nat.two_pow_pos j)
  have h2 : popcount (n % 2 ^ j + 2 ^ j * (n / 2 ^ j % 2)) =
      popcount (n % 2 ^ j) + popcount (n / 2 ^ j % 2) := by
    have hs := popcount_split j (n % 2 ^ j + 2 ^ j * (n / 2 ^ j % 2))
    have hlow : (n % 2 ^ j + 2 ^ j * (n / 2 ^ j % 2)) % 2 ^ j = n % 2 ^ j := by
      rw [Nat.add_mul_mod_self_left]
      exact Nat.mod_eq_of_lt hlt
    have hhigh : (n % 2 ^ j + 2 ^ j * (n / 2 ^ j % 2)) / 2 ^ j = n / 2 ^ j % 2 := by
      rw [Nat.add_mul_div_left _ _ (Nat.two_pow_pos j), Nat.div_eq_of_lt hlt]
      omega
    rw [hs, hlow, hhigh]
  have h3 : popcount (n / 2 ^ j % 2) = (n.testBit j).toNat := by
    rw [Nat.testBit_to_div_mod]
    rcases Nat.mod_two_eq_zero_or_one (n / 2 ^ j) with h | h <;>
      rw [h] <;> simp <;> rw [popcount_pos_eq 1 one_ne_zero] <;> simp
  rw [h1, h2, h3]

theorem popcount_lt_of_testBit {n j : Nat} (h : n.testBit j = true) :
    popcount (n % 2 ^ j) < popcount n := by
  have h1 := popcount_mod_succ n j
  have h2 := popcount_mod_le n (j + 1)
  rw [h] at h1
  simp at h1
  omega

/-- Truncation distributes over bitwise or. -/
theorem mod_two_pow_lor (a b j : Nat) : (a ||| b) % 2 ^ j = a % 2 ^ j ||| b % 2 ^ j := by
  apply Nat.eq_of_testBit_eq
  intro i
  simp only [Nat.testBit_mod_two_pow, Nat.testBit_or]
  rcases Nat.decLt i j with h | h <;> simp [h]

theorem lor_two_pow_mod_self {n j : Nat} : (n ||| 2 ^ j) % 2 ^ j = n % 2 ^ j := by
  rw [mod_two_pow_lor, Nat.mod_self, Nat.or_zero]

theorem lor_two_pow_div_succ {n j : Nat} :
    (n ||| 2 ^ j) / 2 ^ (j + 1) = n / 2 ^ (j + 1) := by
  apply Nat.eq_of_testBit_eq
  intro i
  rw [← Nat.shiftRight_eq_div_pow, ← Nat.shiftRight_eq_div_pow,
      Nat.testBit_shiftRight, Nat.testBit_shiftRight, Nat.testBit_or,
      Nat.testBit_two_pow_of_ne (by omega), Bool.or_false]

/-- Setting an unset bit increments popcount. -/
theorem popcount_lor_two_pow {n j : Nat} (h : n.testBit j = false) :
    popcount (n ||| 2 ^ j) = popcount n + 1 := by
  have hset : (n ||| 2 ^ j).testBit j = true := by
    rw [Nat.testBit_or, Nat.testBit_two_pow_self, Bool.or_true]
  have e1 := popcount_split (j + 1) (n ||| 2 ^ j)
  have e2 := popcount_split (j + 1) n
  have e3 := popcount_mod_succ (n ||| 2 ^ j) j
  have e4 := popcount_mod_succ n j
  rw [hset] at e3
  rw [h] at e4
  rw [lor_two_pow_div_succ] at e1
  rw [lor_two_pow_mod_self] at e3
  simp at e3 e4
  omega

theorem two_pow_mod_two_pow_of_lt {i j : Nat} (h : i < j) : 2 ^ i % 2 ^ j = 2 ^ i :=
  Nat.mod_eq_of_lt (Nat.pow_lt_pow_right one_lt_two h)

theorem two_pow_mod_two_pow_of_ge {i j : Nat} (h : j ≤ i) : 2 ^ i % 2 ^ j = 0 := by
  have : (2 : Nat) ^ j ∣ 2 ^ i := pow_dvd_pow 2 h
  omega

/-! ## Hashing adapter and bit helpers (`map_hash`, `map_mask`, `map_bitpos`,
`map_bitcount`, `map_bitindex`) -/

/-- A host key.  `hash` is the host hash already folded to 32 bits by
`map_hash` (represented as the unsigned reinterpretation of the `int32_t`
value, which is how `map_mask` consumes it); `ident` distinguishes keys
beyond their hash (distinct host objects may share a hash). -/
structure Key where
  hash : Nat
  ident : Nat
deriving DecidableEq, Repr

/-- Values are opaque host objects; equality models both the host `==` and
the pointer-identity comparisons on values in the source. -/
abbrev Val := Nat

/-- The 32-bit hash of a key (`map_hash`, lines 420-445: the XOR fold to
32 bits; the result is reduced modulo `2^32` since the source stores it
in 32 bits). -/
def hash32 (k : Key) : Nat := k.hash % 2 ^ 32

theorem hash32_lt (k : Key) : hash32 k < 2 ^ 32 := Nat.mod_lt _ (by norm_num)

/-- `map_mask` (line 447): `(((uint32_t)hash >> shift) & 0x1f)`. -/
def map_mask (hash shift : Nat) : Nat := (hash >>> shift) &&& 0x1f

/-- `map_bitpos` (line 453): `1 << map_mask hash shift`. -/
def map_bitpos (hash shift : Nat) : Nat := 1 <<< map_mask hash shift

/-- `map_bitcount` (line 459): population count of a 32-bit word (the
source uses the Stanford bit-twiddling formula, documented there as
computing popcount). -/
def map_bitcount (i : Nat) : Nat := popcount i

/-- `map_bitindex` (line 479): `map_bitcount (bitmap & (bit - 1))`. -/
def map_bitindex (bitmap bit : Nat) : Nat := map_bitcount (bitmap &&& (bit - 1))

theorem map_mask_eq (hash shift : Nat) : map_mask hash shift = hash / 2 ^ shift % 32 := by
  have h31 : (0x1f : Nat) = 2 ^ 5 - 1 := by norm_num
  rw [map_mask, Nat.shiftRight_eq_div_pow, h31, Nat.and_pow_two_sub_one_eq_mod]

theorem map_mask_lt (hash shift : Nat) : map_mask hash shift < 32 := by
  rw [map_mask_eq]; omega

theorem map_bitpos_eq (hash shift : Nat) : map_bitpos hash shift = 2 ^ map_mask hash shift := by
  rw [map_bitpos, Nat.shiftLeft_eq, one_mul]

theorem map_bitindex_eq (bitmap j : Nat) :
    map_bitindex bitmap (2 ^ j) = popcount (bitmap % 2 ^ j) := by
  rw [map_bitindex, map_bitcount, Nat.and_pow_two_sub_one_eq_mod]

/-- The occupancy test `bitmap & bit` of the source, for `bit = 2^j`. -/
theorem and_two_pow_ne_zero_iff (bitmap j : Nat) :
    (bitmap &&& 2 ^ j ≠ 0) ↔ bitmap.testBit j = true := by
  rw [Nat.and_two_pow]
  cases h : bitmap.testBit j
  · simp
  · simpa using (Nat.two_pow_pos j).ne'

/-! ## The node data model

The three node variants (`MapNode_Bitmap`, `MapNode_Array`,
`MapNode_Collision`, source lines 288-309).  A bitmap node's `b_array`
stores, per entry, the pair `(key_or_null, val_or_node)`; the pair is
represented as a sum: `.inl (k, v)` is a leaf (`key != NULL`),
`.inr child` is a subtree pointer (`key == NULL`).  `Py_SIZE` of a bitmap
or collision node is twice the length of the modelled list.  An array
node's `a_array` has 32 slots of nullable child pointers. -/

inductive MapNode : Type where
  | bitmapN (b_mutid : Nat) (b_bitmap : Nat) (b_array : List ((Key × Val) ⊕ MapNode))
  | arrayN (a_mutid : Nat) (a_count : Nat) (a_array : List (Option MapNode))
  | collisionN (c_mutid : Nat) (c_hash : Nat) (c_array : List (Key × Val))

abbrev BEntry := (Key × Val) ⊕ MapNode

mutual

def decEqMapNode : (a b : MapNode) → Decidable (a = b)
  | .bitmapN m1 bm1 a1, .bitmapN m2 bm2 a2 =>
    match Nat.decEq m1 m2, Nat.decEq bm1 bm2, decEqEntryList a1 a2 with
    | isTrue h1, isTrue h2, isTrue h3 => isTrue (by rw [h1, h2, h3])
    | isFalse h1, _, _ => isFalse (by intro h; injection h; contradiction)
    | _, isFalse h2, _ => isFalse (by intro h; injection h; contradiction)
    | _, _, isFalse h3 => isFalse (by intro h; injection h; contradiction)
  | .arrayN m1 c1 a1, .arrayN m2 c2 a2 =>
    match Nat.decEq m1 m2, Nat.decEq c1 c2, decEqSlotList a1 a2 with
    | isTrue h1, isTrue h2, isTrue h3 => isTrue (by rw [h1, h2, h3])
    | isFalse h1, _, _ => isFalse (by intro h; injection h; contradiction)
    | _, isFalse h2, _ => isFalse (by intro h; injection h; contradiction)
    | _, _, isFalse h3 => isFalse (by intro h; injection h; contradiction)
  | .collisionN m1 h1 a1, .collisionN m2 h2 a2 =>
    match Nat.decEq m1 m2, Nat.decEq h1 h2, (instDecidableEqList a1 a2 : Decidable (a1 = a2)) with
    | isTrue e1, isTrue e2, isTrue e3 => isTrue (by rw [e1, e2, e3])
    | isFalse e1, _, _ => isFalse (by intro h; injection h; contradiction)
    | _, isFalse e2, _ => isFalse (by intro h; injection h; contradiction)
    | _, _, isFalse e3 => isFalse (by intro h; injection h; contradiction)
  | .bitmapN _ _ _, .arrayN _ _ _ => isFalse (fun h => MapNode.noConfusion h)
  | .bitmapN _ _ _, .collisionN _ _ _ => isFalse (fun h => MapNode.noConfusion h)
  | .arrayN _ _ _, .bitmapN _ _ _ => isFalse (fun h => MapNode.noConfusion h)
  | .arrayN _ _ _, .collisionN _ _ _ => isFalse (fun h => MapNode.noConfusion h)
  | .collisionN _ _ _, .bitmapN _ _ _ => isFalse (fun h => MapNode.noConfusion h)
  | .collisionN _ _ _, .arrayN _ _ _ => isFalse (fun h => MapNode.noConfusion h)

def decEqEntry : (a b : BEntry) → Decidable (a = b)
  | .inl p1, .inl p2 =>
    match (instDecidableEqProd p1 p2 : Decidable (p1 = p2)) with
    | isTrue h => isTrue (by rw [h])
    | isFalse h => isFalse (by intro e; injection e; contradiction)
  | .inr n1, .inr n2 =>
    match decEqMapNode n1 n2 with
    | isTrue h => isTrue (by rw [h])
    | isFalse h => isFalse (by intro e; injection e; contradiction)
  | .inl _, .inr _ => isFalse (fun h => Sum.noConfusion h)
  | .inr _, .inl _ => isFalse (fun h => Sum.noConfusion h)

def decEqEntryList : (a b : List BEntry) → Decidable (a = b)
  | [], [] => isTrue rfl
  | x :: xs, y :: ys =>
    match decEqEntry x y, decEqEntryList xs ys with
    | isTrue h1, isTrue h2 => isTrue (by rw [h1, h2])
    | isFalse h1, _ => isFalse (by intro e; injection e; contradiction)
    | _, isFalse h2 => isFalse (by intro e; injection e; contradiction)
  | [], _ :: _ => isFalse (fun h => List.noConfusion h)
  | _ :: _, [] => isFalse (fun h => List.noConfusion h)

def decEqSlot : (a b : Option MapNode) → Decidable (a = b)
  | none, none => isTrue rfl
  | some n1, some n2 =>
    match decEqMapNode n1 n2 with
    | isTrue h => isTrue (by rw [h])
    | isFalse h => isFalse (by intro e; injection e; contradiction)
  | none, some _ => isFalse (fun h => Option.noConfusion h)
  | some _, none => isFalse (fun h => Option.noConfusion h)

def decEqSlotList : (a b : List (Option MapNode)) → Decidable (a = b)
  | [], [] => isTrue rfl
  | x :: xs, y :: ys =>
    match decEqSlot x y, decEqSlotList xs ys with
    | isTrue h1, isTrue h2 => isTrue (by rw [h1, h2])
    | isFalse h1, _ => isFalse (by intro e; injection e; contradiction)
    | _, isFalse h2 => isFalse (by intro e; injection e; contradiction)
  | [], _ :: _ => isFalse (fun h => List.noConfusion h)
  | _ :: _, [] => isFalse (fun h => List.noConfusion h)

end

instance : DecidableEq MapNode := decEqMapNode

/-- The mutation token carried by a node (`b_mutid` / `a_mutid` / `c_mutid`). -/
def MapNode.mutid : MapNode → Nat
  | .bitmapN m _ _ => m
  | .arrayN m _ _ => m
  | .collisionN m _ _ => m

mutual

/-- Structural size ignoring the numeric payloads; used as the termination
measure of the node operations. -/
def nsize : MapNode → Nat
  | .bitmapN _ _ arr => 1 + nsizeEntries arr
  | .arrayN _ _ arr => 1 + nsizeSlots arr
  | .collisionN _ _ arr => 1 + arr.length

def nsizeEntries : List BEntry → Nat
  | [] => 0
  | .inl _ :: es => 1 + nsizeEntries es
  | .inr n :: es => 1 + nsize n + nsizeEntries es

def nsizeSlots : List (Option MapNode) → Nat
  | [] => 0
  | none :: es => 1 + nsizeSlots es
  | some n :: es => 1 + nsize n + nsizeSlots es

end

theorem nsize_lt_of_entry_mem {sub : MapNode} {arr : List BEntry} (h : Sum.inr sub ∈ arr) :
    nsize sub < nsizeEntries arr := by
  induction arr with
  | nil => cases h
  | cons e es ih =>
    rcases List.mem_cons.mp h with he | h2
    · rw [← he]; simp [nsizeEntries]; omega
    · have := ih h2
      cases e with
      | inl p => simp [nsizeEntries]; omega
      | inr n => simp [nsizeEntries]; omega

theorem nsize_lt_of_slot_mem {sub : MapNode} {arr : List (Option MapNode)} (h : some sub ∈ arr) :
    nsize sub < nsizeSlots arr := by
  induction arr with
  | nil => cases h
  | cons e es ih =>
    rcases List.mem_cons.mp h with he | h2
    · rw [← he]; simp [nsizeSlots]; omega
    · have := ih h2
      cases e with
      | none => simp [nsizeSlots]; omega
      | some n => simp [nsizeSlots]; omega

/-! ## Node operations: assoc -/

/-- The result of `map_node_assoc` on a fresh empty bitmap node: the bitmap
acquires the key's bit and the single pair is stored (lines 875-1016
specialised to `n = 0`; used for the `empty` nodes created at lines
910-915, 1791-1797 and inside `map_node_new_bitmap_or_collision`). -/
def map_node_bitmap_single (mutid shift hash : Nat) (key : Key) (val : Val) : MapNode :=
  .bitmapN mutid (map_bitpos hash shift) [.inl (key, val)]

/-- `map_node_collision_find_index` (lines 1368-1393): index of the first
pair whose key equals `key` under host equality (the pair index; the
source returns the slot index `2*i` into the flat key/value array). -/
def map_node_collision_find_index (key : Key) : List (Key × Val) → Option Nat
  | [] => none
  | el :: rest =>
    if key = el.1 then some 0
    else (map_node_collision_find_index key rest).map (· + 1)

/-- `map_node_new_bitmap_or_collision` (lines 657-719).  Equal hashes give a
Collision node holding both pairs.  Different hashes: the source assoc's
the two pairs in turn into a fresh empty bitmap node at `shift`; those two
assoc steps act on an empty and then a single-leaf bitmap node, and are
unfolded here: distinct masks put the two leaves in packed (mask) order,
an equal mask recreates the leaf conflict one level deeper.  Distinct
32-bit hashes differ in one of the windows at shifts 0,5,...,30, so the
recursion always separates by shift 30; the `30 < shift` guard returns an
arbitrary value on the (unreachable, proved below for well-formed calls)
deeper case to make the recursion total. -/
def map_node_new_bitmap_or_collision (shift : Nat) (key1 : Key) (val1 : Val)
    (key2_hash : Nat) (key2 : Key) (val2 : Val) (mutid : Nat) : MapNode :=
  let key1_hash := hash32 key1
  if key1_hash = key2_hash then
    .collisionN mutid key1_hash [(key1, val1), (key2, val2)]
  else if map_bitpos key2_hash shift = map_bitpos key1_hash shift then
    if key2 = key1 then
      .bitmapN mutid (map_bitpos key1_hash shift) [.inl (key1, val2)]
    else if 30 < shift then
      .collisionN mutid key1_hash [(key1, val1), (key2, val2)]
    else
      .bitmapN mutid (map_bitpos key1_hash shift)
        [.inr (map_node_new_bitmap_or_collision (shift + 5) key1 val1 key2_hash key2 val2 mutid)]
  else if map_mask key2_hash shift < map_mask key1_hash shift then
    .bitmapN mutid (map_bitpos key1_hash shift ||| map_bitpos key2_hash shift)
      [.inl (key2, val2), .inl (key1, val1)]
  else
    .bitmapN mutid (map_bitpos key1_hash shift ||| map_bitpos key2_hash shift)
      [.inl (key1, val1), .inl (key2, val2)]
termination_by 31 - shift
decreasing_by omega

/-- `map_node_assoc` and its three per-kind bodies (`map_node_bitmap_assoc`
lines 721-1018, `map_node_array_assoc` lines 1768-1867,
`map_node_collision_assoc` lines 1395-1514), dispatching as in lines
2144-2179.  Returns the new node together with the `added_leaf` flag.

In-place updates (`mutid != 0 && self->?_mutid == mutid`) and clones both
produce a node whose token is `mutid` and whose fields are the ones
written here, so the two C branches collapse.  Pointer-identity early
returns that can fire (`val_or_node == sub_node`, `val == val_or_node`,
`self->c_array[val_idx] == val`) are kept as structural equality; the
comparison of the new child against `self` in `map_node_array_assoc`
(line 1844) compares objects of different tree levels and never fires,
and the `val_or_node == sub_node` check on the fresh wrapper node in the
collision different-hash path (via line 778) compares a collision node
with a freshly built bitmap/collision result and never fires; neither is
encoded.  The `assoc` calls on fresh empty bitmap nodes (promotion, array
empty slot) are unfolded to `map_node_bitmap_single`.  The collision
different-hash path (lines 1489-1513) builds a fresh one-child bitmap
node around `self` and re-enters bitmap assoc on it at the same shift;
that single bitmap-assoc step is unfolded here: an equal mask recurses
into `self` one level deeper, a distinct mask packs the leaf next to the
wrapped collision in mask order. -/
def map_node_assoc (node : MapNode) (shift hash : Nat) (key : Key) (val : Val)
    (mutid : Nat) : MapNode × Bool :=
  match node with
  | .bitmapN b_mutid b_bitmap b_array =>
    let bit := map_bitpos hash shift
    let idx := map_bitindex b_bitmap bit
    if b_bitmap &&& bit ≠ 0 then
      match hget : b_array.get? idx with
      | none => (node, false)  -- unreachable: the source asserts val_idx < Py_SIZE
      | some (.inr val_or_node) =>
        let r := map_node_assoc val_or_node (shift + 5) hash key val mutid
        if r.1 = val_or_node then (node, r.2)
        else (.bitmapN mutid b_bitmap (b_array.set idx (.inr r.1)), r.2)
      | some (.inl (key', val')) =>
        if key = key' then
          if val = val' then (node, false)
          else (.bitmapN mutid b_bitmap (b_array.set idx (.inl (key', val))), false)
        else
          -- leaf conflict: the new sub-node is stamped with self's token
          -- (line 848 passes self->b_mutid, not the caller's mutid)
          (.bitmapN mutid b_bitmap (b_array.set idx
            (.inr (map_node_new_bitmap_or_collision (shift + 5) key' val' hash key val b_mutid))),
           true)
    else
      let n := map_bitcount b_bitmap
      if 16 ≤ n then
        -- promotion to an Array node (lines 880-972)
        let jdx := map_mask hash shift
        (.arrayN mutid (n + 1) ((List.range 32).map (fun i =>
          if i = jdx then some (map_node_bitmap_single mutid (shift + 5) hash key val)
          else if b_bitmap.testBit i then
            some (match b_array.get? (map_bitindex b_bitmap (2 ^ i)) with
              | some (.inr child) => child
              | some (.inl (k, v)) =>
                map_node_bitmap_single mutid (shift + 5) (hash32 k) k v
              | none => .bitmapN mutid 0 [])  -- unreachable: bits of b_bitmap index b_array
          else none)), true)
      else
        -- insert the pair at the packed position (lines 974-1016)
        (.bitmapN mutid (b_bitmap ||| bit)
          (b_array.take idx ++ .inl (key, val) :: b_array.drop idx), true)
  | .arrayN a_mutid a_count a_array =>
    let idx := map_mask hash shift
    match hget : a_array.get? idx with
    | none | some none =>
      -- empty slot (lines 1787-1833): assoc into a fresh empty bitmap node
      (.arrayN mutid (a_count + 1)
        (a_array.set idx (some (map_node_bitmap_single mutid (shift + 5) hash key val))), true)
    | some (some child) =>
      let r := map_node_assoc child (shift + 5) hash key val mutid
      (.arrayN mutid a_count (a_array.set idx (some r.1)), r.2)
  | .collisionN c_mutid c_hash c_array =>
    if hash = c_hash then
      match map_node_collision_find_index key c_array with
      | none => (.collisionN mutid c_hash (c_array ++ [(key, val)]), true)
      | some i =>
        match c_array.get? i with
        | none => (node, false)  -- unreachable: find_index is in range
        | some (key', val') =>
          if val' = val then (node, false)
          else (.collisionN mutid c_hash (c_array.set i (key', val)), false)
    else
      if map_bitpos hash shift = map_bitpos c_hash shift then
        if h30 : 30 < shift then
          (.collisionN mutid c_hash (c_array ++ [(key, val)]), true)  -- unreachable guard
        else
          let r := map_node_assoc (.collisionN c_mutid c_hash c_array) (shift + 5) hash key val mutid
          (.bitmapN mutid (map_bitpos c_hash shift) [.inr r.1], r.2)
      else if map_mask hash shift < map_mask c_hash shift then
        (.bitmapN mutid (map_bitpos c_hash shift ||| map_bitpos hash shift)
          [.inl (key, val), .inr node], true)
      else
        (.bitmapN mutid (map_bitpos c_hash shift ||| map_bitpos hash shift)
          [.inr node, .inl (key, val)], true)
termination_by (nsize node, 31 - shift)
decreasing_by
  · simp_wf
    apply Prod.Lex.left
    have := nsize_lt_of_entry_mem (List.get?_mem hget)
    simp [nsize]; omega
  · simp_wf
    apply Prod.Lex.left
    have := nsize_lt_of_slot_mem (List.get?_mem hget)
    simp [nsize]; omega
  · simp_wf
    apply Prod.Lex.right
    omega

/-! ## Node operations: find -/

/-- `map_node_find` (lines 2212-2247) and its per-kind bodies
(`map_node_bitmap_find` lines 1175-1224, `map_node_array_find` lines
2042-2060, `map_node_collision_find` lines 1617-1640).  `F_FOUND` with the
value out-parameter becomes `some`, `F_NOT_FOUND` becomes `none`. -/
def map_node_find (node : MapNode) (shift hash : Nat) (key : Key) : Option Val :=
  match node with
  | .bitmapN _ b_bitmap b_array =>
    let bit := map_bitpos hash shift
    if b_bitmap &&& bit = 0 then none
    else
      match hget : b_array.get? (map_bitindex b_bitmap bit) with
      | none => none  -- unreachable: the source asserts val_idx < Py_SIZE
      | some (.inr val_or_node) => map_node_find val_or_node (shift + 5) hash key
      | some (.inl (key', v)) => if key = key' then some v else none
  | .arrayN _ _ a_array =>
    match hget : a_array.get? (map_mask hash shift) with
    | none | some none => none
    | some (some child) => map_node_find child (shift + 5) hash key
  | .collisionN _ _ c_array =>
    -- map_node_collision_find scans the pairs (it does not consult c_hash)
    match map_node_collision_find_index key c_array with
    | none => none
    | some i => (c_array.get? i).map (·.2)
termination_by nsize node
decreasing_by
  · have := nsize_lt_of_entry_mem (List.get?_mem hget)
    simp [nsize]; omega
  · have := nsize_lt_of_slot_mem (List.get?_mem hget)
    simp [nsize]; omega

/-! ## Node operations: without -/

/-- Result of the delete helpers (`map_without_t`, lines 265-274); `W_ERROR`
only reports host primitive failures and has no counterpart here. -/
inductive map_without_t where
  | W_NOT_FOUND
  | W_EMPTY
  | W_NEWNODE (node : MapNode)

/-- The child the Array→Bitmap demotion walk keeps for slot `i` (lines
1967-1978): skip the deleted index and empty slots. -/
def array_demote_slot (idx : Nat) (a_array : List (Option MapNode)) (i : Nat) : Option MapNode :=
  if i = idx then none
  else match a_array.get? i with
    | some (some x) => some x
    | _ => none

/-- The nodes kept by the Array→Bitmap demotion walk (lines 1967-2030):
slot indices below 32, in ascending order, skipping the deleted index and
empty slots, paired with the stored child. -/
def array_demote_kept (idx : Nat) (a_array : List (Option MapNode)) : List (Nat × MapNode) :=
  (List.range 32).filterMap (fun i => (array_demote_slot idx a_array i).map (fun x => (i, x)))

/-- Entry the demotion walk stores for a kept child: a single-leaf bitmap
child is inlined as a leaf, anything else is stored as a subtree pointer
(lines 1982-2027). -/
def array_demote_entry : MapNode → BEntry
  | .bitmapN _ _ [.inl (k, v)] => .inl (k, v)
  | x => .inr x

/-- `map_node_without` (lines 2181-2210) and its per-kind bodies
(`map_node_bitmap_without` lines 1020-1173, `map_node_array_without`
lines 1869-2040, `map_node_collision_without` lines 1522-1615).

`map_node_bitmap_clone_without`'s `o->b_bitmap & ~bit` is written as
`b_bitmap ^^^ bit`, equal to it since `bit` is set (asserted in the
source).  The `W_EMPTY` arm of the bitmap child case `abort()`s in the
source (line 1067, impossible by the structural invariants); here it
returns an arbitrary value (`W_NEWNODE node`), proved unreachable for
well-formed trees below. -/
def map_node_without (node : MapNode) (shift hash : Nat) (key : Key)
    (mutid : Nat) : map_without_t :=
  match node with
  | .bitmapN b_mutid b_bitmap b_array =>
    let bit := map_bitpos hash shift
    if b_bitmap &&& bit = 0 then .W_NOT_FOUND
    else
      let idx := map_bitindex b_bitmap bit
      match hget : b_array.get? idx with
      | none => .W_NOT_FOUND  -- unreachable: the source asserts the index is in range
      | some (.inr val_or_node) =>
        match map_node_without val_or_node (shift + 5) hash key mutid with
        | .W_EMPTY => .W_NEWNODE node  -- abort() in the source; unreachable
        | .W_NEWNODE sub_node =>
          match sub_node with
          | .bitmapN _ _ [.inl (k, v)] =>
            -- single-leaf bitmap child: merge the pair into this node
            .W_NEWNODE (.bitmapN mutid b_bitmap (b_array.set idx (.inl (k, v))))
          | _ =>
            .W_NEWNODE (.bitmapN mutid b_bitmap (b_array.set idx (.inr sub_node)))
        | .W_NOT_FOUND => .W_NOT_FOUND
      | some (.inl (key', _)) =>
        if key' = key then
          if b_array.length = 1 then .W_EMPTY
          else
            .W_NEWNODE (.bitmapN mutid (b_bitmap ^^^ bit)
              (b_array.take idx ++ b_array.drop (idx + 1)))
        else .W_NOT_FOUND
  | .arrayN a_mutid a_count a_array =>
    let idx := map_mask hash shift
    match hget : a_array.get? idx with
    | none | some none => .W_NOT_FOUND
    | some (some child) =>
      match map_node_without child (shift + 5) hash key mutid with
      | .W_NOT_FOUND => .W_NOT_FOUND
      | .W_NEWNODE sub_node =>
        .W_NEWNODE (.arrayN mutid a_count (a_array.set idx (some sub_node)))
      | .W_EMPTY =>
        let new_count := a_count - 1
        if new_count = 0 then .W_EMPTY
        else if 16 ≤ new_count then
          .W_NEWNODE (.arrayN mutid new_count (a_array.set idx none))
        else
          -- demotion to a Bitmap node (lines 1955-2034)
          .W_NEWNODE (.bitmapN mutid
            ((array_demote_kept idx a_array).foldl (fun b p => b ||| (1 <<< p.1)) 0)
            ((array_demote_kept idx a_array).map (fun p => array_demote_entry p.2)))
  | .collisionN c_mutid c_hash c_array =>
    if hash ≠ c_hash then .W_NOT_FOUND
    else
      match map_node_collision_find_index key c_array with
      | none => .W_NOT_FOUND
      | some i =>
        let new_count := c_array.length - 1
        if new_count = 0 then .W_EMPTY
        else if new_count = 1 then
          -- collapse to a single-leaf bitmap node (lines 1557-1586)
          match (if i = 0 then c_array.get? 1 else c_array.get? 0) with
          | some (k, v) =>
            .W_NEWNODE (.bitmapN mutid (map_bitpos hash shift) [.inl (k, v)])
          | none => .W_NOT_FOUND  -- unreachable: the source asserts key_idx ∈ {0, 2}
        else
          .W_NEWNODE (.collisionN mutid c_hash (c_array.take i ++ c_array.drop (i + 1)))
termination_by nsize node
decreasing_by
  · have := nsize_lt_of_entry_mem (List.get?_mem hget)
    simp [nsize]; omega
  · have := nsize_lt_of_slot_mem (List.get?_mem hget)
    simp [nsize]; omega

/-! ## Observables: bindings, leaf count, depth

`map_node_toList` lists the leaf bindings of a subtree in the order the
depth-first iterator (`map_iterator_next` and friends, lines 2278-2419)
yields them: bitmap entries in packed order, array slots in ascending
order, collision pairs in order. -/

mutual

def map_node_toList : MapNode → List (Key × Val)
  | .bitmapN _ _ arr => entries_toList arr
  | .arrayN _ _ arr => slots_toList arr
  | .collisionN _ _ arr => arr

def entries_toList : List BEntry → List (Key × Val)
  | [] => []
  | .inl p :: es => p :: entries_toList es
  | .inr n :: es => map_node_toList n ++ entries_toList es

def slots_toList : List (Option MapNode) → List (Key × Val)
  | [] => []
  | none :: es => slots_toList es
  | some n :: es => map_node_toList n ++ slots_toList es

end

/-- The keys bound in a subtree. -/
def nodeKeys (n : MapNode) : List Key := (map_node_toList n).map (·.1)

/-- Number of leaf bindings reachable from a node. -/
def leafCount (n : MapNode) : Nat := (map_node_toList n).length

mutual

/-- Depth of the node tree: number of nodes on the longest path. -/
def nodeDepth : MapNode → Nat
  | .bitmapN _ _ arr => 1 + entriesDepth arr
  | .arrayN _ _ arr => 1 + slotsDepth arr
  | .collisionN _ _ _ => 1

def entriesDepth : List BEntry → Nat
  | [] => 0
  | .inl _ :: es => entriesDepth es
  | .inr n :: es => max (nodeDepth n) (entriesDepth es)

def slotsDepth : List (Option MapNode) → Nat
  | [] => 0
  | none :: es => slotsDepth es
  | some n :: es => max (nodeDepth n) (slotsDepth es)

end

/-! ## Map-level operations -/

/-- `MapObject` (header): the persistent map façade.  The `h_hash` memo
caches the content hash and is not involved in any claim here; weak
references are host bookkeeping. -/
structure MapObject where
  h_root : MapNode
  h_count : Nat
deriving DecidableEq

/-- `map_new` (lines 2591-2606): an empty bitmap root, count 0. -/
def map_new : MapObject := ⟨.bitmapN 0 0 [], 0⟩

/-- `map_assoc` (lines 2425-2462): persistent set, `mutid = 0`.  The
pointer-identity early return (line 2446) hands back an equal map and is
not reflected in the value. -/
def map_assoc (o : MapObject) (key : Key) (val : Val) : MapObject :=
  let r := map_node_assoc o.h_root 0 (hash32 key) key val 0
  ⟨r.1, if r.2 then o.h_count + 1 else o.h_count⟩

/-- `map_without` (lines 2464-2505): persistent delete, `mutid = 0`.
`W_NOT_FOUND` raises `KeyError` in the source and becomes `none`. -/
def map_without (o : MapObject) (key : Key) : Option MapObject :=
  match map_node_without o.h_root 0 (hash32 key) key 0 with
  | .W_EMPTY => some map_new
  | .W_NOT_FOUND => none
  | .W_NEWNODE r => some ⟨r, o.h_count - 1⟩

/-- `map_find` (lines 2507-2520): short-circuits on empty maps, then
searches from the root at shift 0. -/
def map_find (o : MapObject) (key : Key) : Option Val :=
  if o.h_count = 0 then none
  else map_node_find o.h_root 0 (hash32 key) key

/-- `map_len` (lines 2569-2573). -/
def map_len (o : MapObject) : Nat := o.h_count

/-- `map_node_update` (lines 3682-3700) and its three source walks
(`from_map`, `from_dict`, `from_seq`): each walk folds `map_node_assoc`
over the stream of key/value pairs of the source, bumping the running
count on `added_leaf`; the stream is modelled as the pair list. -/
def map_node_update (mutid : Nat) (src : List (Key × Val)) (root : MapNode)
    (count : Nat) : MapNode × Nat :=
  src.foldl (fun acc kv =>
    let r := map_node_assoc acc.1 0 (hash32 kv.1) kv.1 kv.2 mutid
    (r.1, if r.2 then acc.2 + 1 else acc.2)) (root, count)

/-- `map_update` (lines 3727-3754): build a new map from an update fold. -/
def map_update (mutid : Nat) (o : MapObject) (src : List (Key × Val)) : MapObject :=
  let r := map_node_update mutid src o.h_root o.h_count
  ⟨r.1, r.2⟩

/-! ## Mutation drafts (pure view)

`MapMutationObject` and the `mapmut_*` operations (lines 3756-4041).  The
draft's fields are its root, running count and mutation token; `finish`
zeroes the token and hands the root and count to a fresh `MapObject`.
The pure view captures the logical content of the draft; the aliasing
behaviour (in-place mutation of token-owned nodes) is the subject of the
store embedding below. -/

structure MapMutationObject where
  m_root : MapNode
  m_count : Nat
  m_mutid : Nat
deriving DecidableEq

/-- `map_py_mutate` (lines 3090-3109): share root and count, stamp a fresh
token drawn from `mutid_counter`. -/
def map_py_mutate (o : MapObject) (fresh_mutid : Nat) : MapMutationObject :=
  ⟨o.h_root, o.h_count, fresh_mutid⟩

/-- `mapmut_set` (lines 3811-3837). -/
def mapmut_set (o : MapMutationObject) (key : Key) (val : Val) : MapMutationObject :=
  let r := map_node_assoc o.m_root 0 (hash32 key) key val o.m_mutid
  ⟨r.1, if r.2 then o.m_count + 1 else o.m_count, o.m_mutid⟩

/-- `mapmut_delete` (lines 3770-3809): `W_NOT_FOUND` raises `KeyError`
(`none`); `W_EMPTY` installs a fresh empty bitmap root stamped with the
draft's token. -/
def mapmut_delete (o : MapMutationObject) (key : Key) : Option MapMutationObject :=
  match map_node_without o.m_root 0 (hash32 key) key o.m_mutid with
  | .W_NOT_FOUND => none
  | .W_EMPTY => some ⟨.bitmapN o.m_mutid 0 [], 0, o.m_mutid⟩
  | .W_NEWNODE r => some ⟨r, o.m_count - 1, o.m_mutid⟩

/-- `mapmut_py_pop` (lines 3986-4041): find then delete; a missing key
yields the default (the `none` result here; the value path returns the
popped value plus the updated draft). -/
def mapmut_pop (o : MapMutationObject) (key : Key) : Option (Val × MapMutationObject) :=
  if o.m_count = 0 then none
  else
    match map_node_find o.m_root 0 (hash32 key) key with
    | none => none
    | some v =>
      match mapmut_delete o key with
      | none => none
      | some d => some (v, d)

/-- `mapmut_py_update` / `map_update_inplace` (lines 3703-3724, 3898-3928):
fold the source pairs into the draft under its token. -/
def mapmut_update (o : MapMutationObject) (src : List (Key × Val)) : MapMutationObject :=
  let r := map_node_update o.m_mutid src o.m_root o.m_count
  ⟨r.1, r.2, o.m_mutid⟩

/-- `mapmut_finish` + `mapmut_py_finish` (lines 3839-3844, 3931-3948): zero
the draft's token and build a map sharing the drafted root and count. -/
def mapmut_finish (o : MapMutationObject) : MapObject :=
  ⟨o.m_root, o.m_count⟩

/-! ## The logical 32-slot view of a bitmap node

`entryAtBit bmp arr j` is the entry stored for bit `j`: present iff bit
`j` is set in the bitmap, at packed position `popcount (bmp % 2^j)`
(exactly the `map_bitindex` computation of the source). -/

def entryAtBit (bmp : Nat) (arr : List BEntry) (j : Nat) : Option BEntry :=
  if bmp.testBit j then arr.get? (map_bitindex bmp (2 ^ j)) else none

theorem get?_insert_of_lt {α : Type _} {arr : List α} {idx i : Nat} (e : α)
    (h : i < idx) (hle : idx ≤ arr.length) :
    (arr.take idx ++ e :: arr.drop idx).get? i = arr.get? i := by
  rw [List.get?_append (by simp [List.length_take]; omega), List.get?_take (by omega)]

theorem get?_insert_self {α : Type _} {arr : List α} {idx : Nat} (e : α)
    (hle : idx ≤ arr.length) :
    (arr.take idx ++ e :: arr.drop idx).get? idx = some e := by
  have hlt : (arr.take idx).length = idx := by
    simp [List.length_take]; omega
  rw [List.get?_append_right (le_of_eq hlt), hlt, Nat.sub_self]
  rfl

theorem get?_insert_of_ge {α : Type _} {arr : List α} {idx i : Nat} (e : α)
    (h : idx ≤ i) (hle : idx ≤ arr.length) :
    (arr.take idx ++ e :: arr.drop idx).get? (i + 1) = arr.get? i := by
  rw [List.get?_append_right (by simp [List.length_take]; omega)]
  have hlt : (arr.take idx).length = idx := by simp [List.length_take]; omega
  rw [hlt]
  have : i + 1 - idx = (i - idx) + 1 := by omega
  rw [this]
  simp only [List.get?_cons_succ]
  rw [List.get?_drop]
  congr 1
  omega

theorem get?_remove_of_lt {α : Type _} {arr : List α} {idx i : Nat}
    (h : i < idx) :
    (arr.take idx ++ arr.drop (idx + 1)).get? i = arr.get? i := by
  rcases Nat.lt_or_ge i arr.length with hi | hi
  · rw [List.get?_append (by simp [List.length_take]; omega), List.get?_take h]
  · rw [List.get?_eq_none.mpr hi, List.get?_eq_none.mpr]
    simp [List.length_take, List.length_drop]
    omega

theorem get?_remove_of_ge {α : Type _} {arr : List α} {idx i : Nat}
    (h : idx ≤ i) (hle : idx < arr.length) :
    (arr.take idx ++ arr.drop (idx + 1)).get? i = arr.get? (i + 1) := by
  rw [List.get?_append_right (by simp [List.length_take]; omega)]
  have hlt : (arr.take idx).length = idx := by simp [List.length_take]; omega
  rw [hlt, List.get?_drop]
  congr 1
  omega

/-- Inserting an entry for an unset bit (the `n < 16` insert branch of
bitmap assoc): the new bit gets the new entry, every other bit keeps its
entry. -/
theorem entryAtBit_insert {bmp : Nat} {arr : List BEntry} {j0 : Nat} (e : BEntry)
    (hbit : bmp.testBit j0 = false) (hlen : arr.length = popcount bmp) :
    (∀ j, j ≠ j0 →
      entryAtBit (bmp ||| 2 ^ j0)
        (arr.take (map_bitindex bmp (2 ^ j0)) ++ e :: arr.drop (map_bitindex bmp (2 ^ j0))) j =
      entryAtBit bmp arr j) ∧
    entryAtBit (bmp ||| 2 ^ j0)
      (arr.take (map_bitindex bmp (2 ^ j0)) ++ e :: arr.drop (map_bitindex bmp (2 ^ j0))) j0 =
      some e := by
  have hidx : map_bitindex bmp (2 ^ j0) = popcount (bmp % 2 ^ j0) := map_bitindex_eq bmp j0
  have hle : map_bitindex bmp (2 ^ j0) ≤ arr.length := by
    rw [hidx, hlen]; exact popcount_mod_le bmp j0
  constructor
  · intro j hj
    have htb : (bmp ||| 2 ^ j0).testBit j = bmp.testBit j := by
      rw [Nat.testBit_or, Nat.testBit_two_pow_of_ne (fun h => hj h.symm), Bool.or_false]
    rw [entryAtBit, entryAtBit, htb]
    rcases hb : bmp.testBit j with _ | _
    · simp
    · simp only [if_pos rfl]
      have hmod : ∀ jj, (bmp ||| 2 ^ j0) % 2 ^ jj = bmp % 2 ^ jj ||| 2 ^ j0 % 2 ^ jj :=
        fun jj => mod_two_pow_lor bmp (2 ^ j0) jj
      rcases Nat.lt_or_ge j j0 with hlt | hge
      · -- positions below the inserted one are unchanged
        have hjlt : popcount (bmp % 2 ^ j) < popcount (bmp % 2 ^ j0) := by
          have h1 : bmp % 2 ^ j0 % 2 ^ j = bmp % 2 ^ j := by
            rw [Nat.mod_mod_of_dvd _ (pow_dvd_pow 2 (by omega))]
          have h2 : (bmp % 2 ^ j0).testBit j = true := by
            rw [Nat.testBit_mod_two_pow]
            simp [hlt, hb]
          have := popcount_lt_of_testBit h2
          rw [h1] at this
          exact this
        have hpos : map_bitindex (bmp ||| 2 ^ j0) (2 ^ j) = map_bitindex bmp (2 ^ j) := by
          rw [map_bitindex_eq, map_bitindex_eq, hmod j,
              two_pow_mod_two_pow_of_ge (by omega), Nat.or_zero]
        have harr := @get?_insert_of_lt _ arr (map_bitindex bmp (2 ^ j0))
          (map_bitindex bmp (2 ^ j)) e
          (by rw [hidx, map_bitindex_eq]; omega) hle
        rw [hpos, harr]
      · have hgt : j0 < j := by omega
        have hbj0 : (bmp % 2 ^ j).testBit j0 = false := by
          rw [Nat.testBit_mod_two_pow]
          simp [hgt, hbit]
        have hmono : popcount (bmp % 2 ^ j0) ≤ popcount (bmp % 2 ^ j) := by
          have h1 : bmp % 2 ^ j % 2 ^ j0 = bmp % 2 ^ j0 := by
            rw [Nat.mod_mod_of_dvd _ (pow_dvd_pow 2 (by omega))]
          have := popcount_mod_le (bmp % 2 ^ j) j0
          rw [h1] at this
          exact this
        have hpos : map_bitindex (bmp ||| 2 ^ j0) (2 ^ j) = map_bitindex bmp (2 ^ j) + 1 := by
          rw [map_bitindex_eq, map_bitindex_eq, hmod j, two_pow_mod_two_pow_of_lt hgt,
              popcount_lor_two_pow hbj0]
        have harr := @get?_insert_of_ge _ arr (map_bitindex bmp (2 ^ j0))
          (map_bitindex bmp (2 ^ j)) e
          (by rw [hidx, map_bitindex_eq]; omega) hle
        rw [hpos, harr]
  · have htb : (bmp ||| 2 ^ j0).testBit j0 = true := by
      rw [Nat.testBit_or, Nat.testBit_two_pow_self, Bool.or_true]
    have hpos : map_bitindex (bmp ||| 2 ^ j0) (2 ^ j0) = map_bitindex bmp (2 ^ j0) := by
      rw [map_bitindex_eq, map_bitindex_eq, lor_two_pow_mod_self]
    rw [entryAtBit, htb, if_pos rfl, hpos, get?_insert_self e hle]

/-- Replacing the entry of a set bit in place: that bit sees the new entry,
every other bit keeps its entry. -/
theorem entryAtBit_set {bmp : Nat} {arr : List BEntry} {j0 : Nat} (e : BEntry)
    (hbit : bmp.testBit j0 = true) (hlen : arr.length = popcount bmp) :
    (∀ j, j ≠ j0 →
      entryAtBit bmp (arr.set (map_bitindex bmp (2 ^ j0)) e) j = entryAtBit bmp arr j) ∧
    entryAtBit bmp (arr.set (map_bitindex bmp (2 ^ j0)) e) j0 = some e := by
  have hidx : map_bitindex bmp (2 ^ j0) = popcount (bmp % 2 ^ j0) := map_bitindex_eq bmp j0
  have hlt : map_bitindex bmp (2 ^ j0) < arr.length := by
    rw [hidx, hlen]; exact popcount_lt_of_testBit hbit
  constructor
  · intro j hj
    rw [entryAtBit, entryAtBit]
    rcases hb : bmp.testBit j with _ | _
    · simp
    · simp only [if_pos rfl]
      apply List.get?_set_ne
      rw [hidx, map_bitindex_eq]
      -- packed positions of distinct set bits differ
      rcases Nat.lt_or_ge j j0 with hjlt | hjge
      · have h1 : bmp % 2 ^ j0 % 2 ^ j = bmp % 2 ^ j := by
          rw [Nat.mod_mod_of_dvd _ (pow_dvd_pow 2 (by omega))]
        have h2 : (bmp % 2 ^ j0).testBit j = true := by
          rw [Nat.testBit_mod_two_pow]; simp [hjlt, hb]
        have := popcount_lt_of_testBit h2
        rw [h1] at this
        omega
      · have hgt : j0 < j := by omega
        have h1 : bmp % 2 ^ j % 2 ^ j0 = bmp % 2 ^ j0 := by
          rw [Nat.mod_mod_of_dvd _ (pow_dvd_pow 2 (by omega))]
        have h2 : (bmp % 2 ^ j).testBit j0 = true := by
          rw [Nat.testBit_mod_two_pow]; simp [hgt, hbit]
        have := popcount_lt_of_testBit h2
        rw [h1] at this
        omega
  · rw [entryAtBit, hbit, if_pos rfl, List.get?_set_eq_of_lt _ hlt]

/-- Clearing a set bit and removing its entry
(`map_node_bitmap_clone_without`): the bit becomes empty, every other bit
keeps its entry. -/
theorem entryAtBit_remove {bmp : Nat} {arr : List BEntry} {j0 : Nat}
    (hbit : bmp.testBit j0 = true) (hlen : arr.length = popcount bmp) :
    (∀ j, j ≠ j0 →
      entryAtBit (bmp ^^^ 2 ^ j0)
        (arr.take (map_bitindex bmp (2 ^ j0)) ++ arr.drop (map_bitindex bmp (2 ^ j0) + 1)) j =
      entryAtBit bmp arr j) ∧
    entryAtBit (bmp ^^^ 2 ^ j0)
      (arr.take (map_bitindex bmp (2 ^ j0)) ++ arr.drop (map_bitindex bmp (2 ^ j0) + 1)) j0 =
      none := by
  have hidx : map_bitindex bmp (2 ^ j0) = popcount (bmp % 2 ^ j0) := map_bitindex_eq bmp j0
  have hlt : map_bitindex bmp (2 ^ j0) < arr.length := by
    rw [hidx, hlen]; exact popcount_lt_of_testBit hbit
  have hxor : ∀ j, (bmp ^^^ 2 ^ j0).testBit j = if j = j0 then false else bmp.testBit j := by
    intro j
    rcases eq_or_ne j j0 with rfl | hj
    · simp [Nat.testBit_xor, hbit]
    · simp [Nat.testBit_xor, hj, Nat.testBit_two_pow_of_ne (fun h => hj h.symm)]
  constructor
  · intro j hj
    rw [entryAtBit, entryAtBit, hxor j, if_neg hj]
    rcases hb : bmp.testBit j with _ | _
    · simp
    · simp only [if_pos rfl]
      have hmodx : ∀ jj, (bmp ^^^ 2 ^ j0) % 2 ^ jj = bmp % 2 ^ jj ^^^ 2 ^ j0 % 2 ^ jj := by
        intro jj
        apply Nat.eq_of_testBit_eq
        intro i
        simp only [Nat.testBit_mod_two_pow, Nat.testBit_xor]
        rcases Nat.decLt i jj with h | h <;> simp [h]
      rcases Nat.lt_or_ge j j0 with hjlt | hjge
      · have hjlt2 : popcount (bmp % 2 ^ j) < popcount (bmp % 2 ^ j0) := by
          have h1 : bmp % 2 ^ j0 % 2 ^ j = bmp % 2 ^ j := by
            rw [Nat.mod_mod_of_dvd _ (pow_dvd_pow 2 (by omega))]
          have h2 : (bmp % 2 ^ j0).testBit j = true := by
            rw [Nat.testBit_mod_two_pow]; simp [hjlt, hb]
          have := popcount_lt_of_testBit h2
          rw [h1] at this
          exact this
        have hpos : map_bitindex (bmp ^^^ 2 ^ j0) (2 ^ j) = map_bitindex bmp (2 ^ j) := by
          rw [map_bitindex_eq, map_bitindex_eq, hmodx j,
              two_pow_mod_two_pow_of_ge (by omega), Nat.xor_zero]
        have harr := @get?_remove_of_lt _ arr (map_bitindex bmp (2 ^ j0))
          (map_bitindex bmp (2 ^ j)) (by rw [hidx, map_bitindex_eq]; omega)
        rw [hpos, harr]
      · have hgt : j0 < j := by omega
        have hbj0 : (bmp % 2 ^ j).testBit j0 = true := by
          rw [Nat.testBit_mod_two_pow]; simp [hgt, hbit]
        -- popcount of the cleared low block is one less
        have hclear : popcount (bmp % 2 ^ j ^^^ 2 ^ j0) + 1 = popcount (bmp % 2 ^ j) := by
          have hy : (bmp % 2 ^ j ^^^ 2 ^ j0).testBit j0 = false := by
            simp [Nat.testBit_xor, hbj0]
          have hor : (bmp % 2 ^ j ^^^ 2 ^ j0) ||| 2 ^ j0 = bmp % 2 ^ j := by
            apply Nat.eq_of_testBit_eq
            intro i
            rcases eq_or_ne i j0 with rfl | hi
            · simp [Nat.testBit_or, Nat.testBit_xor, hbj0]
            · simp [Nat.testBit_or, Nat.testBit_xor,
                Nat.testBit_two_pow_of_ne (fun h => hi h.symm)]
          have := popcount_lor_two_pow hy
          rw [hor] at this
          omega
        have hmono : popcount (bmp % 2 ^ j0) ≤ popcount (bmp % 2 ^ j ^^^ 2 ^ j0) := by
          have h1 : (bmp % 2 ^ j ^^^ 2 ^ j0) % 2 ^ j0 = bmp % 2 ^ j0 := by
            apply Nat.eq_of_testBit_eq
            intro i
            simp only [Nat.testBit_mod_two_pow, Nat.testBit_xor]
            rcases Nat.decLt i j0 with h | h
            · simp [h]
            · simp [h, (by omega : i < j), Nat.testBit_two_pow_of_ne (by omega : j0 ≠ i)]
          have := popcount_mod_le (bmp % 2 ^ j ^^^ 2 ^ j0) j0
          rw [h1] at this
          exact this
        have hpos : map_bitindex (bmp ^^^ 2 ^ j0) (2 ^ j) + 1 = map_bitindex bmp (2 ^ j) := by
          rw [map_bitindex_eq, map_bitindex_eq, hmodx j, two_pow_mod_two_pow_of_lt hgt, hclear]
        have harr := @get?_remove_of_ge _ arr (map_bitindex bmp (2 ^ j0))
          (map_bitindex (bmp ^^^ 2 ^ j0) (2 ^ j))
          (by rw [hidx, map_bitindex_eq, hmodx j, two_pow_mod_two_pow_of_lt hgt]; omega) hlt
        rw [harr, hpos]
  · rw [entryAtBit, hxor j0, if_pos rfl]
    simp

/-! ## List toolkit for the observables -/

/-- Leaf bindings contributed by one bitmap entry. -/
def entryItems : BEntry → List (Key × Val)
  | .inl p => [p]
  | .inr c => map_node_toList c

/-- Leaf bindings contributed by one array slot. -/
def slotItems : Option MapNode → List (Key × Val)
  | none => []
  | some c => map_node_toList c

theorem entries_toList_eq (arr : List BEntry) :
    entries_toList arr = arr.flatMap entryItems := by
  induction arr with
  | nil => rfl
  | cons e es ih =>
    cases e with
    | inl p => simp [entries_toList, entryItems, ih]
    | inr c => simp [entries_toList, entryItems, ih]

theorem slots_toList_eq (arr : List (Option MapNode)) :
    slots_toList arr = arr.flatMap slotItems := by
  induction arr with
  | nil => rfl
  | cons e es ih =>
    cases e with
    | none => simp [slots_toList, slotItems, ih]
    | some c => simp [slots_toList, slotItems, ih]

theorem flatMap_get?_enum {α β : Type _} (g : α → List β) (l : List α) :
    l.flatMap g = (List.range l.length).flatMap (fun i => ((l.get? i).map g).getD []) := by
  induction l with
  | nil => rfl
  | cons a l ih =>
    rw [List.flatMap_cons, ih]
    have : List.range (a :: l).length = 0 :: (List.range l.length).map (· + 1) := by
      simp [List.range_succ_eq_map]
    rw [this, List.flatMap_cons, List.flatMap_map]
    rfl

theorem sum_range_congr_except {f1 f2 : Nat → Nat} {m idx : Nat} (hidx : idx < m)
    (h : ∀ i, i ≠ idx → f1 i = f2 i) :
    ((List.range m).map f1).sum + f2 idx = ((List.range m).map f2).sum + f1 idx := by
  induction m with
  | zero => omega
  | succ m ih =>
    rw [List.range_succ, List.map_append, List.map_append, List.sum_append, List.sum_append]
    rcases eq_or_ne m idx with rfl | hm
    · have hall : (List.range m).map f1 = (List.range m).map f2 := by
        apply List.map_congr_left
        intro i hi
        exact h i (by simp at hi; omega)
      rw [hall]
      simp
      omega
    · have := ih (by omega)
      simp [h m hm]
      omega

theorem length_flatMap_eq_sum {α β : Type _} (g : α → List β) (l : List α) :
    (l.flatMap g).length = (l.map (fun a => (g a).length)).sum := by
  induction l with
  | nil => rfl
  | cons a l ih => simp [List.flatMap_cons, ih]

/-! ## Counting set bits below a cut -/

theorem popcount_mod_eq_countP (bmp : Nat) : ∀ j,
    popcount (bmp % 2 ^ j) = (List.range j).countP (fun i => bmp.testBit i) := by
  intro j
  induction j with
  | zero => simp [Nat.pow_zero, Nat.mod_one]
  | succ j ih =>
    rw [popcount_mod_succ, List.range_succ, List.countP_append, ih]
    simp [List.countP_cons]
    cases bmp.testBit j <;> simp

theorem popcount_le_of_lt_two_pow {n m : Nat} (h : n < 2 ^ m) : popcount n ≤ m := by
  induction m generalizing n with
  | zero =>
    have : n = 0 := by omega
    simp [this]
  | succ m ih =>
    rcases eq_or_ne n 0 with rfl | hn
    · simp
    · rw [popcount_pos_eq n hn]
      have : n / 2 < 2 ^ m := by
        rw [Nat.pow_succ] at h
        omega
      have := ih this
      omega

/-- Position of an element of `filter p (range m)` counts the earlier
matches: if the filtered ascending range has `j` at position `i`, then
exactly `i` indices below `j` satisfy `p`. -/
theorem countP_of_filter_range_get? {p : Nat → Bool} {m i j : Nat}
    (h : ((List.range m).filter p).get? i = some j) :
    (List.range j).countP p = i := by
  induction m with
  | zero => simp at h
  | succ m ih =>
    rw [List.range_succ, List.filter_append] at h
    rcases Nat.lt_or_ge i ((List.range m).filter p).length with hi | hi
    · rw [List.get?_append hi] at h
      exact ih h
    · rw [List.get?_append_right hi] at h
      rcases hp : p m with _ | _
      · have hfm : List.filter p [m] = [] := by simp [hp]
        rw [hfm] at h
        simp at h
      · have hfm : List.filter p [m] = [m] := by simp [hp]
        rw [hfm] at h
        rcases hk : i - ((List.range m).filter p).length with _ | k
        · rw [hk] at h
          have hj : j = m := by
            rw [List.get?_cons_zero] at h
            exact ((Option.some.injEq _ _).mp h).symm
          subst hj
          rw [List.countP_eq_length_filter]
          omega
        · rw [hk] at h
          simp at h

/-! ## Set-bit enumeration of a bitmap -/

/-- The set bits of a 32-bit word, ascending. -/
def setBits (bmp : Nat) : List Nat := (List.range 32).filter (fun i => bmp.testBit i)

theorem setBits_length {bmp : Nat} (h : bmp < 2 ^ 32) : (setBits bmp).length = popcount bmp := by
  rw [setBits, ← List.countP_eq_length_filter, ← popcount_mod_eq_countP, Nat.mod_eq_of_lt h]

theorem mem_setBits {bmp j : Nat} : j ∈ setBits bmp ↔ j < 32 ∧ bmp.testBit j = true := by
  simp [setBits, List.mem_filter]

theorem setBits_get?_bitindex {bmp i j : Nat} (h : (setBits bmp).get? i = some j) :
    map_bitindex bmp (2 ^ j) = i := by
  rw [map_bitindex_eq, popcount_mod_eq_countP]
  exact countP_of_filter_range_get? h

/-- Reading each set bit's packed entry enumerates the packed array in
order. -/
theorem setBits_map_get? {bmp : Nat} {arr : List BEntry} (hbmp : bmp < 2 ^ 32)
    (hlen : arr.length = popcount bmp) :
    (setBits bmp).map (fun j => arr.get? (map_bitindex bmp (2 ^ j))) = arr.map some := by
  apply List.ext_get?
  intro i
  rw [List.get?_map, List.get?_map]
  rcases Nat.lt_or_ge i arr.length with hi | hi
  · have hsb : i < (setBits bmp).length := by rw [setBits_length hbmp]; omega
    obtain ⟨j0, hj0⟩ : ∃ j0, (setBits bmp).get? i = some j0 := ⟨_, List.get?_eq_get hsb⟩
    rw [hj0, List.get?_eq_get hi]
    simp [setBits_get?_bitindex hj0, List.get?_eq_get hi]
  · have h1 : (setBits bmp).get? i = none := by
      rw [List.get?_eq_none]
      rw [setBits_length hbmp]
      omega
    have h2 : arr.get? i = none := by
      rw [List.get?_eq_none]
      omega
    rw [h1, h2]
    rfl

/-- A bit set in a bitmap with a full-length packed array has an entry. -/
theorem testBit_entryAtBit {bmp j : Nat} {arr : List BEntry}
    (hlen : arr.length = popcount bmp) (hbit : bmp.testBit j = true) :
    ∃ e, entryAtBit bmp arr j = some e := by
  have hlt : map_bitindex bmp (2 ^ j) < arr.length := by
    rw [map_bitindex_eq, hlen]
    exact popcount_lt_of_testBit hbit
  exact ⟨_, by rw [entryAtBit, if_pos hbit]; exact List.get?_eq_get hlt⟩

/-- Every packed entry sits at some set bit. -/
theorem get?_exists_bit {bmp : Nat} {arr : List BEntry} {i : Nat} {e : BEntry}
    (hbmp : bmp < 2 ^ 32) (hlen : arr.length = popcount bmp)
    (hget : arr.get? i = some e) :
    ∃ j, bmp.testBit j = true ∧ map_bitindex bmp (2 ^ j) = i ∧
      entryAtBit bmp arr j = some e := by
  have hi : i < arr.length := (List.get?_eq_some.mp hget).1
  have hsb : i < (setBits bmp).length := by rw [setBits_length hbmp]; omega
  obtain ⟨j0, hj0⟩ : ∃ j0, (setBits bmp).get? i = some j0 := ⟨_, List.get?_eq_get hsb⟩
  have hbit := (mem_setBits.mp (List.get?_mem hj0)).2
  refine ⟨j0, hbit, setBits_get?_bitindex hj0, ?_⟩
  rw [entryAtBit, if_pos hbit, setBits_get?_bitindex hj0, hget]

/-! ## Building a packed table from an ascending bit list

Used for the Array→Bitmap demotion (lines 1955-2034), which assembles the
new bitmap and packed array by walking slots in ascending order. -/

def pairsBitmap (l : List (Nat × BEntry)) : Nat := l.foldl (fun b p => b ||| 2 ^ p.1) 0

theorem pairsBitmap_append (l : List (Nat × BEntry)) (p : Nat × BEntry) :
    pairsBitmap (l ++ [p]) = pairsBitmap l ||| 2 ^ p.1 := by
  rw [pairsBitmap, List.foldl_append]
  rfl

theorem ascending_build (l : List (Nat × BEntry))
    (hasc : l.Pairwise (fun a b => a.1 < b.1)) :
    popcount (pairsBitmap l) = l.length ∧
    (∀ j, (pairsBitmap l).testBit j = true ↔ j ∈ l.map Prod.fst) ∧
    (∀ i p, l.get? i = some p →
      entryAtBit (pairsBitmap l) (l.map Prod.snd) p.1 = some p.2 ∧
      map_bitindex (pairsBitmap l) (2 ^ p.1) = i) ∧
    (∀ j, j ∉ l.map Prod.fst → entryAtBit (pairsBitmap l) (l.map Prod.snd) j = none) := by
  induction l using List.reverseRecOn with
  | nil =>
    refine ⟨by simp [pairsBitmap], ?_, ?_, ?_⟩
    · intro j; simp [pairsBitmap]
    · intro i p h; simp at h
    · intro j h; simp [entryAtBit, pairsBitmap]
  | append_singleton l p ih =>
    have hasc' : l.Pairwise (fun a b => a.1 < b.1) := (List.pairwise_append.mp hasc).1
    have hlt : ∀ q ∈ l, q.1 < p.1 := by
      intro q hq
      exact (List.pairwise_append.mp hasc).2.2 q hq p (by simp)
    obtain ⟨ihpc, ihtb, ihsome, ihnone⟩ := ih hasc'
    have hbmplt : pairsBitmap l < 2 ^ p.1 := by
      apply Nat.lt_pow_two_of_testBit
      intro i hi
      rcases hb : (pairsBitmap l).testBit i with _ | _
      · rfl
      · have := (ihtb i).mp hb
        simp only [List.mem_map] at this
        obtain ⟨q, hq, rfl⟩ := this
        have := hlt q hq
        omega
    have hfree : (pairsBitmap l).testBit p.1 = false := by
      rcases hb : (pairsBitmap l).testBit p.1 with _ | _
      · rfl
      · have := (ihtb p.1).mp hb
        simp only [List.mem_map] at this
        obtain ⟨q, hq, he⟩ := this
        have := hlt q hq
        omega
    have hbmp' := pairsBitmap_append l p
    have hidx : map_bitindex (pairsBitmap l) (2 ^ p.1) = l.length := by
      rw [map_bitindex_eq, Nat.mod_eq_of_lt hbmplt, ihpc]
    have hlen2 : (l.map Prod.snd).length = popcount (pairsBitmap l) := by
      simp [ihpc]
    have hins := @entryAtBit_insert (pairsBitmap l) (l.map Prod.snd) p.1 p.2 hfree hlen2
    have hform : (l.map Prod.snd).take (map_bitindex (pairsBitmap l) (2 ^ p.1)) ++
        p.2 :: (l.map Prod.snd).drop (map_bitindex (pairsBitmap l) (2 ^ p.1)) =
        (l ++ [p]).map Prod.snd := by
      rw [hidx]
      have h1 : (l.map Prod.snd).take l.length = l.map Prod.snd :=
        List.take_of_length_le (by simp)
      have h2 : (l.map Prod.snd).drop l.length = [] :=
        List.drop_of_length_le (by simp)
      rw [h1, h2]
      simp
    refine ⟨?_, ?_, ?_, ?_⟩
    · rw [hbmp', popcount_lor_two_pow hfree, ihpc]
      simp
    · intro j
      rw [hbmp', Nat.testBit_or, Nat.testBit_two_pow]
      simp only [List.map_append, List.mem_append]
      rw [← ihtb j]
      constructor
      · intro h
        rcases Bool.or_eq_true_iff.mp h with h | h
        · exact Or.inl h
        · right
          simp at h
          simp [h]
      · intro h
        rcases h with h | h
        · simp [h]
        · simp at h
          simp [h]
    · intro i q hq
      rcases Nat.lt_or_ge i l.length with hi | hi
      · rw [List.get?_append (by simpa using hi)] at hq
        obtain ⟨hsome, hpos⟩ := ihsome i q hq
        have hqlt : q.1 ≠ p.1 := by
          have := hlt q (List.get?_mem hq)
          omega
        constructor
        · rw [hbmp', ← hform, hins.1 q.1 hqlt]
          exact hsome
        · -- the packed index of a lower bit is unchanged by setting a higher bit
          rw [hbmp', map_bitindex_eq, mod_two_pow_lor,
              two_pow_mod_two_pow_of_ge (le_of_lt (hlt q (List.get?_mem hq))),
              Nat.or_zero, ← map_bitindex_eq]
          exact hpos
      · rw [List.get?_append_right (by simpa using hi)] at hq
        have hilen : i < l.length + 1 := by
          have := (List.get?_eq_some.mp hq).1
          simp at this
          omega
        have hi0 : i - l.length = 0 := by omega
        rw [hi0] at hq
        have hq' : p = q := by simpa using hq
        subst hq'
        constructor
        · rw [hbmp', ← hform]
          exact hins.2
        · rw [hbmp', map_bitindex_eq, lor_two_pow_mod_self, ← map_bitindex_eq, hidx]
          omega
    · intro j hj
      simp only [List.map_append, List.mem_append] at hj
      push_neg at hj
      have hj2 : j ≠ p.1 := by
        have := hj.2
        simp at this
        exact this
      rw [hbmp', ← hform, hins.1 j hj2]
      exact ihnone j hj.1

/-! ## Hash-window lemmas -/

/-- Agreement on the low `s` bits plus agreement on the window at `s`
extends agreement to the low `s+5` bits. -/
theorem mod_pow_step {a b s : Nat} (hmod : a % 2 ^ s = b % 2 ^ s)
    (hmask : map_mask a s = map_mask b s) : a % 2 ^ (s + 5) = b % 2 ^ (s + 5) := by
  have hm : ∀ x : Nat, x % 2 ^ (s + 5) = x % 2 ^ s + 2 ^ s * (x / 2 ^ s % 32) := by
    intro x
    have h32 : (2 : Nat) ^ (s + 5) = 2 ^ s * 32 := by rw [Nat.pow_add]
    rw [h32, Nat.mod_mul]
  rw [map_mask_eq, map_mask_eq] at hmask
  rw [hm a, hm b, hmod, hmask]

/-- Two 32-bit hashes with equal low 30 bits and equal windows at shift 30
are equal. -/
theorem eq_of_window30 {a b : Nat} (ha : a < 2 ^ 32) (hb : b < 2 ^ 32)
    (hmod : a % 2 ^ 30 = b % 2 ^ 30) (hmask : map_mask a 30 = map_mask b 30) : a = b := by
  rw [map_mask_eq, map_mask_eq] at hmask
  have ha4 : a / 2 ^ 30 < 4 := by omega
  have hb4 : b / 2 ^ 30 < 4 := by omega
  rw [Nat.mod_eq_of_lt (by omega), Nat.mod_eq_of_lt (by omega)] at hmask
  omega

theorem map_mask_lt_4_at_30 {a : Nat} (ha : a < 2 ^ 32) : map_mask a 30 < 4 := by
  rw [map_mask_eq]
  have : a / 2 ^ 30 < 4 := by omega
  omega

/-! ## Structural well-formedness

The inductive invariant maintained by every tree produced by the library
(§3 of how the source maintains its trees): bitmap and array nodes exist
only at shifts 0,5,...,30; a bitmap's packed array matches its bitmap; a
set bit's entry holds keys whose hash window at this shift is that bit's
index; array nodes have 32 slots, an accurate occupancy count of at least
16, and shift-consistent children; collision nodes hold at least two
pairs, all hashing to `c_hash`.  Children are nonempty; a bitmap child of
a bitmap node is never a single leaf (it would have been inlined, lines
1072-1110). -/

/-- Shape constraint a Bitmap node imposes on a child node (a single-leaf
bitmap child would have been inlined; an empty bitmap child cannot
arise). -/
def bitmapChildShape : MapNode → Prop
  | .bitmapN _ _ arr => arr ≠ [] ∧ ∀ k v, arr ≠ [.inl (k, v)]
  | .arrayN _ _ _ => True
  | .collisionN _ _ _ => True

/-- Shape constraint an Array node imposes on a child node (single-leaf
bitmap children are allowed there; empty ones cannot arise). -/
def arrayChildShape : MapNode → Prop
  | .bitmapN _ _ arr => arr ≠ []
  | .arrayN _ _ _ => True
  | .collisionN _ _ _ => True

mutual

inductive NodeWF : MapNode → Nat → Prop where
  | bitmap {b_mutid b_bitmap : Nat} {b_array : List BEntry} {shift : Nat}
      (hshift : shift ≤ 30) (hmul : shift % 5 = 0)
      (hlen : b_array.length = popcount b_bitmap)
      (hentries : ∀ j e, entryAtBit b_bitmap b_array j = some e → BEntryWF shift j e) :
      NodeWF (.bitmapN b_mutid b_bitmap b_array) shift
  | array {a_mutid a_count : Nat} {a_array : List (Option MapNode)} {shift : Nat}
      (hshift : shift ≤ 25) (hmul : shift % 5 = 0)
      (hlen : a_array.length = 32)
      (hcount : a_count = (a_array.filterMap id).length)
      (hge : 16 ≤ a_count)
      (hwf : ∀ j c, a_array.get? j = some (some c) → NodeWF c (shift + 5))
      (hkeys : ∀ j c, a_array.get? j = some (some c) → ∀ k ∈ nodeKeys c,
        map_mask (hash32 k) shift = j)
      (hshape : ∀ j c, a_array.get? j = some (some c) →
        arrayChildShape c ∧ 1 ≤ leafCount c) :
      NodeWF (.arrayN a_mutid a_count a_array) shift
  | collision {c_mutid c_hash : Nat} {c_array : List (Key × Val)} {shift : Nat}
      (hlen : 2 ≤ c_array.length)
      (hhash : ∀ p ∈ c_array, hash32 p.1 = c_hash) :
      NodeWF (.collisionN c_mutid c_hash c_array) shift

inductive BEntryWF : Nat → Nat → BEntry → Prop where
  | leaf {shift j : Nat} {k : Key} {v : Val}
      (hmask : map_mask (hash32 k) shift = j) :
      BEntryWF shift j (.inl (k, v))
  | child {shift j : Nat} {c : MapNode}
      (hwf : NodeWF c (shift + 5))
      (hkeys : ∀ k ∈ nodeKeys c, map_mask (hash32 k) shift = j)
      (hshape : bitmapChildShape c)
      (hcnt : 1 ≤ leafCount c) :
      BEntryWF shift j (.inr c)

end

/-- All keys of a subtree agree with `hash` on the bits consumed by the
path to this subtree. -/
def KeysBelowCongr (n : MapNode) (shift hash : Nat) : Prop :=
  ∀ k ∈ nodeKeys n, hash32 k % 2 ^ shift = hash % 2 ^ shift

/-- The map-level invariant: a well-formed root and an accurate count. -/
def MapWF (o : MapObject) : Prop :=
  NodeWF o.h_root 0 ∧ o.h_count = leafCount o.h_root

/-! ## Unfolding and bookkeeping lemmas for the observables -/

@[simp] theorem map_node_toList_bitmapN {m bmp : Nat} {arr : List BEntry} :
    map_node_toList (.bitmapN m bmp arr) = entries_toList arr := by
  rw [map_node_toList]

@[simp] theorem map_node_toList_arrayN {m c : Nat} {arr : List (Option MapNode)} :
    map_node_toList (.arrayN m c arr) = slots_toList arr := by
  rw [map_node_toList]

@[simp] theorem map_node_toList_collisionN {m h : Nat} {arr : List (Key × Val)} :
    map_node_toList (.collisionN m h arr) = arr := by
  rw [map_node_toList]

theorem mem_entries_toList_of_entry {arr : List BEntry} {e : BEntry} (he : e ∈ arr)
    {p : Key × Val} (hp : p ∈ entryItems e) : p ∈ entries_toList arr := by
  rw [entries_toList_eq]
  exact List.mem_flatMap.mpr ⟨e, he, hp⟩

theorem mem_slots_toList_of_slot {arr : List (Option MapNode)} {c : MapNode}
    (he : some c ∈ arr) {p : Key × Val} (hp : p ∈ map_node_toList c) :
    p ∈ slots_toList arr := by
  rw [slots_toList_eq]
  exact List.mem_flatMap.mpr ⟨some c, he, hp⟩

theorem exists_key_of_leafCount {c : MapNode} (h : 1 ≤ leafCount c) :
    ∃ k, k ∈ nodeKeys c := by
  rw [leafCount] at h
  rcases hl : map_node_toList c with _ | ⟨p, rest⟩
  · rw [hl] at h; simp at h
  · exact ⟨p.1, by rw [nodeKeys, hl]; simp⟩

theorem mem_nodeKeys_iff {n : MapNode} {k : Key} :
    k ∈ nodeKeys n ↔ ∃ v, (k, v) ∈ map_node_toList n := by
  rw [nodeKeys]
  constructor
  · intro h
    rcases List.mem_map.mp h with ⟨p, hp, rfl⟩
    exact ⟨p.2, hp⟩
  · rintro ⟨v, hv⟩
    exact List.mem_map.mpr ⟨(k, v), hv, rfl⟩

/-- Splitting the bindings of a packed array that is updated at a
position: the contributions of the other entries are unchanged. -/
theorem entries_toList_set {arr : List BEntry} {idx : Nat} {eOld : BEntry} (e : BEntry)
    (hget : arr.get? idx = some eOld) :
    entries_toList (arr.set idx e) =
      entries_toList (arr.take idx) ++ entryItems e ++ entries_toList (arr.drop (idx + 1)) ∧
    entries_toList arr =
      entries_toList (arr.take idx) ++ entryItems eOld ++ entries_toList (arr.drop (idx + 1)) := by
  have hidx : idx < arr.length := (List.get?_eq_some.mp hget).1
  have hold : arr[idx] = eOld := by
    have := List.get?_eq_get hidx
    rw [hget] at this
    simpa using this.symm
  constructor
  · rw [List.set_eq_take_cons_drop e hidx]
    simp [entries_toList_eq, List.flatMap_append, List.append_assoc]
  · conv_lhs => rw [← List.take_append_drop idx arr, List.drop_eq_getElem_cons hidx, hold]
    simp [entries_toList_eq, List.flatMap_append, List.append_assoc]

/-- Splitting the bindings after inserting an entry at a position. -/
theorem entries_toList_insert {arr : List BEntry} {idx : Nat} (e : BEntry)
    (hle : idx ≤ arr.length) :
    entries_toList (arr.take idx ++ e :: arr.drop idx) =
      entries_toList (arr.take idx) ++ entryItems e ++ entries_toList (arr.drop idx) := by
  simp [entries_toList_eq, List.flatMap_append, List.append_assoc]

/-- Splitting the bindings after removing the entry at a position. -/
theorem entries_toList_remove {arr : List BEntry} {idx : Nat} {eOld : BEntry}
    (hget : arr.get? idx = some eOld) :
    entries_toList (arr.take idx ++ arr.drop (idx + 1)) =
      entries_toList (arr.take idx) ++ entries_toList (arr.drop (idx + 1)) := by
  simp [entries_toList_eq, List.flatMap_append]

/-- The slot analogue of `entries_toList_set`. -/
theorem slots_toList_set {arr : List (Option MapNode)} {idx : Nat}
    {sOld : Option MapNode} (s : Option MapNode)
    (hget : arr.get? idx = some sOld) :
    slots_toList (arr.set idx s) =
      slots_toList (arr.take idx) ++ slotItems s ++ slots_toList (arr.drop (idx + 1)) ∧
    slots_toList arr =
      slots_toList (arr.take idx) ++ slotItems sOld ++ slots_toList (arr.drop (idx + 1)) := by
  have hidx : idx < arr.length := (List.get?_eq_some.mp hget).1
  have hold : arr[idx] = sOld := by
    have := List.get?_eq_get hidx
    rw [hget] at this
    simpa using this.symm
  constructor
  · rw [List.set_eq_take_cons_drop s hidx]
    simp [slots_toList_eq, List.flatMap_append, List.append_assoc]
  · conv_lhs => rw [← List.take_append_drop idx arr, List.drop_eq_getElem_cons hidx, hold]
    simp [slots_toList_eq, List.flatMap_append, List.append_assoc]

/-! ## Facts derived from well-formedness -/

theorem NodeWF_bitmap_lt {m bmp s : Nat} {arr : List BEntry}
    (h : NodeWF (.bitmapN m bmp arr) s) : bmp < 2 ^ 32 := by
  cases h with
  | bitmap hshift hmul hlen hentries =>
    apply Nat.lt_pow_two_of_testBit
    intro i hi
    rcases hb : bmp.testBit i with _ | _
    · rfl
    · exfalso
      obtain ⟨e, he⟩ := testBit_entryAtBit hlen hb
      have hwf := hentries i e he
      cases hwf with
      | leaf hmask =>
        have hlt32 : i < 32 := by
          rw [← hmask]
          exact map_mask_lt _ s
        omega
      | child hwf hkeys hshape hcnt =>
        obtain ⟨k, hk⟩ := exists_key_of_leafCount hcnt
        have h1 := hkeys k hk
        have hlt32 : i < 32 := by
          rw [← h1]
          exact map_mask_lt _ s
        omega

/-- Every packed entry of a well-formed bitmap node sits at a set bit and
satisfies the per-bit invariant. -/
theorem NodeWF_entry_of_get? {m bmp s i : Nat} {arr : List BEntry} {e : BEntry}
    (h : NodeWF (.bitmapN m bmp arr) s) (hget : arr.get? i = some e) :
    ∃ j, bmp.testBit j = true ∧ map_bitindex bmp (2 ^ j) = i ∧
      entryAtBit bmp arr j = some e ∧ BEntryWF s j e := by
  have hlt := NodeWF_bitmap_lt h
  cases h with
  | bitmap hshift hmul hlen hentries =>
    obtain ⟨j, h1, h2, h3⟩ := get?_exists_bit hlt hlen hget
    exact ⟨j, h1, h2, h3, hentries j _ h3⟩

/-- A bitmap node with at least 16 packed entries can only exist at shifts
up to 25: at shift 30 only four windows exist. -/
theorem NodeWF_promotion_shift {m bmp s : Nat} {arr : List BEntry}
    (h : NodeWF (.bitmapN m bmp arr) s) (h16 : 16 ≤ popcount bmp) : s ≤ 25 := by
  rcases h with ⟨hshift, hmul, hlen, hentries⟩
  by_contra hgt
  have hs30 : s = 30 := by omega
  subst hs30
  have hbits : ∀ j, bmp.testBit j = true → j < 4 := by
    intro j hb
    obtain ⟨e, he⟩ := testBit_entryAtBit hlen hb
    have hwf := hentries j e he
    cases hwf with
    | leaf hmask =>
      have hlt4 : j < 4 := by
        rw [← hmask]
        exact map_mask_lt_4_at_30 (hash32_lt _)
      omega
    | child hwf hkeys hshape hcnt =>
      obtain ⟨k, hk⟩ := exists_key_of_leafCount hcnt
      have h1 := hkeys k hk
      have hlt4 : j < 4 := by
        rw [← h1]
        exact map_mask_lt_4_at_30 (hash32_lt _)
      omega
  have hsmall : bmp < 2 ^ 4 := by
    apply Nat.lt_pow_two_of_testBit
    intro i hi
    rcases hb : bmp.testBit i with _ | _
    · rfl
    · have := hbits i hb
      omega
  have := popcount_le_of_lt_two_pow hsmall
  omega

/-! ## Single-leaf bitmap nodes and the find bridge -/

theorem popcount_two_pow (j : Nat) : popcount (2 ^ j) = 1 := by
  have h := popcount_lor_two_pow (n := 0) (j := j) (by simp)
  simpa using h

theorem entryAtBit_single (e : BEntry) (j0 j : Nat) :
    entryAtBit (2 ^ j0) [e] j = if j = j0 then some e else none := by
  rcases eq_or_ne j j0 with rfl | hj
  · rw [entryAtBit, if_pos Nat.testBit_two_pow_self, map_bitindex_eq, Nat.mod_self,
        popcount_zero]
    simp
  · have hb : (2 ^ j0).testBit j = false := Nat.testBit_two_pow_of_ne (fun hc => hj hc.symm)
    simp [entryAtBit, hb, hj]

/-- `map_node_find` on a bitmap node reads the entry of the hash's window
bit. -/
theorem map_node_find_bitmapN (m bmp s h : Nat) (arr : List BEntry) (k : Key) :
    map_node_find (.bitmapN m bmp arr) s h k =
      match entryAtBit bmp arr (map_mask h s) with
      | none => none
      | some (.inr c) => map_node_find c (s + 5) h k
      | some (.inl (k', v)) => if k = k' then some v else none := by
  rw [map_node_find, entryAtBit]
  rcases hb : bmp.testBit (map_mask h s) with _ | _
  · have hz : bmp &&& map_bitpos h s = 0 := by
      rw [map_bitpos_eq, Nat.and_two_pow, hb]
      simp
    simp [hz]
  · have hz : ¬ bmp &&& map_bitpos h s = 0 := by
      rw [map_bitpos_eq]
      exact (and_two_pow_ne_zero_iff bmp (map_mask h s)).mpr hb
    rw [map_bitpos_eq] at hz ⊢
    simp only [hz, if_neg, ite_not, if_pos]
    rcases hg : arr.get? (map_bitindex bmp (2 ^ map_mask h s)) with _ | e
    · simp [hg]
    · rcases e with p | c
      · simp [hg]
      · simp [hg]

theorem map_node_bitmap_single_wf {mutid s h : Nat} {k : Key} {v : Val}
    (hh : h = hash32 k) (hs : s ≤ 30) (hmul : s % 5 = 0) :
    NodeWF (map_node_bitmap_single mutid s h k v) s := by
  rw [map_node_bitmap_single]
  refine NodeWF.bitmap hs hmul ?_ ?_
  · rw [map_bitpos_eq, popcount_two_pow]
    rfl
  · intro j e he
    rw [map_bitpos_eq, entryAtBit_single] at he
    rcases eq_or_ne j (map_mask h s) with rfl | hj
    · rw [if_pos rfl] at he
      cases he
      exact BEntryWF.leaf (by rw [hh])
    · rw [if_neg hj] at he
      cases he

@[simp] theorem map_node_bitmap_single_toList {mutid s h : Nat} {k : Key} {v : Val} :
    map_node_toList (map_node_bitmap_single mutid s h k v) = [(k, v)] := by
  rw [map_node_bitmap_single]
  simp [entries_toList]

theorem map_node_bitmap_single_find {mutid s h : Nat} {k : Key} {v : Val} :
    map_node_find (map_node_bitmap_single mutid s h k v) s h k = some v := by
  rw [map_node_bitmap_single, map_node_find_bitmapN, map_bitpos_eq, entryAtBit_single]
  simp

/-! ## Collision scan lemmas -/

theorem find_index_some {key : Key} {l : List (Key × Val)} {i : Nat}
    (h : map_node_collision_find_index key l = some i) :
    ∃ p, l.get? i = some p ∧ key = p.1 := by
  induction l generalizing i with
  | nil => simp [map_node_collision_find_index] at h
  | cons q rest ih =>
    rw [map_node_collision_find_index] at h
    by_cases hqe : key = q.1
    · rw [if_pos hqe] at h
      cases h
      exact ⟨q, rfl, hqe⟩
    · rw [if_neg hqe] at h
      rcases hr : map_node_collision_find_index key rest with _ | j
      · rw [hr] at h
        simp at h
      · rw [hr] at h
        simp only [Option.map_some'] at h
        obtain rfl : i = j + 1 := (Option.some.inj h).symm
        obtain ⟨p, hp, hk⟩ := ih hr
        exact ⟨p, by simpa [List.get?] using hp, hk⟩

theorem find_index_none {key : Key} {l : List (Key × Val)}
    (h : map_node_collision_find_index key l = none) :
    ∀ p ∈ l, key ≠ p.1 := by
  induction l with
  | nil => simp
  | cons q rest ih =>
    rw [map_node_collision_find_index] at h
    by_cases hqe : key = q.1
    · rw [if_pos hqe] at h
      cases h
    · rw [if_neg hqe] at h
      intro p hp
      rw [List.mem_cons] at hp
      rcases hp with hp | hp
      · rw [hp]
        exact hqe
      · rcases hr : map_node_collision_find_index key rest with _ | j
        · exact ih hr p hp
        · rw [hr] at h
          simp at h

theorem find_index_set {key : Key} {l : List (Key × Val)} {i : Nat} {p : Key × Val}
    (hp : l.get? i = some p) (hk : key = p.1)
    (h : map_node_collision_find_index key l = some i) (v : Val) :
    map_node_collision_find_index key (l.set i (p.1, v)) = some i := by
  induction l generalizing i with
  | nil => simp [map_node_collision_find_index] at h
  | cons q rest ih =>
    rw [map_node_collision_find_index] at h
    by_cases hqe : key = q.1
    · rw [if_pos hqe] at h
      cases h
      simp only [List.get?] at hp
      cases hp
      rw [List.set_cons_zero, map_node_collision_find_index, if_pos hqe]
    · rw [if_neg hqe] at h
      rcases hr : map_node_collision_find_index key rest with _ | j
      · rw [hr] at h
        simp at h
      · rw [hr] at h
        simp only [Option.map_some'] at h
        rcases i with _ | i0
        · cases h
        · simp only [List.get?] at hp
          have hj : j = i0 := by
            have := Option.some.inj h
            omega
          rw [hj] at hr
          rw [List.set_cons_succ, map_node_collision_find_index, if_neg hqe,
            ih hp hr]
          simp

theorem find_index_append_none {key : Key} {l : List (Key × Val)} {p : Key × Val}
    (h : map_node_collision_find_index key l = none) (hk : key = p.1) :
    map_node_collision_find_index key (l ++ [p]) = some l.length := by
  induction l with
  | nil => simp [map_node_collision_find_index, hk]
  | cons q rest ih =>
    rw [map_node_collision_find_index] at h
    by_cases hqe : key = q.1
    · rw [if_pos hqe] at h
      cases h
    · rw [if_neg hqe] at h
      rcases hr : map_node_collision_find_index key rest with _ | j
      · rw [List.cons_append, map_node_collision_find_index, if_neg hqe, ih hr]
        simp
      · rw [hr] at h
        simp at h

/-! ## Two-leaf bitmap nodes -/

theorem entryAtBit_two {ja jb : Nat} (hlt : ja < jb) (ea eb : BEntry) (j : Nat) :
    entryAtBit (2 ^ ja ||| 2 ^ jb) [ea, eb] j =
      if j = ja then some ea else if j = jb then some eb else none := by
  by_cases h1 : j = ja
  · subst h1
    have hbit : (2 ^ j ||| 2 ^ jb).testBit j = true := by
      rw [Nat.testBit_or, Nat.testBit_two_pow_self]
      simp
    rw [entryAtBit, if_pos hbit, map_bitindex_eq, mod_two_pow_lor, Nat.mod_self,
      two_pow_mod_two_pow_of_ge (Nat.le_of_lt hlt)]
    simp
  · by_cases h2 : j = jb
    · subst h2
      have hbit : (2 ^ ja ||| 2 ^ j).testBit j = true := by
        rw [Nat.testBit_or, Nat.testBit_two_pow_self]
        simp
      rw [entryAtBit, if_pos hbit, map_bitindex_eq, mod_two_pow_lor, Nat.mod_self,
        two_pow_mod_two_pow_of_lt hlt]
      simp [popcount_two_pow, h1]
    · have hbit : (2 ^ ja ||| 2 ^ jb).testBit j = false := by
        rw [Nat.testBit_or, Nat.testBit_two_pow_of_ne (fun hc => h1 hc.symm),
          Nat.testBit_two_pow_of_ne (fun hc => h2 hc.symm)]
        rfl
      simp [entryAtBit, hbit, h1, h2]

theorem two_leaf_wf {mutid s : Nat} {ka kb : Key} {va vb : Val}
    (hs : s ≤ 30) (hmul : s % 5 = 0)
    (hlt : map_mask (hash32 ka) s < map_mask (hash32 kb) s) :
    NodeWF (.bitmapN mutid (2 ^ map_mask (hash32 ka) s ||| 2 ^ map_mask (hash32 kb) s)
      [.inl (ka, va), .inl (kb, vb)]) s := by
  have htb : (2 ^ map_mask (hash32 ka) s).testBit (map_mask (hash32 kb) s) = false :=
    Nat.testBit_two_pow_of_ne (Nat.ne_of_lt hlt)
  refine NodeWF.bitmap hs hmul ?_ ?_
  · rw [popcount_lor_two_pow htb, popcount_two_pow]
    rfl
  · intro j e he
    rw [entryAtBit_two hlt] at he
    by_cases h1 : j = map_mask (hash32 ka) s
    · rw [if_pos h1] at he
      cases he
      exact BEntryWF.leaf h1.symm
    · rw [if_neg h1] at he
      by_cases h2 : j = map_mask (hash32 kb) s
      · rw [if_pos h2] at he
        cases he
        exact BEntryWF.leaf h2.symm
      · rw [if_neg h2] at he
        cases he

theorem two_leaf_find_fst {mutid s : Nat} {ka kb : Key} {va vb : Val}
    (hlt : map_mask (hash32 ka) s < map_mask (hash32 kb) s) :
    map_node_find (.bitmapN mutid (2 ^ map_mask (hash32 ka) s ||| 2 ^ map_mask (hash32 kb) s)
      [.inl (ka, va), .inl (kb, vb)]) s (hash32 ka) ka = some va := by
  rw [map_node_find_bitmapN, entryAtBit_two hlt, if_pos rfl]
  simp

theorem two_leaf_find_snd {mutid s : Nat} {ka kb : Key} {va vb : Val}
    (hlt : map_mask (hash32 ka) s < map_mask (hash32 kb) s) :
    map_node_find (.bitmapN mutid (2 ^ map_mask (hash32 ka) s ||| 2 ^ map_mask (hash32 kb) s)
      [.inl (ka, va), .inl (kb, vb)]) s (hash32 kb) kb = some vb := by
  rw [map_node_find_bitmapN, entryAtBit_two hlt, if_neg (Nat.ne_of_gt hlt), if_pos rfl]
  simp

theorem map_mask_35_eq_zero {a : Nat} (ha : a < 2 ^ 32) : map_mask a 35 = 0 := by
  rw [map_mask_eq]
  have h0 : a / 2 ^ 35 = 0 := Nat.div_eq_of_lt (lt_trans ha (by norm_num))
  rw [h0]

/-! ## Branch values of map_node_new_bitmap_or_collision -/

theorem mkBoC_eq_collision {shift : Nat} {key1 : Key} {val1 : Val} {key2_hash : Nat}
    {key2 : Key} {val2 : Val} {mutid : Nat} (h : hash32 key1 = key2_hash) :
    map_node_new_bitmap_or_collision shift key1 val1 key2_hash key2 val2 mutid =
      .collisionN mutid (hash32 key1) [(key1, val1), (key2, val2)] := by
  rw [map_node_new_bitmap_or_collision]
  simp [h]

theorem mkBoC_eq_rec {shift : Nat} {key1 : Key} {val1 : Val} {key2_hash : Nat}
    {key2 : Key} {val2 : Val} {mutid : Nat}
    (h1 : hash32 key1 ≠ key2_hash)
    (h2 : map_bitpos key2_hash shift = map_bitpos (hash32 key1) shift)
    (h3 : key2 ≠ key1) (h4 : ¬ 30 < shift) :
    map_node_new_bitmap_or_collision shift key1 val1 key2_hash key2 val2 mutid =
      .bitmapN mutid (map_bitpos (hash32 key1) shift)
        [.inr (map_node_new_bitmap_or_collision (shift + 5) key1 val1 key2_hash key2 val2
          mutid)] := by
  rw [map_node_new_bitmap_or_collision]
  simp [h1, h2, h3, h4]

theorem mkBoC_eq_two_lt {shift : Nat} {key1 : Key} {val1 : Val} {key2_hash : Nat}
    {key2 : Key} {val2 : Val} {mutid : Nat}
    (h1 : hash32 key1 ≠ key2_hash)
    (h2 : map_bitpos key2_hash shift ≠ map_bitpos (hash32 key1) shift)
    (h5 : map_mask key2_hash shift < map_mask (hash32 key1) shift) :
    map_node_new_bitmap_or_collision shift key1 val1 key2_hash key2 val2 mutid =
      .bitmapN mutid (map_bitpos (hash32 key1) shift ||| map_bitpos key2_hash shift)
        [.inl (key2, val2), .inl (key1, val1)] := by
  rw [map_node_new_bitmap_or_collision]
  simp [h1, h2, h5]

theorem mkBoC_eq_two_ge {shift : Nat} {key1 : Key} {val1 : Val} {key2_hash : Nat}
    {key2 : Key} {val2 : Val} {mutid : Nat}
    (h1 : hash32 key1 ≠ key2_hash)
    (h2 : map_bitpos key2_hash shift ≠ map_bitpos (hash32 key1) shift)
    (h5 : ¬ map_mask key2_hash shift < map_mask (hash32 key1) shift) :
    map_node_new_bitmap_or_collision shift key1 val1 key2_hash key2 val2 mutid =
      .bitmapN mutid (map_bitpos (hash32 key1) shift ||| map_bitpos key2_hash shift)
        [.inl (key1, val1), .inl (key2, val2)] := by
  rw [map_node_new_bitmap_or_collision]
  simp [h1, h2, h5]

/-- Specification of `map_node_new_bitmap_or_collision`: called on two
distinct keys whose hashes agree below `shift`, it builds a well-formed
two-leaf subtree holding exactly the two pairs, in which the second key is
found, and which satisfies both child-shape constraints. -/
theorem mkBoC_spec (shift : Nat) (key1 : Key) (val1 : Val) (key2_hash : Nat)
    (key2 : Key) (val2 : Val) (mutid : Nat) :
    shift % 5 = 0 → shift ≤ 35 → key1 ≠ key2 → key2_hash = hash32 key2 →
    hash32 key1 % 2 ^ shift = key2_hash % 2 ^ shift →
    NodeWF (map_node_new_bitmap_or_collision shift key1 val1 key2_hash key2 val2 mutid)
      shift ∧
    (map_node_toList (map_node_new_bitmap_or_collision shift key1 val1 key2_hash key2 val2
        mutid) = [(key1, val1), (key2, val2)] ∨
      map_node_toList (map_node_new_bitmap_or_collision shift key1 val1 key2_hash key2 val2
        mutid) = [(key2, val2), (key1, val1)]) ∧
    map_node_find (map_node_new_bitmap_or_collision shift key1 val1 key2_hash key2 val2
      mutid) shift key2_hash key2 = some val2 ∧
    bitmapChildShape (map_node_new_bitmap_or_collision shift key1 val1 key2_hash key2 val2
      mutid) ∧
    arrayChildShape (map_node_new_bitmap_or_collision shift key1 val1 key2_hash key2 val2
      mutid) := by
  induction shift, key1, val1, key2_hash, key2, val2, mutid using
      map_node_new_bitmap_or_collision.induct with
  | case1 shift key1 val1 key2 val2 mutid key1_hash =>
    intro hmul hle hne hk2 hcong
    have heq : hash32 key1 = key1_hash := rfl
    rw [mkBoC_eq_collision heq]
    have hne21 : key2 ≠ key1 := fun hc => hne hc.symm
    refine ⟨?_, ?_, ?_, ?_, ?_⟩
    · refine NodeWF.collision (by simp) ?_
      intro p hp
      rcases List.mem_pair.mp hp with hp | hp
      · rw [hp]
      · rw [hp]
        exact hk2.symm
    · left
      simp
    · rw [map_node_find]
      simp [map_node_collision_find_index, hne21]
    · simp [bitmapChildShape]
    · simp [arrayChildShape]
  | case2 shift val1 key2_hash key2 val2 mutid key1_hash h1 h2 =>
    intro hmul hle hne hk2 hcong
    exact absurd rfl hne
  | case3 shift key1 val1 key2_hash key2 val2 mutid key1_hash h1 h2 h3 h4 =>
    intro hmul hle hne hk2 hcong
    exfalso
    have h35 : shift = 35 := by omega
    apply h1
    rw [h35] at hcong
    rw [Nat.mod_eq_of_lt (lt_trans (hash32_lt key1) (by norm_num)),
      Nat.mod_eq_of_lt (by rw [hk2]; exact lt_trans (hash32_lt key2) (by norm_num))] at hcong
    exact hcong
  | case4 shift key1 val1 key2_hash key2 val2 mutid key1_hash h1 h2 h3 h4 ih =>
    intro hmul hle hne hk2 hcong
    have hmask : map_mask key2_hash shift = map_mask (hash32 key1) shift := by
      have := h2
      rw [map_bitpos_eq, map_bitpos_eq] at this
      exact Nat.pow_right_injective (by norm_num) this
    obtain ⟨ihwf, ihlist, ihfind, ihbs, ihas⟩ :=
      ih (by omega) (by omega) hne hk2
        (mod_pow_step hcong hmask.symm)
    rw [mkBoC_eq_rec h1 h2 h3 h4]
    have hkeysub : ∀ k ∈ nodeKeys
        (map_node_new_bitmap_or_collision (shift + 5) key1 val1 key2_hash key2 val2 mutid),
        k = key1 ∨ k = key2 := by
      intro k hk
      rw [nodeKeys] at hk
      rcases ihlist with hl | hl
      · rw [hl] at hk
        simpa using hk
      · rw [hl] at hk
        rcases (by simpa using hk : k = key2 ∨ k = key1) with h | h
        · right; exact h
        · left; exact h
    have hcnt2 : leafCount
        (map_node_new_bitmap_or_collision (shift + 5) key1 val1 key2_hash key2 val2 mutid)
        = 2 := by
      rw [leafCount]
      rcases ihlist with hl | hl <;> rw [hl] <;> rfl
    refine ⟨?_, ?_, ?_, ?_, ?_⟩
    · refine NodeWF.bitmap (by omega) hmul ?_ ?_
      · rw [map_bitpos_eq, popcount_two_pow]
        rfl
      · intro j e he
        rw [map_bitpos_eq, entryAtBit_single] at he
        by_cases hj : j = map_mask (hash32 key1) shift
        · rw [if_pos hj] at he
          cases he
          refine BEntryWF.child ihwf ?_ ihbs (by omega)
          intro k hk
          rcases hkeysub k hk with h | h
          · rw [h, hj]
          · rw [h, hj, ← hk2]
            exact hmask
        · rw [if_neg hj] at he
          cases he
    · have : map_node_toList (MapNode.bitmapN mutid (map_bitpos (hash32 key1) shift)
          [.inr (map_node_new_bitmap_or_collision (shift + 5) key1 val1 key2_hash key2 val2
            mutid)]) = map_node_toList
          (map_node_new_bitmap_or_collision (shift + 5) key1 val1 key2_hash key2 val2
            mutid) := by
        simp [entries_toList]
      rw [this]
      exact ihlist
    · rw [map_node_find_bitmapN, map_bitpos_eq, hmask, entryAtBit_single, if_pos rfl]
      exact ihfind
    · refine ⟨by simp, ?_⟩
      intro k v
      simp
    · simp [arrayChildShape]
  | case5 shift key1 val1 key2_hash key2 val2 mutid key1_hash h1 h2 h5 =>
    intro hmul hle hne hk2 hcong
    have hs : shift ≤ 30 := by
      by_contra hgt
      have h35 : shift = 35 := by omega
      apply h2
      rw [h35, map_bitpos_eq, map_bitpos_eq,
        map_mask_35_eq_zero (by rw [hk2]; exact hash32_lt key2),
        map_mask_35_eq_zero (hash32_lt key1)]
    subst hk2
    rw [mkBoC_eq_two_lt h1 h2 h5, map_bitpos_eq, map_bitpos_eq, Nat.lor_comm]
    refine ⟨two_leaf_wf hs hmul h5, ?_, two_leaf_find_fst h5, ?_, ?_⟩
    · right
      simp [entries_toList]
    · refine ⟨by simp, ?_⟩
      intro k v
      simp
    · simp [arrayChildShape]
  | case6 shift key1 val1 key2_hash key2 val2 mutid key1_hash h1 h2 h5 =>
    intro hmul hle hne hk2 hcong
    have hs : shift ≤ 30 := by
      by_contra hgt
      have h35 : shift = 35 := by omega
      apply h2
      rw [h35, map_bitpos_eq, map_bitpos_eq,
        map_mask_35_eq_zero (by rw [hk2]; exact hash32_lt key2),
        map_mask_35_eq_zero (hash32_lt key1)]
    subst hk2
    have hlt : map_mask (hash32 key1) shift < map_mask (hash32 key2) shift := by
      have hne' : map_mask (hash32 key2) shift ≠ map_mask (hash32 key1) shift := by
        intro hc
        apply h2
        show map_bitpos (hash32 key2) shift = map_bitpos (hash32 key1) shift
        rw [map_bitpos_eq, map_bitpos_eq, hc]
      have h5' : ¬ map_mask (hash32 key2) shift < map_mask (hash32 key1) shift := h5
      omega
    rw [mkBoC_eq_two_ge h1 h2 h5, map_bitpos_eq, map_bitpos_eq]
    refine ⟨two_leaf_wf hs hmul hlt, ?_, two_leaf_find_snd hlt, ?_, ?_⟩
    · left
      simp [entries_toList]
    · refine ⟨by simp, ?_⟩
      intro k v
      simp
    · simp [arrayChildShape]

/-! ## Further helpers for the assoc specification -/

theorem arrayChildShape_of_bitmapChildShape {c : MapNode} (h : bitmapChildShape c) :
    arrayChildShape c := by
  cases c with
  | bitmapN m bmp arr => exact h.1
  | arrayN m cnt arr => exact trivial
  | collisionN m ch arr => exact trivial

/-- Replacing the entry of a set bit preserves bitmap well-formedness, as
long as the new entry is well-formed for that bit. -/
theorem NodeWF_bitmap_set {m mutid bmp s : Nat} {arr : List BEntry} {j0 : Nat} {e : BEntry}
    (hwf : NodeWF (.bitmapN m bmp arr) s)
    (hbit : bmp.testBit j0 = true)
    (he : BEntryWF s j0 e) :
    NodeWF (.bitmapN mutid bmp (arr.set (map_bitindex bmp (2 ^ j0)) e)) s := by
  cases hwf with
  | bitmap hs hmul hlen hentries =>
    have hset := entryAtBit_set e hbit hlen
    refine NodeWF.bitmap hs hmul (by rw [List.length_set]; exact hlen) ?_
    intro j e' he'
    by_cases hj : j = j0
    · subst hj
      rw [hset.2] at he'
      cases he'
      exact he
    · rw [hset.1 j hj] at he'
      exact hentries j e' he'

theorem get?_range_map {α : Type _} (f : Nat → α) {m i : Nat} (h : i < m) :
    ((List.range m).map f).get? i = some (f i) := by
  rw [List.get?_map, List.get?_eq_getElem?, List.getElem?_range h]
  rfl

theorem get?_range_map_none {α : Type _} (f : Nat → α) {m i : Nat} (h : ¬ i < m) :
    ((List.range m).map f).get? i = none := by
  rw [List.get?_eq_getElem?, List.getElem?_eq_none]
  simpa using h

theorem countP_range_eq_sum (p : Nat → Bool) (m : Nat) :
    (List.range m).countP p = ((List.range m).map (fun i => if p i then 1 else 0)).sum := by
  induction m with
  | zero => rfl
  | succ m ih =>
    rw [List.range_succ, List.countP_append, List.map_append, List.sum_append, ih]
    by_cases hp : p m
    · simp [List.countP_cons, hp]
    · simp [List.countP_cons, hp]

theorem sum_map_range_ite (p : Nat → Bool) (w : Nat → Nat) (m : Nat) :
    ((List.range m).map (fun i => if p i then w i else 0)).sum
      = (((List.range m).filter p).map w).sum := by
  induction m with
  | zero => rfl
  | succ m ih =>
    rw [List.range_succ, List.map_append, List.sum_append, List.filter_append,
      List.map_append, List.sum_append, ih]
    by_cases hp : p m
    · simp [hp]
    · simp [hp]

theorem length_filterMap_range {α : Type _} (f : Nat → Option α) (m : Nat) :
    (((List.range m).map f).filterMap id).length
      = (List.range m).countP (fun i => (f i).isSome) := by
  induction m with
  | zero => rfl
  | succ m ih =>
    rw [List.range_succ, List.map_append, List.filterMap_append, List.length_append, ih,
      List.countP_append]
    cases hf : f m <;> simp [hf, List.countP_cons]

/-- Overwriting an occupied array slot with an occupied slot keeps the
occupancy count. -/
theorem filterMap_id_length_set_some {arr : List (Option MapNode)} {idx : Nat}
    {c : MapNode} (hget : arr.get? idx = some (some c)) (d : MapNode) :
    ((arr.set idx (some d)).filterMap id).length = (arr.filterMap id).length := by
  have hidx : idx < arr.length := (List.get?_eq_some.mp hget).1
  have hold : arr[idx] = some c := by
    have := List.get?_eq_get hidx
    rw [hget] at this
    simpa using this.symm
  rw [List.set_eq_take_cons_drop _ hidx]
  conv_rhs => rw [← List.take_append_drop idx arr, List.drop_eq_getElem_cons hidx, hold]
  simp [List.filterMap_append]

/-- Filling an empty array slot raises the occupancy count by one. -/
theorem filterMap_id_length_set_none {arr : List (Option MapNode)} {idx : Nat}
    (hget : arr.get? idx = some none) (d : MapNode) :
    ((arr.set idx (some d)).filterMap id).length = (arr.filterMap id).length + 1 := by
  have hidx : idx < arr.length := (List.get?_eq_some.mp hget).1
  have hold : arr[idx] = none := by
    have := List.get?_eq_get hidx
    rw [hget] at this
    simpa using this.symm
  rw [List.set_eq_take_cons_drop _ hidx]
  conv_rhs => rw [← List.take_append_drop idx arr, List.drop_eq_getElem_cons hidx, hold]
  simp [List.filterMap_append]
  omega

theorem nodeKeys_collisionN {m ch : Nat} {arr : List (Key × Val)} :
    nodeKeys (.collisionN m ch arr) = arr.map (·.1) := by
  rw [nodeKeys, map_node_toList]

theorem collision_hash_lt {m ch s : Nat} {arr : List (Key × Val)}
    (hwf : NodeWF (.collisionN m ch arr) s) : ch < 2 ^ 32 := by
  cases hwf with
  | collision hlen hhash =>
    rcases arr with _ | ⟨p, rest⟩
    · simp at hlen
    · rw [← hhash p (by simp)]
      exact hash32_lt p.1

theorem collision_congr {m ch s shift hash : Nat} {arr : List (Key × Val)}
    (hwf : NodeWF (.collisionN m ch arr) shift)
    (hcong : KeysBelowCongr (.collisionN m ch arr) s hash) :
    ch % 2 ^ s = hash % 2 ^ s := by
  cases hwf with
  | collision hlen hhash =>
    rcases arr with _ | ⟨p, rest⟩
    · simp at hlen
    · have hp := hcong p.1 (by rw [nodeKeys_collisionN]; simp)
      rw [hhash p (by simp)] at hp
      exact hp

/-- The slot the Bitmap→Array promotion builds for index `i` (the body of
the loop in lines 902-966, as inlined in `map_node_assoc`). -/
def promotedSlot (mutid s hash : Nat) (key : Key) (val : Val) (bmp : Nat)
    (arr : List BEntry) (i : Nat) : Option MapNode :=
  if i = map_mask hash s then
    some (map_node_bitmap_single mutid (s + 5) hash key val)
  else if bmp.testBit i then
    some (match arr.get? (map_bitindex bmp (2 ^ i)) with
      | some (.inr child) => child
      | some (.inl (k, v)) => map_node_bitmap_single mutid (s + 5) (hash32 k) k v
      | none => .bitmapN mutid 0 [])
  else none

/-! ## Branch values of map_node_assoc: bitmap node -/

theorem assoc_bitmap_child_id {b_mutid bmp s hash : Nat} {arr : List BEntry}
    {key : Key} {val : Val} {mutid : Nat} {c : MapNode}
    (hbit : ¬ bmp &&& map_bitpos hash s = 0)
    (hget : arr.get? (map_bitindex bmp (map_bitpos hash s)) = some (.inr c))
    (hid : (map_node_assoc c (s + 5) hash key val mutid).1 = c) :
    map_node_assoc (.bitmapN b_mutid bmp arr) s hash key val mutid =
      (.bitmapN b_mutid bmp arr, (map_node_assoc c (s + 5) hash key val mutid).2) := by
  rw [map_node_assoc]
  simp only []
  rw [if_pos hbit]
  split
  · rename_i heq
    rw [hget] at heq
    exact Option.noConfusion heq
  · rename_i von heq
    rw [hget] at heq
    simp only [Option.some.injEq, Sum.inr.injEq] at heq
    subst heq
    rw [if_pos hid]
  · rename_i k0 v0 heq
    rw [hget] at heq
    simp at heq

theorem assoc_bitmap_child_set {b_mutid bmp s hash : Nat} {arr : List BEntry}
    {key : Key} {val : Val} {mutid : Nat} {c : MapNode}
    (hbit : ¬ bmp &&& map_bitpos hash s = 0)
    (hget : arr.get? (map_bitindex bmp (map_bitpos hash s)) = some (.inr c))
    (hid : ¬ (map_node_assoc c (s + 5) hash key val mutid).1 = c) :
    map_node_assoc (.bitmapN b_mutid bmp arr) s hash key val mutid =
      (.bitmapN mutid bmp (arr.set (map_bitindex bmp (map_bitpos hash s))
        (.inr (map_node_assoc c (s + 5) hash key val mutid).1)),
       (map_node_assoc c (s + 5) hash key val mutid).2) := by
  rw [map_node_assoc]
  simp only []
  rw [if_pos hbit]
  split
  · rename_i heq
    rw [hget] at heq
    exact Option.noConfusion heq
  · rename_i von heq
    rw [hget] at heq
    simp only [Option.some.injEq, Sum.inr.injEq] at heq
    subst heq
    rw [if_neg hid]
  · rename_i k0 v0 heq
    rw [hget] at heq
    simp at heq

theorem assoc_bitmap_leaf_same {b_mutid bmp s hash : Nat} {arr : List BEntry}
    {key key' : Key} {val val' : Val} {mutid : Nat}
    (hbit : ¬ bmp &&& map_bitpos hash s = 0)
    (hget : arr.get? (map_bitindex bmp (map_bitpos hash s)) = some (.inl (key', val')))
    (hk : key = key') (hv : val = val') :
    map_node_assoc (.bitmapN b_mutid bmp arr) s hash key val mutid =
      (.bitmapN b_mutid bmp arr, false) := by
  rw [map_node_assoc]
  simp only []
  rw [if_pos hbit]
  split
  · rfl
  · rename_i von heq
    rw [hget] at heq
    simp at heq
  · rename_i k0 v0 heq
    rw [hget] at heq
    simp only [Option.some.injEq, Sum.inl.injEq, Prod.mk.injEq] at heq
    obtain ⟨rfl, rfl⟩ := heq
    rw [if_pos hk, if_pos hv]

theorem assoc_bitmap_leaf_replace {b_mutid bmp s hash : Nat} {arr : List BEntry}
    {key key' : Key} {val val' : Val} {mutid : Nat}
    (hbit : ¬ bmp &&& map_bitpos hash s = 0)
    (hget : arr.get? (map_bitindex bmp (map_bitpos hash s)) = some (.inl (key', val')))
    (hk : key = key') (hv : ¬ val = val') :
    map_node_assoc (.bitmapN b_mutid bmp arr) s hash key val mutid =
      (.bitmapN mutid bmp (arr.set (map_bitindex bmp (map_bitpos hash s))
        (.inl (key', val))), false) := by
  rw [map_node_assoc]
  simp only []
  rw [if_pos hbit]
  split
  · rename_i heq
    rw [hget] at heq
    exact Option.noConfusion heq
  · rename_i von heq
    rw [hget] at heq
    simp at heq
  · rename_i k0 v0 heq
    rw [hget] at heq
    simp only [Option.some.injEq, Sum.inl.injEq, Prod.mk.injEq] at heq
    obtain ⟨rfl, rfl⟩ := heq
    rw [if_pos hk, if_neg hv]

theorem assoc_bitmap_leaf_conflict {b_mutid bmp s hash : Nat} {arr : List BEntry}
    {key key' : Key} {val val' : Val} {mutid : Nat}
    (hbit : ¬ bmp &&& map_bitpos hash s = 0)
    (hget : arr.get? (map_bitindex bmp (map_bitpos hash s)) = some (.inl (key', val')))
    (hk : ¬ key = key') :
    map_node_assoc (.bitmapN b_mutid bmp arr) s hash key val mutid =
      (.bitmapN mutid bmp (arr.set (map_bitindex bmp (map_bitpos hash s))
        (.inr (map_node_new_bitmap_or_collision (s + 5) key' val' hash key val b_mutid))),
       true) := by
  rw [map_node_assoc]
  simp only []
  rw [if_pos hbit]
  split
  · rename_i heq
    rw [hget] at heq
    exact Option.noConfusion heq
  · rename_i von heq
    rw [hget] at heq
    simp at heq
  · rename_i k0 v0 heq
    rw [hget] at heq
    simp only [Option.some.injEq, Sum.inl.injEq, Prod.mk.injEq] at heq
    obtain ⟨rfl, rfl⟩ := heq
    rw [if_neg hk]

theorem assoc_bitmap_promote {b_mutid bmp s hash : Nat} {arr : List BEntry}
    {key : Key} {val : Val} {mutid : Nat}
    (hbit : bmp &&& map_bitpos hash s = 0) (h16 : 16 ≤ map_bitcount bmp) :
    map_node_assoc (.bitmapN b_mutid bmp arr) s hash key val mutid =
      (.arrayN mutid (map_bitcount bmp + 1)
        ((List.range 32).map (promotedSlot mutid s hash key val bmp arr)), true) := by
  rw [map_node_assoc]
  simp only [hbit, not_true_eq_false, if_neg, ite_not, if_pos, h16, ite_true, if_true]
  rfl

theorem assoc_bitmap_insert {b_mutid bmp s hash : Nat} {arr : List BEntry}
    {key : Key} {val : Val} {mutid : Nat}
    (hbit : bmp &&& map_bitpos hash s = 0) (h16 : ¬ 16 ≤ map_bitcount bmp) :
    map_node_assoc (.bitmapN b_mutid bmp arr) s hash key val mutid =
      (.bitmapN mutid (bmp ||| map_bitpos hash s)
        (arr.take (map_bitindex bmp (map_bitpos hash s)) ++
          .inl (key, val) :: arr.drop (map_bitindex bmp (map_bitpos hash s))), true) := by
  rw [map_node_assoc]
  simp [hbit, h16]

/-! ## Branch values of map_node_assoc: array and collision nodes -/

theorem assoc_array_empty {a_mutid a_count s hash : Nat} {arr : List (Option MapNode)}
    {key : Key} {val : Val} {mutid : Nat}
    (hget : arr.get? (map_mask hash s) = some none) :
    map_node_assoc (.arrayN a_mutid a_count arr) s hash key val mutid =
      (.arrayN mutid (a_count + 1)
        (arr.set (map_mask hash s)
          (some (map_node_bitmap_single mutid (s + 5) hash key val))), true) := by
  rw [map_node_assoc]
  simp only []
  split
  · rfl
  · rfl
  · rename_i child heq
    have hget2 : arr[map_mask hash s]? = some none := by
      rw [← List.get?_eq_getElem?]
      exact hget
    simp [hget2] at heq

theorem assoc_array_child {a_mutid a_count s hash : Nat} {arr : List (Option MapNode)}
    {key : Key} {val : Val} {mutid : Nat} {c : MapNode}
    (hget : arr.get? (map_mask hash s) = some (some c)) :
    map_node_assoc (.arrayN a_mutid a_count arr) s hash key val mutid =
      (.arrayN mutid a_count
        (arr.set (map_mask hash s) (some (map_node_assoc c (s + 5) hash key val mutid).1)),
       (map_node_assoc c (s + 5) hash key val mutid).2) := by
  rw [map_node_assoc]
  simp only []
  split
  · rename_i heq
    rw [hget] at heq
    simp at heq
  · rename_i heq
    rw [hget] at heq
    simp at heq
  · rename_i child heq
    rw [hget] at heq
    simp only [Option.some.injEq] at heq
    rw [heq]

theorem assoc_collision_append {c_mutid c_hash s hash : Nat} {c_array : List (Key × Val)}
    {key : Key} {val : Val} {mutid : Nat}
    (hh : hash = c_hash)
    (hfi : map_node_collision_find_index key c_array = none) :
    map_node_assoc (.collisionN c_mutid c_hash c_array) s hash key val mutid =
      (.collisionN mutid c_hash (c_array ++ [(key, val)]), true) := by
  rw [map_node_assoc]
  simp [hh, hfi]

theorem assoc_collision_same {c_mutid c_hash s hash i : Nat} {c_array : List (Key × Val)}
    {key key' : Key} {val val' : Val} {mutid : Nat}
    (hh : hash = c_hash)
    (hfi : map_node_collision_find_index key c_array = some i)
    (hget : c_array.get? i = some (key', val'))
    (hv : val' = val) :
    map_node_assoc (.collisionN c_mutid c_hash c_array) s hash key val mutid =
      (.collisionN c_mutid c_hash c_array, false) := by
  have hget2 : c_array[i]? = some (key', val') := by
    rw [← List.get?_eq_getElem?]
    exact hget
  rw [map_node_assoc]
  simp [hh, hfi, hget2, hv]

theorem assoc_collision_replace {c_mutid c_hash s hash i : Nat} {c_array : List (Key × Val)}
    {key key' : Key} {val val' : Val} {mutid : Nat}
    (hh : hash = c_hash)
    (hfi : map_node_collision_find_index key c_array = some i)
    (hget : c_array.get? i = some (key', val'))
    (hv : ¬ val' = val) :
    map_node_assoc (.collisionN c_mutid c_hash c_array) s hash key val mutid =
      (.collisionN mutid c_hash (c_array.set i (key', val)), false) := by
  have hget2 : c_array[i]? = some (key', val') := by
    rw [← List.get?_eq_getElem?]
    exact hget
  rw [map_node_assoc]
  simp [hh, hfi, hget2, hv]

theorem assoc_collision_wrap {c_mutid c_hash s hash : Nat} {c_array : List (Key × Val)}
    {key : Key} {val : Val} {mutid : Nat}
    (hh : ¬ hash = c_hash)
    (hbp : map_bitpos hash s = map_bitpos c_hash s)
    (h30 : ¬ 30 < s) :
    map_node_assoc (.collisionN c_mutid c_hash c_array) s hash key val mutid =
      (.bitmapN mutid (map_bitpos c_hash s)
        [.inr (map_node_assoc (.collisionN c_mutid c_hash c_array) (s + 5) hash key val
          mutid).1],
       (map_node_assoc (.collisionN c_mutid c_hash c_array) (s + 5) hash key val mutid).2) := by
  rw [map_node_assoc]
  simp [hh, hbp, h30]

theorem assoc_collision_leaf_lt {c_mutid c_hash s hash : Nat} {c_array : List (Key × Val)}
    {key : Key} {val : Val} {mutid : Nat}
    (hh : ¬ hash = c_hash)
    (hbp : ¬ map_bitpos hash s = map_bitpos c_hash s)
    (hlt : map_mask hash s < map_mask c_hash s) :
    map_node_assoc (.collisionN c_mutid c_hash c_array) s hash key val mutid =
      (.bitmapN mutid (map_bitpos c_hash s ||| map_bitpos hash s)
        [.inl (key, val), .inr (.collisionN c_mutid c_hash c_array)], true) := by
  rw [map_node_assoc]
  simp [hh, hbp, hlt]

theorem assoc_collision_leaf_ge {c_mutid c_hash s hash : Nat} {c_array : List (Key × Val)}
    {key : Key} {val : Val} {mutid : Nat}
    (hh : ¬ hash = c_hash)
    (hbp : ¬ map_bitpos hash s = map_bitpos c_hash s)
    (hlt : ¬ map_mask hash s < map_mask c_hash s) :
    map_node_assoc (.collisionN c_mutid c_hash c_array) s hash key val mutid =
      (.bitmapN mutid (map_bitpos c_hash s ||| map_bitpos hash s)
        [.inr (.collisionN c_mutid c_hash c_array), .inl (key, val)], true) := by
  rw [map_node_assoc]
  simp [hh, hbp, hlt]

/-! ## Properties of the promoted slots -/

theorem promotedSlot_jdx {mutid s hash : Nat} {key : Key} {val : Val} {bmp : Nat}
    {arr : List BEntry} :
    promotedSlot mutid s hash key val bmp arr (map_mask hash s) =
      some (map_node_bitmap_single mutid (s + 5) hash key val) := by
  simp [promotedSlot]

theorem promotedSlot_entry {mutid s hash : Nat} {key : Key} {val : Val} {bmp : Nat}
    {arr : List BEntry} {i : Nat} (hlen : arr.length = popcount bmp)
    (hne : i ≠ map_mask hash s) (hbi : bmp.testBit i = true) :
    ∃ e, entryAtBit bmp arr i = some e ∧
      promotedSlot mutid s hash key val bmp arr i =
        some (match e with
          | .inr c => c
          | .inl (k, v) => map_node_bitmap_single mutid (s + 5) (hash32 k) k v) := by
  obtain ⟨e, he⟩ := testBit_entryAtBit hlen hbi
  refine ⟨e, he, ?_⟩
  have hgete : arr.get? (map_bitindex bmp (2 ^ i)) = some e := by
    rw [entryAtBit, if_pos hbi] at he
    exact he
  rw [promotedSlot, if_neg hne, if_pos hbi, hgete]
  rcases e with p | c
  · obtain ⟨k, v⟩ := p
    rfl
  · rfl

theorem promotedSlot_none {mutid s hash : Nat} {key : Key} {val : Val} {bmp : Nat}
    {arr : List BEntry} {i : Nat}
    (hne : i ≠ map_mask hash s) (hbi : bmp.testBit i = false) :
    promotedSlot mutid s hash key val bmp arr i = none := by
  rw [promotedSlot, if_neg hne, if_neg (by simp [hbi])]

theorem promotedSlot_items {mutid s hash : Nat} {key : Key} {val : Val} {bmp : Nat}
    {arr : List BEntry} {i : Nat} (hlen : arr.length = popcount bmp)
    (hne : i ≠ map_mask hash s) (hbi : bmp.testBit i = true) :
    ∃ e, entryAtBit bmp arr i = some e ∧
      slotItems (promotedSlot mutid s hash key val bmp arr i) = entryItems e := by
  obtain ⟨e, he, hf⟩ := @promotedSlot_entry mutid _ _ key val _ _ _ hlen hne hbi
  refine ⟨e, he, ?_⟩
  rw [hf]
  cases e with
  | inr c => rfl
  | inl p =>
    rcases p with ⟨k, v⟩
    rw [slotItems, map_node_bitmap_single_toList]
    rfl

/-- Each occupied promoted slot holds a node that is well-formed one level
deeper, keyed to its index, shaped as an array child, and nonempty. -/
theorem promotedSlot_wf {b_mutid mutid s hash : Nat} {key : Key} {val : Val} {bmp : Nat}
    {arr : List BEntry} {j : Nat} {c : MapNode}
    (hwf : NodeWF (.bitmapN b_mutid bmp arr) s)
    (hhash : hash = hash32 key)
    (h16 : 16 ≤ popcount bmp)
    (hc : promotedSlot mutid s hash key val bmp arr j = some c) :
    NodeWF c (s + 5) ∧ (∀ k ∈ nodeKeys c, map_mask (hash32 k) s = j) ∧
      arrayChildShape c ∧ 1 ≤ leafCount c := by
  have hs25 : s ≤ 25 := NodeWF_promotion_shift hwf h16
  cases hwf with
  | bitmap hs hmul hlen hentries =>
    by_cases hj : j = map_mask hash s
    · subst hj
      rw [promotedSlot_jdx] at hc
      obtain rfl : map_node_bitmap_single mutid (s + 5) hash key val = c :=
        Option.some.inj hc
      refine ⟨map_node_bitmap_single_wf hhash (by omega) (by omega), ?_, ?_, ?_⟩
      · intro k hk
        rw [nodeKeys, map_node_bitmap_single_toList] at hk
        simp only [List.map_cons, List.map_nil, List.mem_singleton] at hk
        rw [hk, ← hhash]
      · simp [map_node_bitmap_single, arrayChildShape]
      · rw [leafCount, map_node_bitmap_single_toList]
        simp
    · rcases hbi : bmp.testBit j with _ | _
      · rw [promotedSlot_none hj hbi] at hc
        cases hc
      · obtain ⟨e, he, hf⟩ := @promotedSlot_entry mutid _ _ key val _ _ _ hlen hj hbi
        rw [hf] at hc
        have hewf := hentries j e he
        cases hewf with
        | child hwfc hkeysc hshapec hcntc =>
          obtain rfl : _ = c := Option.some.inj hc
          exact ⟨hwfc, hkeysc, arrayChildShape_of_bitmapChildShape hshapec, hcntc⟩
        | leaf hmask =>
          obtain rfl : _ = c := Option.some.inj hc
          refine ⟨map_node_bitmap_single_wf rfl (by omega) (by omega), ?_, ?_, ?_⟩
          · intro k0 hk0
            rw [nodeKeys, map_node_bitmap_single_toList] at hk0
            simp only [List.map_cons, List.map_nil, List.mem_singleton] at hk0
            rw [hk0]
            exact hmask
          · simp [map_node_bitmap_single, arrayChildShape]
          · rw [leafCount, map_node_bitmap_single_toList]
            simp

theorem entryAtBit_mem {bmp : Nat} {arr : List BEntry} {i : Nat} {e : BEntry}
    (he : entryAtBit bmp arr i = some e) : e ∈ arr := by
  by_cases hb : bmp.testBit i
  · rw [entryAtBit, if_pos hb] at he
    exact List.get?_mem he
  · rw [entryAtBit, if_neg hb] at he
    cases he

/-- The promoted array has exactly one more occupied slot than the bitmap
had set bits. -/
theorem promotion_count {mutid s hash : Nat} {key : Key} {val : Val} {bmp : Nat}
    {arr : List BEntry} (hbmp32 : bmp < 2 ^ 32) (hlen : arr.length = popcount bmp)
    (hbit : bmp.testBit (map_mask hash s) = false) :
    (((List.range 32).map (promotedSlot mutid s hash key val bmp arr)).filterMap id).length
      = popcount bmp + 1 := by
  rw [length_filterMap_range, countP_range_eq_sum]
  have hjdx : map_mask hash s < 32 := map_mask_lt hash s
  have hpt : ∀ i, i ≠ map_mask hash s →
      (if (promotedSlot mutid s hash key val bmp arr i).isSome then 1 else 0)
        = (if bmp.testBit i then (1 : Nat) else 0) := by
    intro i hi
    rcases hbi : bmp.testBit i with _ | _
    · rw [promotedSlot_none hi hbi]
      simp
    · obtain ⟨e, he, hf⟩ := @promotedSlot_entry mutid _ _ key val _ _ _ hlen hi hbi
      rw [hf]
      simp
  have hcong := sum_range_congr_except hjdx hpt
  rw [hbit, if_neg (by simp), promotedSlot_jdx] at hcong
  simp only [Option.isSome_some, if_pos] at hcong
  have hsum2 : ((List.range 32).map (fun i => if bmp.testBit i then (1 : Nat) else 0)).sum
      = popcount bmp := by
    rw [← countP_range_eq_sum]
    have hpm := popcount_mod_eq_countP bmp 32
    rw [Nat.mod_eq_of_lt hbmp32] at hpm
    rw [← hpm]
  omega

/-- Every key of the promoted array is an old key or the new key. -/
theorem promotion_keys {b_mutid mutid s hash hn : Nat} {key : Key} {val : Val} {bmp : Nat}
    {arr : List BEntry} (hlen : arr.length = popcount bmp) :
    ∀ k ∈ nodeKeys (.arrayN mutid hn
      ((List.range 32).map (promotedSlot mutid s hash key val bmp arr))),
      k ∈ nodeKeys (.bitmapN b_mutid bmp arr) ∨ k = key := by
  intro k hk
  rw [mem_nodeKeys_iff] at hk
  obtain ⟨v, hv⟩ := hk
  rw [map_node_toList_arrayN, slots_toList_eq, List.flatMap_map] at hv
  rw [List.mem_flatMap] at hv
  obtain ⟨i, hi, hp⟩ := hv
  by_cases hj : i = map_mask hash s
  · subst hj
    rw [promotedSlot_jdx, slotItems, map_node_bitmap_single_toList] at hp
    simp only [List.mem_singleton, Prod.mk.injEq] at hp
    right
    exact hp.1
  · rcases hbi : bmp.testBit i with _ | _
    · rw [promotedSlot_none hj hbi] at hp
      cases hp
    · obtain ⟨e, he, hitems⟩ := @promotedSlot_items mutid _ _ key val _ _ _ hlen hj hbi
      rw [hitems] at hp
      left
      rw [mem_nodeKeys_iff]
      exact ⟨v, by
        rw [map_node_toList_bitmapN]
        exact mem_entries_toList_of_entry (entryAtBit_mem he) hp⟩

/-- The promoted array holds one more binding than the bitmap node. -/
theorem promotion_leafCount {b_mutid mutid s hash hn : Nat} {key : Key} {val : Val}
    {bmp : Nat} {arr : List BEntry} (hbmp32 : bmp < 2 ^ 32)
    (hlen : arr.length = popcount bmp)
    (hbit : bmp.testBit (map_mask hash s) = false) :
    leafCount (.arrayN mutid hn
        ((List.range 32).map (promotedSlot mutid s hash key val bmp arr)))
      = leafCount (.bitmapN b_mutid bmp arr) + 1 := by
  rw [leafCount, map_node_toList_arrayN, slots_toList_eq, List.flatMap_map,
    length_flatMap_eq_sum]
  have hjdx : map_mask hash s < 32 := map_mask_lt hash s
  have hpt : ∀ i, i ≠ map_mask hash s →
      (slotItems (promotedSlot mutid s hash key val bmp arr i)).length
        = (if bmp.testBit i then
            ((arr.get? (map_bitindex bmp (2 ^ i))).map
              (fun e => (entryItems e).length)).getD 0
          else 0) := by
    intro i hi
    rcases hbi : bmp.testBit i with _ | _
    · rw [promotedSlot_none hi hbi]
      simp [slotItems]
    · obtain ⟨e, he, hitems⟩ := @promotedSlot_items mutid _ _ key val _ _ _ hlen hi hbi
      have hgete : arr.get? (map_bitindex bmp (2 ^ i)) = some e := by
        rw [entryAtBit, if_pos hbi] at he
        exact he
      rw [hitems, hgete]
      simp
  have hcong := sum_range_congr_except hjdx hpt
  rw [hbit] at hcong
  simp only [Bool.false_eq_true, if_false, Nat.add_zero] at hcong
  rw [promotedSlot_jdx] at hcong
  rw [slotItems, map_node_bitmap_single_toList] at hcong
  have hone : ([(key, val)] : List (Key × Val)).length = 1 := rfl
  rw [hone] at hcong
  have hsum2 : ((List.range 32).map (fun i =>
      if bmp.testBit i then
        ((arr.get? (map_bitindex bmp (2 ^ i))).map (fun e => (entryItems e).length)).getD 0
      else 0)).sum = leafCount (.bitmapN b_mutid bmp arr) := by
    rw [sum_map_range_ite]
    have hmg := setBits_map_get? hbmp32 hlen
    have hmap := congrArg (List.map
      (fun o : Option BEntry => ((o.map (fun e => (entryItems e).length)).getD 0))) hmg
    rw [List.map_map, List.map_map] at hmap
    simp only [Function.comp_def] at hmap
    rw [setBits] at hmap
    rw [hmap]
    simp only [Option.map_some', Option.getD_some]
    rw [leafCount, map_node_toList_bitmapN, entries_toList_eq, length_flatMap_eq_sum]
  omega

/-- The new key is found in the promoted array (in the fresh single-leaf
child at its hash window). -/
theorem promotion_find {mutid s hash hn : Nat} {key : Key} {val : Val} {bmp : Nat}
    {arr : List BEntry} :
    map_node_find (.arrayN mutid hn
      ((List.range 32).map (promotedSlot mutid s hash key val bmp arr))) s hash key
      = some val := by
  have hg : ((List.range 32).map (promotedSlot mutid s hash key val bmp arr)).get?
      (map_mask hash s)
      = some (some (map_node_bitmap_single mutid (s + 5) hash key val)) := by
    rw [get?_range_map _ (map_mask_lt hash s), promotedSlot_jdx]
  rw [map_node_find]
  split
  · rename_i heq
    rw [hg] at heq <;> simp at heq
  · rename_i heq
    rw [hg] at heq <;> simp at heq
  · rename_i child heq
    rw [hg] at heq
    simp only [Option.some.injEq] at heq
    rw [← heq]
    exact map_node_bitmap_single_find

/-! ## The assoc specification -/

/-- What `map_node_assoc` guarantees on a well-formed subtree: the result
is well-formed at the same shift, adds no key but `key`, grows the binding
count exactly when the `added_leaf` flag is set, finds the new binding,
sets the flag iff the key was absent, and preserves both child-shape
constraints. -/
def AssocSpec (node : MapNode) (shift hash : Nat) (key : Key) (val : Val)
    (mutid : Nat) : Prop :=
  NodeWF (map_node_assoc node shift hash key val mutid).1 shift ∧
  (∀ k ∈ nodeKeys (map_node_assoc node shift hash key val mutid).1,
    k ∈ nodeKeys node ∨ k = key) ∧
  leafCount (map_node_assoc node shift hash key val mutid).1
    = leafCount node
      + (if (map_node_assoc node shift hash key val mutid).2 then 1 else 0) ∧
  map_node_find (map_node_assoc node shift hash key val mutid).1 shift hash key
    = some val ∧
  ((map_node_assoc node shift hash key val mutid).2 = true ↔
    map_node_find node shift hash key = none) ∧
  (bitmapChildShape node →
    bitmapChildShape (map_node_assoc node shift hash key val mutid).1) ∧
  (arrayChildShape node →
    arrayChildShape (map_node_assoc node shift hash key val mutid).1)

theorem entryAtBit_eq_of_testBit {bmp : Nat} {arr : List BEntry} {j : Nat}
    (h : bmp.testBit j = true) :
    entryAtBit bmp arr j = arr.get? (map_bitindex bmp (2 ^ j)) := by
  rw [entryAtBit, if_pos h]

theorem child_congr {shift hash : Nat} {von : MapNode}
    (hkeys : ∀ k ∈ nodeKeys von, map_mask (hash32 k) shift = map_mask hash shift)
    (hcong : ∀ k ∈ nodeKeys von, hash32 k % 2 ^ shift = hash % 2 ^ shift) :
    KeysBelowCongr von (shift + 5) hash := by
  intro k hk
  exact mod_pow_step (hcong k hk) (hkeys k hk)

theorem nodeKeys_of_entry {m bmp : Nat} {arr : List BEntry} {e : BEntry} (he : e ∈ arr)
    {k : Key} (hk : ∃ v, (k, v) ∈ entryItems e) : k ∈ nodeKeys (.bitmapN m bmp arr) := by
  obtain ⟨v, hv⟩ := hk
  rw [mem_nodeKeys_iff]
  exact ⟨v, by rw [map_node_toList_bitmapN]; exact mem_entries_toList_of_entry he hv⟩

theorem mem_nodeKeys_of_entryItems {m bmp : Nat} {arr : List BEntry} {e : BEntry}
    (he : e ∈ arr) {k : Key} {v : Val} (hv : (k, v) ∈ entryItems e) :
    k ∈ nodeKeys (.bitmapN m bmp arr) :=
  nodeKeys_of_entry he ⟨v, hv⟩

/-- The packed index of the hash window bit is in range when the bit is
set. -/
theorem bitindex_lt_of_testBit {bmp : Nat} {arr : List BEntry} {j : Nat}
    (hlen : arr.length = popcount bmp) (hbit : bmp.testBit j = true) :
    map_bitindex bmp (2 ^ j) < arr.length := by
  rw [map_bitindex_eq, hlen]
  exact popcount_lt_of_testBit hbit

/-- Case: occupied bit, get? out of range — impossible under
well-formedness. -/
theorem assoc_spec_bitmap_none {shift hash : Nat} {key : Key} {val : Val}
    {mutid m b_bitmap : Nat} {b_array : List BEntry}
    (hbit : b_bitmap &&& map_bitpos hash shift ≠ 0)
    (hget : b_array.get? (map_bitindex b_bitmap (map_bitpos hash shift)) = none)
    (hwf : NodeWF (.bitmapN m b_bitmap b_array) shift) :
    AssocSpec (.bitmapN m b_bitmap b_array) shift hash key val mutid := by
  exfalso
  have hb : b_bitmap.testBit (map_mask hash shift) = true := by
    rw [← and_two_pow_ne_zero_iff, ← map_bitpos_eq]
    exact hbit
  cases hwf with
  | bitmap hs hmul hlen hentries =>
    have hlt := bitindex_lt_of_testBit hlen hb
    rw [map_bitpos_eq] at hget
    rw [List.get?_eq_getElem?, List.getElem?_eq_none_iff] at hget
    omega

theorem NodeWF_bitmap_parts {m bmp s : Nat} {arr : List BEntry}
    (h : NodeWF (.bitmapN m bmp arr) s) :
    s ≤ 30 ∧ s % 5 = 0 ∧ arr.length = popcount bmp ∧
    ∀ j e, entryAtBit bmp arr j = some e → BEntryWF s j e := by
  cases h with
  | bitmap hs hmul hlen hentries => exact ⟨hs, hmul, hlen, hentries⟩

theorem nodeKeys_set_subset {m mutid bmp bmp2 : Nat} {arr : List BEntry} {idx : Nat}
    {eOld : BEntry} (e : BEntry) (hget : arr.get? idx = some eOld) :
    ∀ k ∈ nodeKeys (.bitmapN mutid bmp2 (arr.set idx e)),
      (∃ v, (k, v) ∈ entryItems e) ∨ k ∈ nodeKeys (.bitmapN m bmp arr) := by
  intro k hk
  rw [mem_nodeKeys_iff] at hk
  obtain ⟨v, hv⟩ := hk
  rw [map_node_toList_bitmapN, (entries_toList_set e hget).1] at hv
  rw [List.mem_append] at hv
  rcases hv with hv | hv
  · rw [List.mem_append] at hv
    rcases hv with hv | hv
    · right
      rw [mem_nodeKeys_iff]
      refine ⟨v, ?_⟩
      rw [map_node_toList_bitmapN, (entries_toList_set e hget).2, List.mem_append,
        List.mem_append]
      exact Or.inl (Or.inl hv)
    · left
      exact ⟨v, hv⟩
  · right
    rw [mem_nodeKeys_iff]
    refine ⟨v, ?_⟩
    rw [map_node_toList_bitmapN, (entries_toList_set e hget).2, List.mem_append]
    exact Or.inr hv

theorem leafCount_set {m mutid bmp bmp2 : Nat} {arr : List BEntry} {idx : Nat}
    {eOld : BEntry} (e : BEntry) (hget : arr.get? idx = some eOld) :
    leafCount (.bitmapN mutid bmp2 (arr.set idx e)) + (entryItems eOld).length
      = leafCount (.bitmapN m bmp arr) + (entryItems e).length := by
  rw [leafCount, leafCount, map_node_toList_bitmapN, map_node_toList_bitmapN,
    (entries_toList_set e hget).1, (entries_toList_set e hget).2]
  simp only [List.length_append]
  omega

theorem set_inr_ne_single {arr : List BEntry} {idx : Nat} (c : MapNode)
    (hidx : idx < arr.length) :
    ∀ k v, arr.set idx (.inr c) ≠ [.inl (k, v)] := by
  intro k v hc
  rcases arr with _ | ⟨a, rest⟩
  · simp at hidx
  · have hlen := congrArg List.length hc
    rw [List.length_set] at hlen
    simp only [List.length_cons, List.length_nil] at hlen
    have hrest : rest = [] := List.eq_nil_of_length_eq_zero (by omega)
    subst hrest
    have hidx0 : idx = 0 := by
      have h1 : idx < 1 := by simpa using hidx
      omega
    subst hidx0
    simp [List.set] at hc

theorem set_ne_nil {α : Type _} {arr : List α} {idx : Nat} {e : α} (h : arr ≠ []) :
    arr.set idx e ≠ [] := by
  intro hc
  have := congrArg List.length hc
  rw [List.length_set] at this
  simp only [List.length_nil] at this
  exact h (List.eq_nil_of_length_eq_zero this)

theorem set_ne_single_of_len {arr : List BEntry} {idx : Nat} {e : BEntry}
    (h2 : 2 ≤ arr.length) : ∀ k v, arr.set idx e ≠ [.inl (k, v)] := by
  intro k v hc
  have hlen := congrArg List.length hc
  rw [List.length_set] at hlen
  simp only [List.length_cons, List.length_nil] at hlen
  omega

/-- Facts available when the hash window bit of a bitmap node holds a child
node. -/
theorem bitmap_child_facts {shift hash : Nat} {m b_bitmap : Nat} {b_array : List BEntry}
    {von : MapNode}
    (hwf : NodeWF (.bitmapN m b_bitmap b_array) shift)
    (hcong : KeysBelowCongr (.bitmapN m b_bitmap b_array) shift hash)
    (hbit : b_bitmap &&& map_bitpos hash shift ≠ 0)
    (hget : b_array.get? (map_bitindex b_bitmap (map_bitpos hash shift))
      = some (.inr von)) :
    b_bitmap.testBit (map_mask hash shift) = true ∧
    NodeWF von (shift + 5) ∧
    (∀ k ∈ nodeKeys von, map_mask (hash32 k) shift = map_mask hash shift) ∧
    bitmapChildShape von ∧ 1 ≤ leafCount von ∧
    KeysBelowCongr von (shift + 5) hash ∧
    (∀ k ∈ nodeKeys von, k ∈ nodeKeys (.bitmapN m b_bitmap b_array)) ∧
    (∀ key0, map_node_find (.bitmapN m b_bitmap b_array) shift hash key0
      = map_node_find von (shift + 5) hash key0) := by
  have hb : b_bitmap.testBit (map_mask hash shift) = true := by
    rw [← and_two_pow_ne_zero_iff, ← map_bitpos_eq]
    exact hbit
  obtain ⟨hs, hmul, hlen, hentries⟩ := NodeWF_bitmap_parts hwf
  have hget2 : b_array.get? (map_bitindex b_bitmap (2 ^ map_mask hash shift))
      = some (.inr von) := by
    rw [← map_bitpos_eq]
    exact hget
  have hea : entryAtBit b_bitmap b_array (map_mask hash shift) = some (.inr von) := by
    rw [entryAtBit_eq_of_testBit hb]
    exact hget2
  have hewf := hentries _ _ hea
  cases hewf with
  | child hwfc hkeysc hshapec hcntc =>
    have hmemc : ∀ k ∈ nodeKeys von, k ∈ nodeKeys (.bitmapN m b_bitmap b_array) := by
      intro k hk
      rw [mem_nodeKeys_iff] at hk
      obtain ⟨v, hv⟩ := hk
      exact mem_nodeKeys_of_entryItems (List.get?_mem hget2) hv
    refine ⟨hb, hwfc, hkeysc, hshapec, hcntc, ?_, hmemc, ?_⟩
    · exact child_congr hkeysc (fun k hk => hcong k (hmemc k hk))
    · intro key0
      rw [map_node_find_bitmapN, hea]

/-- Case: occupied bit holds a child, recursive assoc returns it
unchanged. -/
theorem assoc_spec_child_id {shift hash : Nat} {key : Key} {val : Val}
    {mutid m b_bitmap : Nat} {b_array : List BEntry} {von : MapNode}
    (hbit : b_bitmap &&& map_bitpos hash shift ≠ 0)
    (hget : b_array.get? (map_bitindex b_bitmap (map_bitpos hash shift))
      = some (.inr von))
    (hid : (map_node_assoc von (shift + 5) hash key val mutid).1 = von)
    (ih : NodeWF von (shift + 5) → (shift + 5) % 5 = 0 → shift + 5 ≤ 35 →
      hash = hash32 key → KeysBelowCongr von (shift + 5) hash →
      AssocSpec von (shift + 5) hash key val mutid)
    (hwf : NodeWF (.bitmapN m b_bitmap b_array) shift) (hmul : shift % 5 = 0)
    (hle : shift ≤ 35) (hh : hash = hash32 key)
    (hcong : KeysBelowCongr (.bitmapN m b_bitmap b_array) shift hash) :
    AssocSpec (.bitmapN m b_bitmap b_array) shift hash key val mutid := by
  obtain ⟨hb, hwfc, hkeysc, hshapec, hcntc, hcongc, hmemc, hbridge⟩ :=
    bitmap_child_facts hwf hcong hbit hget
  obtain ⟨hs, hmul0, hlen, hentries⟩ := NodeWF_bitmap_parts hwf
  have espec := ih hwfc (by omega) (by omega) hh hcongc
  obtain ⟨ewf, ekeys, ecnt, efind, eiff, ebs, eas⟩ := espec
  rw [hid] at ecnt efind
  have hr2 : (map_node_assoc von (shift + 5) hash key val mutid).2 = false := by
    rcases h2 : (map_node_assoc von (shift + 5) hash key val mutid).2 with _ | _
    · rfl
    · rw [h2, if_pos rfl] at ecnt
      omega
  unfold AssocSpec
  rw [assoc_bitmap_child_id hbit hget hid]
  refine ⟨hwf, fun k hk => Or.inl hk, ?_, ?_, ?_, fun h => h, fun h => h⟩
  · rw [hr2]
    simp
  · rw [hbridge]
    exact efind
  · rw [hr2]
    simp only [Bool.false_eq_true, false_iff]
    rw [hbridge]
    rw [efind]
    simp

/-- Case: occupied bit holds a child, recursive assoc changes it. -/
theorem assoc_spec_child_set {shift hash : Nat} {key : Key} {val : Val}
    {mutid m b_bitmap : Nat} {b_array : List BEntry} {von : MapNode}
    (hbit : b_bitmap &&& map_bitpos hash shift ≠ 0)
    (hget : b_array.get? (map_bitindex b_bitmap (map_bitpos hash shift))
      = some (.inr von))
    (hid : ¬ (map_node_assoc von (shift + 5) hash key val mutid).1 = von)
    (ih : NodeWF von (shift + 5) → (shift + 5) % 5 = 0 → shift + 5 ≤ 35 →
      hash = hash32 key → KeysBelowCongr von (shift + 5) hash →
      AssocSpec von (shift + 5) hash key val mutid)
    (hwf : NodeWF (.bitmapN m b_bitmap b_array) shift) (hmul : shift % 5 = 0)
    (hle : shift ≤ 35) (hh : hash = hash32 key)
    (hcong : KeysBelowCongr (.bitmapN m b_bitmap b_array) shift hash) :
    AssocSpec (.bitmapN m b_bitmap b_array) shift hash key val mutid := by
  obtain ⟨hb, hwfc, hkeysc, hshapec, hcntc, hcongc, hmemc, hbridge⟩ :=
    bitmap_child_facts hwf hcong hbit hget
  obtain ⟨hs, hmul0, hlen, hentries⟩ := NodeWF_bitmap_parts hwf
  have espec := ih hwfc (by omega) (by omega) hh hcongc
  obtain ⟨ewf, ekeys, ecnt, efind, eiff, ebs, eas⟩ := espec
  have hget2 : b_array.get? (map_bitindex b_bitmap (2 ^ map_mask hash shift))
      = some (.inr von) := by
    rw [← map_bitpos_eq]
    exact hget
  have hewf2 : BEntryWF shift (map_mask hash shift)
      (.inr (map_node_assoc von (shift + 5) hash key val mutid).1) := by
    refine BEntryWF.child ewf ?_ (ebs hshapec) (by omega)
    intro k hk
    rcases ekeys k hk with hk0 | hk0
    · exact hkeysc k hk0
    · rw [hk0, ← hh]
  have hset := entryAtBit_set
    (Sum.inr (map_node_assoc von (shift + 5) hash key val mutid).1 : BEntry) hb hlen
  unfold AssocSpec
  rw [assoc_bitmap_child_set hbit hget hid, map_bitpos_eq]
  dsimp only
  refine ⟨NodeWF_bitmap_set hwf hb hewf2, ?_, ?_, ?_, ?_, ?_, ?_⟩
  · intro k hk
    rcases @nodeKeys_set_subset m mutid b_bitmap b_bitmap _ _ _ _ hget2 k hk with hk0 | hk0
    · rcases hk0 with ⟨v, hv⟩
      rcases ekeys k (mem_nodeKeys_iff.mpr ⟨v, hv⟩) with hk1 | hk1
      · exact Or.inl (hmemc k hk1)
      · exact Or.inr hk1
    · exact Or.inl hk0
  · have hlc := @leafCount_set m mutid b_bitmap b_bitmap _ _ _
      (Sum.inr (map_node_assoc von (shift + 5) hash key val mutid).1 : BEntry) hget2
    have hitemsOld : (entryItems (Sum.inr von : BEntry)).length = leafCount von := rfl
    have hitemsNew : (entryItems
        (Sum.inr (map_node_assoc von (shift + 5) hash key val mutid).1 : BEntry)).length
        = leafCount (map_node_assoc von (shift + 5) hash key val mutid).1 := rfl
    rw [hitemsOld, hitemsNew, ecnt] at hlc
    omega
  · rw [map_node_find_bitmapN, hset.2]
    exact efind
  · rw [eiff, hbridge]
  · intro hshape
    refine ⟨set_ne_nil hshape.1, ?_⟩
    intro k v
    exact set_inr_ne_single _ (bitindex_lt_of_testBit hlen hb) k v
  · intro hshape
    exact set_ne_nil hshape

theorem BEntryWF_leaf_inv {s j : Nat} {k : Key} {v : Val}
    (h : BEntryWF s j (.inl (k, v))) : map_mask (hash32 k) s = j := by
  cases h with
  | leaf hmask => exact hmask

/-- Facts available when the hash window bit of a bitmap node holds a
leaf. -/
theorem bitmap_leaf_facts {shift hash : Nat} {m b_bitmap : Nat} {b_array : List BEntry}
    {key' : Key} {val' : Val}
    (hwf : NodeWF (.bitmapN m b_bitmap b_array) shift)
    (hbit : b_bitmap &&& map_bitpos hash shift ≠ 0)
    (hget : b_array.get? (map_bitindex b_bitmap (map_bitpos hash shift))
      = some (.inl (key', val'))) :
    b_bitmap.testBit (map_mask hash shift) = true ∧
    b_array.get? (map_bitindex b_bitmap (2 ^ map_mask hash shift))
      = some (.inl (key', val')) ∧
    entryAtBit b_bitmap b_array (map_mask hash shift) = some (.inl (key', val')) ∧
    map_mask (hash32 key') shift = map_mask hash shift ∧
    key' ∈ nodeKeys (.bitmapN m b_bitmap b_array) ∧
    map_node_find (.bitmapN m b_bitmap b_array) shift hash key' = some val' ∧
    (∀ key0 : Key, key0 ≠ key' →
      map_node_find (.bitmapN m b_bitmap b_array) shift hash key0 = none) := by
  have hb : b_bitmap.testBit (map_mask hash shift) = true := by
    rw [← and_two_pow_ne_zero_iff, ← map_bitpos_eq]
    exact hbit
  obtain ⟨hs, hmul, hlen, hentries⟩ := NodeWF_bitmap_parts hwf
  have hget2 : b_array.get? (map_bitindex b_bitmap (2 ^ map_mask hash shift))
      = some (.inl (key', val')) := by
    rw [← map_bitpos_eq]
    exact hget
  have hea : entryAtBit b_bitmap b_array (map_mask hash shift)
      = some (.inl (key', val')) := by
    rw [entryAtBit_eq_of_testBit hb]
    exact hget2
  have hmask := BEntryWF_leaf_inv (hentries _ _ hea)
  refine ⟨hb, hget2, hea, hmask, ?_, ?_, ?_⟩
  · exact nodeKeys_of_entry (List.get?_mem hget2) ⟨val', by simp [entryItems]⟩
  · rw [map_node_find_bitmapN, hea]
    simp
  · intro key0 hne0
    rw [map_node_find_bitmapN, hea]
    simp [hne0]

theorem two_le_length_of_shape {arr : List BEntry} {idx : Nat} {k : Key} {v : Val}
    (hget : arr.get? idx = some (.inl (k, v)))
    (hshape : ∀ k0 v0, arr ≠ [.inl (k0, v0)]) : 2 ≤ arr.length := by
  have hidx : idx < arr.length := (List.get?_eq_some.mp hget).1
  rcases arr with _ | ⟨a, rest⟩
  · simp at hidx
  · rcases rest with _ | ⟨b, rest2⟩
    · have h1 : idx < 1 := by simpa using hidx
      have h0 : idx = 0 := by omega
      subst h0
      simp only [List.get?] at hget
      cases hget
      exact absurd rfl (hshape k v)
    · simp

/-- Case: leaf with the same key and the same value — nothing changes. -/
theorem assoc_spec_leaf_same {shift hash : Nat} {mutid m b_bitmap : Nat}
    {b_array : List BEntry} {key' : Key} {val' : Val}
    (hbit : b_bitmap &&& map_bitpos hash shift ≠ 0)
    (hget : b_array.get? (map_bitindex b_bitmap (map_bitpos hash shift))
      = some (.inl (key', val')))
    (hwf : NodeWF (.bitmapN m b_bitmap b_array) shift)
    (hh : hash = hash32 key') :
    AssocSpec (.bitmapN m b_bitmap b_array) shift hash key' val' mutid := by
  obtain ⟨hb, hget2, hea, hmask, hmem, hfind1, hfind2⟩ := bitmap_leaf_facts hwf hbit hget
  unfold AssocSpec
  rw [assoc_bitmap_leaf_same hbit hget rfl rfl]
  dsimp only
  refine ⟨hwf, fun k hk => Or.inl hk, by simp, hfind1, ?_, fun h => h, fun h => h⟩
  simp only [Bool.false_eq_true, false_iff]
  rw [hfind1]
  simp

/-- Case: leaf with the same key and a different value — replace in
place. -/
theorem assoc_spec_leaf_replace {shift hash : Nat} {val : Val} {mutid m b_bitmap : Nat}
    {b_array : List BEntry} {key' : Key} {val' : Val}
    (hbit : b_bitmap &&& map_bitpos hash shift ≠ 0)
    (hget : b_array.get? (map_bitindex b_bitmap (map_bitpos hash shift))
      = some (.inl (key', val')))
    (hv : ¬ val = val')
    (hwf : NodeWF (.bitmapN m b_bitmap b_array) shift)
    (hh : hash = hash32 key') :
    AssocSpec (.bitmapN m b_bitmap b_array) shift hash key' val mutid := by
  obtain ⟨hb, hget2, hea, hmask, hmem, hfind1, hfind2⟩ := bitmap_leaf_facts hwf hbit hget
  obtain ⟨hs, hmul0, hlen, hentries⟩ := NodeWF_bitmap_parts hwf
  have hset := entryAtBit_set (Sum.inl (key', val) : BEntry) hb hlen
  unfold AssocSpec
  rw [assoc_bitmap_leaf_replace hbit hget rfl hv, map_bitpos_eq]
  dsimp only
  refine ⟨?_, ?_, ?_, ?_, ?_, ?_, ?_⟩
  · exact NodeWF_bitmap_set hwf hb (BEntryWF.leaf hmask)
  · intro k hk
    rcases @nodeKeys_set_subset m mutid b_bitmap b_bitmap _ _ _ _ hget2 k hk with hk0 | hk0
    · rcases hk0 with ⟨v, hv0⟩
      simp only [entryItems, List.mem_singleton, Prod.mk.injEq] at hv0
      exact Or.inr hv0.1
    · exact Or.inl hk0
  · have hlc := @leafCount_set m mutid b_bitmap b_bitmap _ _ _
      (Sum.inl (key', val) : BEntry) hget2
    simp only [entryItems, List.length_singleton] at hlc
    simp only [Bool.false_eq_true, if_false]
    omega
  · rw [map_node_find_bitmapN, hset.2]
    simp
  · simp only [Bool.false_eq_true, false_iff]
    rw [hfind1]
    simp
  · intro hshape
    have h2 := two_le_length_of_shape hget2 hshape.2
    exact ⟨set_ne_nil hshape.1, set_ne_single_of_len h2⟩
  · intro hshape
    exact set_ne_nil hshape

/-- Case: leaf with a different key — the conflict is pushed one level
down into a fresh two-leaf subtree. -/
theorem assoc_spec_leaf_conflict {shift hash : Nat} {key : Key} {val : Val}
    {mutid m b_bitmap : Nat} {b_array : List BEntry} {key' : Key} {val' : Val}
    (hbit : b_bitmap &&& map_bitpos hash shift ≠ 0)
    (hget : b_array.get? (map_bitindex b_bitmap (map_bitpos hash shift))
      = some (.inl (key', val')))
    (hk : ¬ key = key')
    (hwf : NodeWF (.bitmapN m b_bitmap b_array) shift) (hmul : shift % 5 = 0)
    (hle : shift ≤ 35) (hh : hash = hash32 key)
    (hcong : KeysBelowCongr (.bitmapN m b_bitmap b_array) shift hash) :
    AssocSpec (.bitmapN m b_bitmap b_array) shift hash key val mutid := by
  obtain ⟨hb, hget2, hea, hmask, hmem, hfind1, hfind2⟩ := bitmap_leaf_facts hwf hbit hget
  obtain ⟨hs, hmul0, hlen, hentries⟩ := NodeWF_bitmap_parts hwf
  have hcongk : hash32 key' % 2 ^ (shift + 5) = hash % 2 ^ (shift + 5) :=
    mod_pow_step (hcong key' hmem) hmask
  obtain ⟨mwf, mlist, mfind, mbs, mas⟩ :=
    mkBoC_spec (shift + 5) key' val' hash key val m (by omega) (by omega)
      (fun hc => hk hc.symm) hh (by rw [hcongk])
  have hkeym : ∀ k0 ∈ nodeKeys
      (map_node_new_bitmap_or_collision (shift + 5) key' val' hash key val m),
      k0 = key' ∨ k0 = key := by
    intro k0 hk0
    rw [nodeKeys] at hk0
    rcases mlist with hl | hl
    · rw [hl] at hk0
      simpa using hk0
    · rw [hl] at hk0
      rcases (by simpa using hk0 : k0 = key ∨ k0 = key') with h | h
      · exact Or.inr h
      · exact Or.inl h
  have hcnt2 : leafCount
      (map_node_new_bitmap_or_collision (shift + 5) key' val' hash key val m) = 2 := by
    rw [leafCount]
    rcases mlist with hl | hl <;> rw [hl] <;> rfl
  have hewf2 : BEntryWF shift (map_mask hash shift)
      (.inr (map_node_new_bitmap_or_collision (shift + 5) key' val' hash key val m)) := by
    refine BEntryWF.child mwf ?_ mbs (by omega)
    intro k0 hk0
    rcases hkeym k0 hk0 with h | h
    · rw [h]
      exact hmask
    · rw [h, ← hh]
  have hset := entryAtBit_set
    (Sum.inr (map_node_new_bitmap_or_collision (shift + 5) key' val' hash key val m)
      : BEntry) hb hlen
  unfold AssocSpec
  rw [assoc_bitmap_leaf_conflict hbit hget hk, map_bitpos_eq]
  dsimp only
  refine ⟨?_, ?_, ?_, ?_, ?_, ?_, ?_⟩
  · exact NodeWF_bitmap_set hwf hb hewf2
  · intro k0 hk0
    rcases @nodeKeys_set_subset m mutid b_bitmap b_bitmap _ _ _ _ hget2 k0 hk0
      with hk1 | hk1
    · rcases hk1 with ⟨v, hv0⟩
      rcases hkeym k0 (mem_nodeKeys_iff.mpr ⟨v, hv0⟩) with h | h
      · rw [h]
        exact Or.inl hmem
      · exact Or.inr h
    · exact Or.inl hk1
  · have hlc := @leafCount_set m mutid b_bitmap b_bitmap _ _ _
      (Sum.inr (map_node_new_bitmap_or_collision (shift + 5) key' val' hash key val m)
        : BEntry) hget2
    have hnew : (entryItems
        (Sum.inr (map_node_new_bitmap_or_collision (shift + 5) key' val' hash key val m)
          : BEntry)).length = 2 := hcnt2
    rw [hnew] at hlc
    simp only [entryItems, List.length_singleton] at hlc
    simp only [if_pos]
    omega
  · rw [map_node_find_bitmapN, hset.2]
    exact mfind
  · simp only [true_iff]
    exact hfind2 key hk
  · intro hshape
    refine ⟨set_ne_nil hshape.1, ?_⟩
    exact set_inr_ne_single _ (bitindex_lt_of_testBit hlen hb)
  · intro hshape
    exact set_ne_nil hshape

theorem insert_ne_nil {arr : List BEntry} {idx : Nat} {e : BEntry} :
    arr.take idx ++ e :: arr.drop idx ≠ [] := by
  intro hc
  have := congrArg List.length hc
  simp [List.length_append] at this

theorem insert_ne_single {arr : List BEntry} {idx : Nat} {e : BEntry}
    (h1 : arr ≠ []) : ∀ k v, arr.take idx ++ e :: arr.drop idx ≠ [.inl (k, v)] := by
  intro k v hc
  have hlen := congrArg List.length hc
  simp only [List.length_append, List.length_take, List.length_cons, List.length_drop,
    List.length_nil] at hlen
  have h0 : arr.length = 0 := by omega
  exact h1 (List.eq_nil_of_length_eq_zero h0)

/-- Case: free bit on a full bitmap — promotion to an Array node. -/
theorem assoc_spec_promote {shift hash : Nat} {key : Key} {val : Val}
    {mutid m b_bitmap : Nat} {b_array : List BEntry}
    (hbit : b_bitmap &&& map_bitpos hash shift = 0)
    (h16 : 16 ≤ map_bitcount b_bitmap)
    (hwf : NodeWF (.bitmapN m b_bitmap b_array) shift)
    (hh : hash = hash32 key) :
    AssocSpec (.bitmapN m b_bitmap b_array) shift hash key val mutid := by
  obtain ⟨hs, hmul0, hlen, hentries⟩ := NodeWF_bitmap_parts hwf
  have hbmp32 := NodeWF_bitmap_lt hwf
  have hbit2 : b_bitmap &&& 2 ^ map_mask hash shift = 0 := by
    rw [← map_bitpos_eq]
    exact hbit
  have htb : b_bitmap.testBit (map_mask hash shift) = false := by
    rcases h : b_bitmap.testBit (map_mask hash shift) with _ | _
    · rfl
    · exact absurd hbit2 ((and_two_pow_ne_zero_iff _ _).mpr h)
  have hslot : ∀ j x, ((List.range 32).map
      (promotedSlot mutid shift hash key val b_bitmap b_array)).get? j = some x →
      promotedSlot mutid shift hash key val b_bitmap b_array j = x := by
    intro j x hx
    rcases Nat.lt_or_ge j 32 with hj | hj
    · rw [get?_range_map _ hj] at hx
      exact Option.some.inj hx
    · rw [get?_range_map_none _ (by omega)] at hx
      cases hx
  have hfind0 : map_node_find (.bitmapN m b_bitmap b_array) shift hash key = none := by
    rw [map_node_find_bitmapN]
    have hnone : entryAtBit b_bitmap b_array (map_mask hash shift) = none := by
      simp [entryAtBit, htb]
    rw [hnone]
  unfold AssocSpec
  rw [assoc_bitmap_promote hbit h16]
  dsimp only
  refine ⟨?_, ?_, ?_, ?_, ?_, fun _ => trivial, fun _ => trivial⟩
  · refine NodeWF.array (NodeWF_promotion_shift hwf h16) hmul0 (by simp) ?_ (by omega)
      ?_ ?_ ?_
    · rw [promotion_count hbmp32 hlen htb]
      rfl
    · intro j c hc
      exact (promotedSlot_wf hwf hh (h16 : 16 ≤ popcount b_bitmap) (hslot j (some c) hc)).1
    · intro j c hc
      exact (promotedSlot_wf hwf hh (h16 : 16 ≤ popcount b_bitmap) (hslot j (some c) hc)).2.1
    · intro j c hc
      exact (promotedSlot_wf hwf hh (h16 : 16 ≤ popcount b_bitmap) (hslot j (some c) hc)).2.2
  · exact @promotion_keys m mutid shift hash _ key val b_bitmap b_array hlen
  · rw [@promotion_leafCount m mutid shift hash _ key val b_bitmap b_array hbmp32 hlen htb]
    simp
  · exact promotion_find
  · simp only [true_iff]
    exact hfind0

/-- Case: free bit on a small bitmap — pack the new leaf in. -/
theorem assoc_spec_insert {shift hash : Nat} {key : Key} {val : Val}
    {mutid m b_bitmap : Nat} {b_array : List BEntry}
    (hbit : b_bitmap &&& map_bitpos hash shift = 0)
    (h16 : ¬ 16 ≤ map_bitcount b_bitmap)
    (hwf : NodeWF (.bitmapN m b_bitmap b_array) shift)
    (hh : hash = hash32 key) :
    AssocSpec (.bitmapN m b_bitmap b_array) shift hash key val mutid := by
  obtain ⟨hs, hmul0, hlen, hentries⟩ := NodeWF_bitmap_parts hwf
  have hbit2 : b_bitmap &&& 2 ^ map_mask hash shift = 0 := by
    rw [← map_bitpos_eq]
    exact hbit
  have htb : b_bitmap.testBit (map_mask hash shift) = false := by
    rcases h : b_bitmap.testBit (map_mask hash shift) with _ | _
    · rfl
    · exact absurd hbit2 ((and_two_pow_ne_zero_iff _ _).mpr h)
  have hidxle : map_bitindex b_bitmap (2 ^ map_mask hash shift) ≤ b_array.length := by
    rw [map_bitindex_eq, hlen]
    exact popcount_mod_le b_bitmap _
  have hins := entryAtBit_insert (Sum.inl (key, val) : BEntry) htb hlen
  have hsplit : entries_toList b_array
      = entries_toList (b_array.take (map_bitindex b_bitmap (2 ^ map_mask hash shift)))
        ++ entries_toList
          (b_array.drop (map_bitindex b_bitmap (2 ^ map_mask hash shift))) := by
    rw [entries_toList_eq, entries_toList_eq, entries_toList_eq, ← List.flatMap_append,
      List.take_append_drop]
  have hfind0 : map_node_find (.bitmapN m b_bitmap b_array) shift hash key = none := by
    rw [map_node_find_bitmapN]
    have hnone : entryAtBit b_bitmap b_array (map_mask hash shift) = none := by
      simp [entryAtBit, htb]
    rw [hnone]
  unfold AssocSpec
  rw [assoc_bitmap_insert hbit h16, map_bitpos_eq]
  dsimp only
  refine ⟨?_, ?_, ?_, ?_, ?_, ?_, ?_⟩
  · refine NodeWF.bitmap hs hmul0 ?_ ?_
    · rw [popcount_lor_two_pow htb]
      simp only [List.length_append, List.length_take, List.length_cons, List.length_drop]
      omega
    · intro j e he
      by_cases hj : j = map_mask hash shift
      · subst hj
        rw [hins.2] at he
        cases he
        exact BEntryWF.leaf (by rw [← hh])
      · rw [hins.1 j hj] at he
        exact hentries j e he
  · intro k hk
    rw [mem_nodeKeys_iff] at hk
    obtain ⟨v, hv⟩ := hk
    rw [map_node_toList_bitmapN, entries_toList_insert _ hidxle] at hv
    rw [List.mem_append] at hv
    rcases hv with hv | hv
    · rw [List.mem_append] at hv
      rcases hv with hv | hv
      · refine Or.inl (mem_nodeKeys_iff.mpr ⟨v, ?_⟩)
        rw [map_node_toList_bitmapN, hsplit, List.mem_append]
        exact Or.inl hv
      · right
        simp only [entryItems, List.mem_singleton, Prod.mk.injEq] at hv
        exact hv.1
    · refine Or.inl (mem_nodeKeys_iff.mpr ⟨v, ?_⟩)
      rw [map_node_toList_bitmapN, hsplit, List.mem_append]
      exact Or.inr hv
  · rw [leafCount, leafCount, map_node_toList_bitmapN, map_node_toList_bitmapN,
      entries_toList_insert _ hidxle, hsplit]
    simp only [List.length_append, entryItems, List.length_cons, List.length_nil, if_true]
    omega
  · rw [map_node_find_bitmapN, hins.2]
    simp
  · simp only [true_iff]
    exact hfind0
  · intro hshape
    exact ⟨insert_ne_nil, insert_ne_single hshape.1⟩
  · intro hshape
    exact insert_ne_nil

theorem NodeWF_array_parts {m cnt s : Nat} {arr : List (Option MapNode)}
    (h : NodeWF (.arrayN m cnt arr) s) :
    s ≤ 25 ∧ s % 5 = 0 ∧ arr.length = 32 ∧ cnt = (arr.filterMap id).length ∧ 16 ≤ cnt ∧
    (∀ j c, arr.get? j = some (some c) → NodeWF c (s + 5)) ∧
    (∀ j c, arr.get? j = some (some c) → ∀ k ∈ nodeKeys c, map_mask (hash32 k) s = j) ∧
    (∀ j c, arr.get? j = some (some c) → arrayChildShape c ∧ 1 ≤ leafCount c) := by
  cases h with
  | array hshift hmul hlen hcount hge hwf hkeys hshape =>
    exact ⟨hshift, hmul, hlen, hcount, hge, hwf, hkeys, hshape⟩

/-- Case: array slot out of range — impossible under well-formedness. -/
theorem assoc_spec_array_oob {shift hash : Nat} {key : Key} {val : Val}
    {mutid m a_count : Nat} {a_array : List (Option MapNode)}
    (hget : a_array.get? (map_mask hash shift) = none)
    (hwf : NodeWF (.arrayN m a_count a_array) shift) :
    AssocSpec (.arrayN m a_count a_array) shift hash key val mutid := by
  exfalso
  obtain ⟨hs, hmul, hlen, _⟩ := NodeWF_array_parts hwf
  rw [List.get?_eq_getElem?, List.getElem?_eq_none_iff, hlen] at hget
  exact absurd (map_mask_lt hash shift) (by omega)

/-- Case: empty array slot — a fresh single-leaf bitmap child fills it. -/
theorem assoc_spec_array_empty {shift hash : Nat} {key : Key} {val : Val}
    {mutid m a_count : Nat} {a_array : List (Option MapNode)}
    (hget : a_array.get? (map_mask hash shift) = some none)
    (hwf : NodeWF (.arrayN m a_count a_array) shift)
    (hh : hash = hash32 key) :
    AssocSpec (.arrayN m a_count a_array) shift hash key val mutid := by
  obtain ⟨hs, hmul, hlen, hcount, hge, hwfs, hkeyss, hshapes⟩ := NodeWF_array_parts hwf
  have hfind0 : map_node_find (.arrayN m a_count a_array) shift hash key = none := by
    rw [map_node_find]
    split
    · rfl
    · rfl
    · rename_i child heq
      rw [hget] at heq <;> simp at heq
  have hsplit := slots_toList_set
    (some (map_node_bitmap_single mutid (shift + 5) hash key val)) hget
  unfold AssocSpec
  rw [assoc_array_empty hget]
  dsimp only
  refine ⟨?_, ?_, ?_, ?_, ?_, fun _ => trivial, fun _ => trivial⟩
  · refine NodeWF.array hs hmul (by rw [List.length_set]; exact hlen) ?_ (by omega)
      ?_ ?_ ?_
    · rw [filterMap_id_length_set_none hget]
      omega
    · intro j c hc
      by_cases hj : j = map_mask hash shift
      · subst hj
        rw [List.get?_set_eq_of_lt _ (by rw [hlen]; exact map_mask_lt hash shift)] at hc
        obtain rfl : map_node_bitmap_single mutid (shift + 5) hash key val = c := by
          simpa using hc
        exact map_node_bitmap_single_wf hh (by omega) (by omega)
      · rw [List.get?_set_ne _ _ (fun hc2 => hj hc2.symm)] at hc
        exact hwfs j c hc
    · intro j c hc
      by_cases hj : j = map_mask hash shift
      · subst hj
        rw [List.get?_set_eq_of_lt _ (by rw [hlen]; exact map_mask_lt hash shift)] at hc
        obtain rfl : map_node_bitmap_single mutid (shift + 5) hash key val = c := by
          simpa using hc
        intro k hk
        rw [nodeKeys, map_node_bitmap_single_toList] at hk
        simp only [List.map_cons, List.map_nil, List.mem_singleton] at hk
        rw [hk, ← hh]
      · rw [List.get?_set_ne _ _ (fun hc2 => hj hc2.symm)] at hc
        exact hkeyss j c hc
    · intro j c hc
      by_cases hj : j = map_mask hash shift
      · subst hj
        rw [List.get?_set_eq_of_lt _ (by rw [hlen]; exact map_mask_lt hash shift)] at hc
        obtain rfl : map_node_bitmap_single mutid (shift + 5) hash key val = c := by
          simpa using hc
        refine ⟨by simp [map_node_bitmap_single, arrayChildShape], ?_⟩
        rw [leafCount, map_node_bitmap_single_toList]
        simp
      · rw [List.get?_set_ne _ _ (fun hc2 => hj hc2.symm)] at hc
        exact hshapes j c hc
  · intro k hk
    rw [mem_nodeKeys_iff] at hk
    obtain ⟨v, hv⟩ := hk
    rw [map_node_toList_arrayN, hsplit.1] at hv
    rw [List.mem_append] at hv
    rcases hv with hv | hv
    · rw [List.mem_append] at hv
      rcases hv with hv | hv
      · refine Or.inl (mem_nodeKeys_iff.mpr ⟨v, ?_⟩)
        rw [map_node_toList_arrayN, hsplit.2, List.mem_append, List.mem_append]
        exact Or.inl (Or.inl hv)
      · right
        rw [slotItems, map_node_bitmap_single_toList] at hv
        simp only [List.mem_singleton, Prod.mk.injEq] at hv
        exact hv.1
    · refine Or.inl (mem_nodeKeys_iff.mpr ⟨v, ?_⟩)
      rw [map_node_toList_arrayN, hsplit.2, List.mem_append]
      exact Or.inr hv
  · rw [leafCount, leafCount, map_node_toList_arrayN, map_node_toList_arrayN,
      hsplit.1, hsplit.2]
    simp only [slotItems, map_node_bitmap_single_toList, List.length_append,
      List.length_cons, List.length_nil, if_true]
    omega
  · rw [map_node_find]
    split
    · rename_i heq
      rw [List.get?_set_eq_of_lt _ (by rw [hlen]; exact map_mask_lt hash shift)] at heq
      <;> simp at heq
    · rename_i heq
      rw [List.get?_set_eq_of_lt _ (by rw [hlen]; exact map_mask_lt hash shift)] at heq
      <;> simp at heq
    · rename_i child heq
      rw [List.get?_set_eq_of_lt _ (by rw [hlen]; exact map_mask_lt hash shift)] at heq
      obtain rfl : map_node_bitmap_single mutid (shift + 5) hash key val = child := by
        simpa using heq
      exact map_node_bitmap_single_find
  · simp only [true_iff]
    exact hfind0

/-- Case: occupied array slot — recurse into the child. -/
theorem assoc_spec_array_child {shift hash : Nat} {key : Key} {val : Val}
    {mutid m a_count : Nat} {a_array : List (Option MapNode)} {child : MapNode}
    (hget : a_array.get? (map_mask hash shift) = some (some child))
    (ih : NodeWF child (shift + 5) → (shift + 5) % 5 = 0 → shift + 5 ≤ 35 →
      hash = hash32 key → KeysBelowCongr child (shift + 5) hash →
      AssocSpec child (shift + 5) hash key val mutid)
    (hwf : NodeWF (.arrayN m a_count a_array) shift)
    (hh : hash = hash32 key)
    (hcong : KeysBelowCongr (.arrayN m a_count a_array) shift hash) :
    AssocSpec (.arrayN m a_count a_array) shift hash key val mutid := by
  obtain ⟨hs, hmul, hlen, hcount, hge, hwfs, hkeyss, hshapes⟩ := NodeWF_array_parts hwf
  have hmemc : ∀ k ∈ nodeKeys child, k ∈ nodeKeys (.arrayN m a_count a_array) := by
    intro k hk
    rw [mem_nodeKeys_iff] at hk ⊢
    obtain ⟨v, hv⟩ := hk
    refine ⟨v, ?_⟩
    rw [map_node_toList_arrayN]
    exact mem_slots_toList_of_slot (List.get?_mem hget) hv
  have hcongc : KeysBelowCongr child (shift + 5) hash :=
    child_congr (hkeyss _ _ hget) (fun k hk => hcong k (hmemc k hk))
  have espec := ih (hwfs _ _ hget) (by omega) (by omega) hh hcongc
  obtain ⟨ewf, ekeys, ecnt, efind, eiff, ebs, eas⟩ := espec
  have hbridge : map_node_find (.arrayN m a_count a_array) shift hash key
      = map_node_find child (shift + 5) hash key := by
    rw [map_node_find]
    split
    · rename_i heq
      rw [hget] at heq <;> simp at heq
    · rename_i heq
      rw [hget] at heq <;> simp at heq
    · rename_i c0 heq
      rw [hget] at heq
      obtain rfl : child = c0 := by simpa using heq
      rfl
  have hsplit := slots_toList_set
    (some (map_node_assoc child (shift + 5) hash key val mutid).1) hget
  unfold AssocSpec
  rw [assoc_array_child hget]
  dsimp only
  refine ⟨?_, ?_, ?_, ?_, ?_, fun _ => trivial, fun _ => trivial⟩
  · refine NodeWF.array hs hmul (by rw [List.length_set]; exact hlen) ?_ (by omega)
      ?_ ?_ ?_
    · rw [filterMap_id_length_set_some hget]
      exact hcount
    · intro j c hc
      by_cases hj : j = map_mask hash shift
      · subst hj
        rw [List.get?_set_eq_of_lt _ (by rw [hlen]; exact map_mask_lt hash shift)] at hc
        obtain rfl : (map_node_assoc child (shift + 5) hash key val mutid).1 = c := by
          simpa using hc
        exact ewf
      · rw [List.get?_set_ne _ _ (fun hc2 => hj hc2.symm)] at hc
        exact hwfs j c hc
    · intro j c hc
      by_cases hj : j = map_mask hash shift
      · subst hj
        rw [List.get?_set_eq_of_lt _ (by rw [hlen]; exact map_mask_lt hash shift)] at hc
        obtain rfl : (map_node_assoc child (shift + 5) hash key val mutid).1 = c := by
          simpa using hc
        intro k hk
        rcases ekeys k hk with hk0 | hk0
        · exact hkeyss _ _ hget k hk0
        · rw [hk0, ← hh]
      · rw [List.get?_set_ne _ _ (fun hc2 => hj hc2.symm)] at hc
        exact hkeyss j c hc
    · intro j c hc
      by_cases hj : j = map_mask hash shift
      · subst hj
        rw [List.get?_set_eq_of_lt _ (by rw [hlen]; exact map_mask_lt hash shift)] at hc
        obtain rfl : (map_node_assoc child (shift + 5) hash key val mutid).1 = c := by
          simpa using hc
        refine ⟨eas (hshapes _ _ hget).1, ?_⟩
        have := (hshapes _ _ hget).2
        omega
      · rw [List.get?_set_ne _ _ (fun hc2 => hj hc2.symm)] at hc
        exact hshapes j c hc
  · intro k hk
    rw [mem_nodeKeys_iff] at hk
    obtain ⟨v, hv⟩ := hk
    rw [map_node_toList_arrayN, hsplit.1] at hv
    rw [List.mem_append] at hv
    rcases hv with hv | hv
    · rw [List.mem_append] at hv
      rcases hv with hv | hv
      · refine Or.inl (mem_nodeKeys_iff.mpr ⟨v, ?_⟩)
        rw [map_node_toList_arrayN, hsplit.2, List.mem_append, List.mem_append]
        exact Or.inl (Or.inl hv)
      · rcases ekeys k (mem_nodeKeys_iff.mpr ⟨v, hv⟩) with hk0 | hk0
        · exact Or.inl (hmemc k hk0)
        · exact Or.inr hk0
    · refine Or.inl (mem_nodeKeys_iff.mpr ⟨v, ?_⟩)
      rw [map_node_toList_arrayN, hsplit.2, List.mem_append]
      exact Or.inr hv
  · rw [leafCount, leafCount, map_node_toList_arrayN, map_node_toList_arrayN,
      hsplit.1, hsplit.2]
    have hmid : (slotItems (some (map_node_assoc child (shift + 5) hash key val
        mutid).1)).length = leafCount (map_node_assoc child (shift + 5) hash key val
        mutid).1 := rfl
    have hmid2 : (slotItems (some child)).length = leafCount child := rfl
    simp only [List.length_append]
    rw [hmid, hmid2, ecnt]
    omega
  · rw [map_node_find]
    split
    · rename_i heq
      rw [List.get?_set_eq_of_lt _ (by rw [hlen]; exact map_mask_lt hash shift)] at heq
      <;> simp at heq
    · rename_i heq
      rw [List.get?_set_eq_of_lt _ (by rw [hlen]; exact map_mask_lt hash shift)] at heq
      <;> simp at heq
    · rename_i c0 heq
      rw [List.get?_set_eq_of_lt _ (by rw [hlen]; exact map_mask_lt hash shift)] at heq
      obtain rfl : (map_node_assoc child (shift + 5) hash key val mutid).1 = c0 := by
        simpa using heq
      exact efind
  · rw [eiff, hbridge]

theorem NodeWF_collision_parts {m ch s : Nat} {arr : List (Key × Val)}
    (h : NodeWF (.collisionN m ch arr) s) :
    2 ≤ arr.length ∧ ∀ p ∈ arr, hash32 p.1 = ch := by
  cases h with
  | collision hlen hhash => exact ⟨hlen, hhash⟩

theorem NodeWF_collision_shift {m ch s s' : Nat} {arr : List (Key × Val)}
    (h : NodeWF (.collisionN m ch arr) s) : NodeWF (.collisionN m ch arr) s' := by
  obtain ⟨hlen, hhash⟩ := NodeWF_collision_parts h
  exact NodeWF.collision hlen hhash

theorem map_node_find_collision_shift {m ch s s' h : Nat} {arr : List (Key × Val)}
    {k : Key} :
    map_node_find (.collisionN m ch arr) s h k
      = map_node_find (.collisionN m ch arr) s' h k := by
  rw [map_node_find, map_node_find]

theorem find_index_eq_none {key : Key} {l : List (Key × Val)}
    (h : ∀ p ∈ l, key ≠ p.1) : map_node_collision_find_index key l = none := by
  induction l with
  | nil => rfl
  | cons q rest ih =>
    rw [map_node_collision_find_index, if_neg (h q (by simp)),
      ih (fun p hp => h p (by simp [hp]))]
    rfl

theorem nodeKeys_collision_hash {m ch s : Nat} {arr : List (Key × Val)}
    (hwf : NodeWF (.collisionN m ch arr) s) :
    ∀ k ∈ nodeKeys (.collisionN m ch arr), hash32 k = ch := by
  obtain ⟨hlen, hhash⟩ := NodeWF_collision_parts hwf
  intro k hk
  rw [nodeKeys_collisionN, List.mem_map] at hk
  obtain ⟨p, hp, rfl⟩ := hk
  exact hhash p hp

/-- Case: collision node with the matching hash and a new key —
append. -/
theorem assoc_spec_collision_append {shift hash : Nat} {key : Key} {val : Val}
    {mutid m : Nat} {c_array : List (Key × Val)}
    (hfi : map_node_collision_find_index key c_array = none)
    (hwf : NodeWF (.collisionN m hash c_array) shift)
    (hh : hash = hash32 key) :
    AssocSpec (.collisionN m hash c_array) shift hash key val mutid := by
  obtain ⟨hlen, hhash⟩ := NodeWF_collision_parts hwf
  have hfind0 : map_node_find (.collisionN m hash c_array) shift hash key = none := by
    rw [map_node_find, hfi]
  unfold AssocSpec
  rw [assoc_collision_append rfl hfi]
  dsimp only
  refine ⟨?_, ?_, ?_, ?_, ?_, fun _ => trivial, fun _ => trivial⟩
  · refine NodeWF.collision (by rw [List.length_append]; omega) ?_
    intro p hp
    rw [List.mem_append] at hp
    rcases hp with hp | hp
    · exact hhash p hp
    · simp only [List.mem_singleton] at hp
      rw [hp, ← hh]
  · intro k hk
    rw [nodeKeys_collisionN, List.map_append, List.mem_append] at hk
    rcases hk with hk | hk
    · exact Or.inl (by rw [nodeKeys_collisionN]; exact hk)
    · simp only [List.map_cons, List.map_nil, List.mem_singleton] at hk
      exact Or.inr hk
  · rw [leafCount, leafCount, map_node_toList, map_node_toList]
    simp
  · rw [map_node_find, find_index_append_none hfi rfl]
    dsimp only
    rw [List.get?_eq_getElem?, List.getElem?_concat_length]
    rfl
  · simp only [true_iff]
    exact hfind0

/-- Case: collision scan hit an index outside the array — impossible. -/
theorem assoc_spec_collision_oob {shift hash : Nat} {key : Key} {val : Val}
    {mutid m : Nat} {c_array : List (Key × Val)} {i : Nat}
    (hfi : map_node_collision_find_index key c_array = some i)
    (hget : c_array.get? i = none) :
    AssocSpec (.collisionN m hash c_array) shift hash key val mutid := by
  exfalso
  obtain ⟨p, hp, hk⟩ := find_index_some hfi
  rw [hp] at hget
  cases hget

/-- Case: collision node already holds the binding — nothing changes. -/
theorem assoc_spec_collision_found {shift hash : Nat} {key : Key}
    {mutid m : Nat} {c_array : List (Key × Val)} {i : Nat} {key' : Key} {val' : Val}
    (hfi : map_node_collision_find_index key c_array = some i)
    (hget : c_array.get? i = some (key', val'))
    (hwf : NodeWF (.collisionN m hash c_array) shift) :
    AssocSpec (.collisionN m hash c_array) shift hash key val' mutid := by
  have hfind0 : map_node_find (.collisionN m hash c_array) shift hash key
      = some val' := by
    rw [map_node_find, hfi]
    dsimp only
    rw [hget]
    rfl
  unfold AssocSpec
  rw [assoc_collision_same rfl hfi hget rfl]
  dsimp only
  refine ⟨hwf, fun k hk => Or.inl hk, by simp, hfind0, ?_, fun h => h, fun h => h⟩
  simp only [Bool.false_eq_true, false_iff]
  rw [hfind0]
  simp

/-- Case: collision node holds the key with another value — replace. -/
theorem assoc_spec_collision_replace {shift hash : Nat} {key : Key} {val : Val}
    {mutid m : Nat} {c_array : List (Key × Val)} {i : Nat} {key' : Key} {val' : Val}
    (hfi : map_node_collision_find_index key c_array = some i)
    (hget : c_array.get? i = some (key', val'))
    (hv : ¬ val' = val)
    (hwf : NodeWF (.collisionN m hash c_array) shift) :
    AssocSpec (.collisionN m hash c_array) shift hash key val mutid := by
  obtain ⟨hlen, hhash⟩ := NodeWF_collision_parts hwf
  obtain ⟨p, hp, hkp⟩ := find_index_some hfi
  rw [hget] at hp
  obtain rfl : p = (key', val') := (Option.some.inj hp).symm
  have hilt : i < c_array.length := (List.get?_eq_some.mp hget).1
  have hfind0 : map_node_find (.collisionN m hash c_array) shift hash key
      = some val' := by
    rw [map_node_find, hfi]
    dsimp only
    rw [hget]
    rfl
  unfold AssocSpec
  rw [assoc_collision_replace rfl hfi hget hv]
  dsimp only
  refine ⟨?_, ?_, ?_, ?_, ?_, fun _ => trivial, fun _ => trivial⟩
  · refine NodeWF.collision (by rw [List.length_set]; omega) ?_
    intro p hp0
    rcases List.mem_or_eq_of_mem_set hp0 with hp1 | hp1
    · exact hhash p hp1
    · rw [hp1]
      exact hhash (key', val') (List.get?_mem hget)
  · intro k hk
    rw [nodeKeys_collisionN, List.mem_map] at hk
    obtain ⟨p, hp0, rfl⟩ := hk
    rcases List.mem_or_eq_of_mem_set hp0 with hp1 | hp1
    · exact Or.inl (by rw [nodeKeys_collisionN]; exact List.mem_map_of_mem _ hp1)
    · rw [hp1]
      refine Or.inl ?_
      rw [nodeKeys_collisionN]
      have hmem := List.mem_map_of_mem (fun q : Key × Val => q.1) (List.get?_mem hget)
      exact hmem
  · rw [leafCount, leafCount, map_node_toList, map_node_toList, List.length_set]
    simp
  · rw [map_node_find, find_index_set hget hkp hfi val]
    dsimp only
    rw [List.get?_set_eq_of_lt _ hilt]
    rfl
  · simp only [Bool.false_eq_true, false_iff]
    rw [hfind0]
    simp

/-- Case: collision with a different hash below shift 30 — impossible for
congruent hashes at shift 35. -/
theorem assoc_spec_collision_deep {shift hash : Nat} {key : Key} {val : Val}
    {mutid m c_hash : Nat} {c_array : List (Key × Val)}
    (hne : ¬ hash = c_hash)
    (h30 : 30 < shift)
    (hwf : NodeWF (.collisionN m c_hash c_array) shift) (hmul : shift % 5 = 0)
    (hle : shift ≤ 35) (hh : hash = hash32 key)
    (hcong : KeysBelowCongr (.collisionN m c_hash c_array) shift hash) :
    AssocSpec (.collisionN m c_hash c_array) shift hash key val mutid := by
  exfalso
  apply hne
  have h35 : shift = 35 := by omega
  have hch32 := collision_hash_lt hwf
  have hc := collision_congr hwf hcong
  rw [h35] at hc
  rw [Nat.mod_eq_of_lt (lt_trans hch32 (by norm_num)),
    Nat.mod_eq_of_lt (by rw [hh]; exact lt_trans (hash32_lt key) (by norm_num))] at hc
  rw [hc]

/-- Case: collision with a different hash but the same window — wrap and
recurse one level deeper on the same collision node. -/
theorem assoc_spec_collision_wrap {shift hash : Nat} {key : Key} {val : Val}
    {mutid m c_hash : Nat} {c_array : List (Key × Val)}
    (hne : ¬ hash = c_hash)
    (hbp : map_bitpos hash shift = map_bitpos c_hash shift)
    (h30 : ¬ 30 < shift)
    (ih : NodeWF (.collisionN m c_hash c_array) (shift + 5) → (shift + 5) % 5 = 0 →
      shift + 5 ≤ 35 → hash = hash32 key →
      KeysBelowCongr (.collisionN m c_hash c_array) (shift + 5) hash →
      AssocSpec (.collisionN m c_hash c_array) (shift + 5) hash key val mutid)
    (hwf : NodeWF (.collisionN m c_hash c_array) shift) (hmul : shift % 5 = 0)
    (hle : shift ≤ 35) (hh : hash = hash32 key)
    (hcong : KeysBelowCongr (.collisionN m c_hash c_array) shift hash) :
    AssocSpec (.collisionN m c_hash c_array) shift hash key val mutid := by
  obtain ⟨hlen, hhash⟩ := NodeWF_collision_parts hwf
  have hmask : map_mask hash shift = map_mask c_hash shift := by
    rw [map_bitpos_eq, map_bitpos_eq] at hbp
    exact Nat.pow_right_injective (by norm_num) hbp
  have hcong5 : KeysBelowCongr (.collisionN m c_hash c_array) (shift + 5) hash := by
    have hc5 : c_hash % 2 ^ (shift + 5) = hash % 2 ^ (shift + 5) :=
      mod_pow_step (collision_congr hwf hcong) hmask.symm
    intro k hk
    rw [nodeKeys_collision_hash hwf k hk, hc5]
  obtain ⟨ewf, ekeys, ecnt, efind, eiff, ebs, eas⟩ :=
    ih (NodeWF_collision_shift hwf) (by omega) (by omega) hh hcong5
  have hlc : 2 ≤ leafCount (.collisionN m c_hash c_array) := by
    rw [leafCount, map_node_toList]
    exact hlen
  unfold AssocSpec
  rw [assoc_collision_wrap hne hbp h30]
  dsimp only
  refine ⟨?_, ?_, ?_, ?_, ?_, ?_, ?_⟩
  · refine NodeWF.bitmap (by omega) hmul ?_ ?_
    · rw [map_bitpos_eq, popcount_two_pow]
      rfl
    · intro j e he
      rw [map_bitpos_eq, entryAtBit_single] at he
      by_cases hj : j = map_mask c_hash shift
      · rw [if_pos hj] at he
        cases he
        refine BEntryWF.child ewf ?_ (ebs trivial) (by omega)
        intro k hk
        rcases ekeys k hk with hk0 | hk0
        · rw [nodeKeys_collision_hash hwf k hk0, hj]
        · rw [hk0, ← hh, hj, ← hmask]
      · rw [if_neg hj] at he
        cases he
  · intro k hk
    rw [mem_nodeKeys_iff] at hk
    obtain ⟨v, hv⟩ := hk
    rw [map_node_toList_bitmapN, entries_toList_eq] at hv
    simp only [List.flatMap_cons, List.flatMap_nil, List.append_nil, entryItems] at hv
    exact ekeys k (mem_nodeKeys_iff.mpr ⟨v, hv⟩)
  · have hres : map_node_toList (MapNode.bitmapN mutid (map_bitpos c_hash shift)
        [.inr (map_node_assoc (.collisionN m c_hash c_array) (shift + 5) hash key val
          mutid).1])
        = map_node_toList (map_node_assoc (.collisionN m c_hash c_array) (shift + 5)
          hash key val mutid).1 := by
      rw [map_node_toList_bitmapN, entries_toList_eq]
      simp [entryItems]
    rw [leafCount, hres, ← leafCount, ecnt]
  · rw [map_node_find_bitmapN, map_bitpos_eq, hmask, entryAtBit_single, if_pos rfl]
    exact efind
  · rw [eiff]
    rw [show map_node_find (.collisionN m c_hash c_array) (shift + 5) hash key
        = map_node_find (.collisionN m c_hash c_array) shift hash key from
      map_node_find_collision_shift]
  · intro _
    refine ⟨by simp, ?_⟩
    intro k v
    simp
  · intro _
    simp [arrayChildShape]

/-- Shared facts for the two collision push-down leaf cases. -/
theorem collision_leaf_common {shift hash : Nat} {key : Key}
    {m c_hash : Nat} {c_array : List (Key × Val)}
    (hne : ¬ hash = c_hash)
    (hbp : ¬ map_bitpos hash shift = map_bitpos c_hash shift)
    (hwf : NodeWF (.collisionN m c_hash c_array) shift)
    (hmul : shift % 5 = 0) (hle : shift ≤ 35)
    (hh : hash = hash32 key) :
    shift ≤ 30 ∧ map_mask hash shift ≠ map_mask c_hash shift ∧
    map_node_find (.collisionN m c_hash c_array) shift hash key = none := by
  have hch32 := collision_hash_lt hwf
  obtain ⟨hlen, hhash⟩ := NodeWF_collision_parts hwf
  have hs30 : shift ≤ 30 := by
    by_contra hgt
    apply hbp
    have h35 : shift = 35 := by omega
    rw [h35, map_bitpos_eq, map_bitpos_eq,
      map_mask_35_eq_zero (by rw [hh]; exact hash32_lt key),
      map_mask_35_eq_zero hch32]
  refine ⟨hs30, ?_, ?_⟩
  · intro hc
    apply hbp
    rw [map_bitpos_eq, map_bitpos_eq, hc]
  · have hnone : map_node_collision_find_index key c_array = none := by
      apply find_index_eq_none
      intro p hp hkp
      apply hne
      rw [hh, hkp]
      exact hhash p hp
    rw [map_node_find, hnone]

/-- Case: collision pushed down next to the new leaf, leaf first. -/
theorem assoc_spec_collision_leaf_lt {shift hash : Nat} {key : Key} {val : Val}
    {mutid m c_hash : Nat} {c_array : List (Key × Val)}
    (hne : ¬ hash = c_hash)
    (hbp : ¬ map_bitpos hash shift = map_bitpos c_hash shift)
    (hlt : map_mask hash shift < map_mask c_hash shift)
    (hwf : NodeWF (.collisionN m c_hash c_array) shift) (hmul : shift % 5 = 0)
    (hle : shift ≤ 35) (hh : hash = hash32 key) :
    AssocSpec (.collisionN m c_hash c_array) shift hash key val mutid := by
  obtain ⟨hs30, hmne, hfind0⟩ := collision_leaf_common hne hbp hwf hmul hle hh
  obtain ⟨hlen, hhash⟩ := NodeWF_collision_parts hwf
  have hlc : leafCount (.collisionN m c_hash c_array) = c_array.length := by
    rw [leafCount, map_node_toList]
  unfold AssocSpec
  rw [assoc_collision_leaf_lt hne hbp hlt, map_bitpos_eq, map_bitpos_eq, Nat.lor_comm]
  dsimp only
  refine ⟨?_, ?_, ?_, ?_, ?_, ?_, ?_⟩
  · refine NodeWF.bitmap hs30 hmul ?_ ?_
    · rw [popcount_lor_two_pow (Nat.testBit_two_pow_of_ne (Nat.ne_of_lt hlt)),
        popcount_two_pow]
      rfl
    · intro j e he
      rw [entryAtBit_two hlt] at he
      by_cases h1 : j = map_mask hash shift
      · rw [if_pos h1] at he
        cases he
        exact BEntryWF.leaf (by rw [← hh, h1])
      · rw [if_neg h1] at he
        by_cases h2 : j = map_mask c_hash shift
        · rw [if_pos h2] at he
          cases he
          refine BEntryWF.child (NodeWF_collision_shift hwf) ?_ trivial (by omega)
          intro k hk
          rw [nodeKeys_collision_hash hwf k hk, h2]
        · rw [if_neg h2] at he
          cases he
  · intro k hk
    rw [mem_nodeKeys_iff] at hk
    obtain ⟨v, hv⟩ := hk
    rw [map_node_toList_bitmapN, entries_toList_eq] at hv
    simp only [List.flatMap_cons, List.flatMap_nil, List.append_nil, entryItems,
      List.cons_append, List.nil_append, List.mem_cons] at hv
    rcases hv with hv | hv
    · right
      exact (Prod.mk.injEq _ _ _ _ ▸ hv).1
    · left
      rw [mem_nodeKeys_iff]
      exact ⟨v, by rw [map_node_toList]; exact hv⟩
  · rw [leafCount, map_node_toList_bitmapN, entries_toList_eq]
    simp only [List.flatMap_cons, List.flatMap_nil, List.append_nil, entryItems,
      List.cons_append, List.nil_append, List.length_cons]
    rw [hlc]
    have : map_node_toList (.collisionN m c_hash c_array) = c_array := by
      rw [map_node_toList]
    rw [this]
    simp
  · rw [map_node_find_bitmapN, entryAtBit_two hlt, if_pos rfl]
    simp
  · simp only [true_iff]
    exact hfind0
  · intro _
    refine ⟨by simp, ?_⟩
    intro k v
    simp
  · intro _
    simp [arrayChildShape]

/-- Case: collision pushed down next to the new leaf, collision first. -/
theorem assoc_spec_collision_leaf_ge {shift hash : Nat} {key : Key} {val : Val}
    {mutid m c_hash : Nat} {c_array : List (Key × Val)}
    (hne : ¬ hash = c_hash)
    (hbp : ¬ map_bitpos hash shift = map_bitpos c_hash shift)
    (hge : ¬ map_mask hash shift < map_mask c_hash shift)
    (hwf : NodeWF (.collisionN m c_hash c_array) shift) (hmul : shift % 5 = 0)
    (hle : shift ≤ 35) (hh : hash = hash32 key) :
    AssocSpec (.collisionN m c_hash c_array) shift hash key val mutid := by
  obtain ⟨hs30, hmne, hfind0⟩ := collision_leaf_common hne hbp hwf hmul hle hh
  obtain ⟨hlen, hhash⟩ := NodeWF_collision_parts hwf
  have hlt : map_mask c_hash shift < map_mask hash shift := by omega
  have hlc : leafCount (.collisionN m c_hash c_array) = c_array.length := by
    rw [leafCount, map_node_toList]
  unfold AssocSpec
  rw [assoc_collision_leaf_ge hne hbp hge, map_bitpos_eq, map_bitpos_eq]
  dsimp only
  refine ⟨?_, ?_, ?_, ?_, ?_, ?_, ?_⟩
  · refine NodeWF.bitmap hs30 hmul ?_ ?_
    · rw [popcount_lor_two_pow (Nat.testBit_two_pow_of_ne (Nat.ne_of_lt hlt)),
        popcount_two_pow]
      rfl
    · intro j e he
      rw [entryAtBit_two hlt] at he
      by_cases h1 : j = map_mask c_hash shift
      · rw [if_pos h1] at he
        cases he
        refine BEntryWF.child (NodeWF_collision_shift hwf) ?_ trivial (by omega)
        intro k hk
        rw [nodeKeys_collision_hash hwf k hk, h1]
      · rw [if_neg h1] at he
        by_cases h2 : j = map_mask hash shift
        · rw [if_pos h2] at he
          cases he
          exact BEntryWF.leaf (by rw [← hh, h2])
        · rw [if_neg h2] at he
          cases he
  · intro k hk
    rw [mem_nodeKeys_iff] at hk
    obtain ⟨v, hv⟩ := hk
    rw [map_node_toList_bitmapN, entries_toList_eq] at hv
    simp only [List.flatMap_cons, List.flatMap_nil, List.append_nil, entryItems,
      List.mem_append, List.mem_cons, List.not_mem_nil, or_false] at hv
    rcases hv with hv | hv
    · left
      rw [mem_nodeKeys_iff]
      exact ⟨v, by rw [map_node_toList]; exact hv⟩
    · right
      exact (Prod.mk.injEq _ _ _ _ ▸ hv).1
  · rw [leafCount, map_node_toList_bitmapN, entries_toList_eq]
    simp only [List.flatMap_cons, List.flatMap_nil, List.append_nil, entryItems,
      List.length_append, List.length_cons, List.length_nil]
    rw [hlc]
    have : map_node_toList (.collisionN m c_hash c_array) = c_array := by
      rw [map_node_toList]
    rw [this]
    simp
  · rw [map_node_find_bitmapN, entryAtBit_two hlt, if_neg (Nat.ne_of_gt hlt),
      if_pos rfl]
    simp
  · simp only [true_iff]
    exact hfind0
  · intro _
    refine ⟨by simp, ?_⟩
    intro k v
    simp
  · intro _
    simp [arrayChildShape]

/-- `map_node_assoc` satisfies its specification on any well-formed
subtree whose keys agree with the new key's hash on the consumed bits. -/
theorem map_node_assoc_spec (node : MapNode) (shift hash : Nat) (key : Key) (val : Val)
    (mutid : Nat) :
    NodeWF node shift → shift % 5 = 0 → shift ≤ 35 → hash = hash32 key →
    KeysBelowCongr node shift hash →
    AssocSpec node shift hash key val mutid := by
  induction node, shift, hash, key, val, mutid using map_node_assoc.induct with
  | case1 shift hash key val mutid m b_bitmap b_array bit idx h1 h2 =>
    intro hwf hmul hle hh hcong
    exact assoc_spec_bitmap_none h1 h2 hwf
  | case2 shift hash key val mutid m b_bitmap b_array bit idx h1 von hget r heq ih =>
    intro hwf hmul hle hh hcong
    exact assoc_spec_child_id h1 hget heq ih hwf hmul hle hh hcong
  | case3 shift hash key val mutid m b_bitmap b_array bit idx h1 von hget r heq ih =>
    intro hwf hmul hle hh hcong
    exact assoc_spec_child_set h1 hget heq ih hwf hmul hle hh hcong
  | case4 shift hash mutid m b_bitmap b_array bit idx h1 key' val' hget =>
    intro hwf hmul hle hh hcong
    exact assoc_spec_leaf_same h1 hget hwf hh
  | case5 shift hash val mutid m b_bitmap b_array bit idx h1 key' val' hget hv =>
    intro hwf hmul hle hh hcong
    exact assoc_spec_leaf_replace h1 hget hv hwf hh
  | case6 shift hash key val mutid m b_bitmap b_array bit idx h1 key' val' hget hk =>
    intro hwf hmul hle hh hcong
    exact assoc_spec_leaf_conflict h1 hget hk hwf hmul hle hh hcong
  | case7 shift hash key val mutid m b_bitmap b_array bit h1 n h16 =>
    intro hwf hmul hle hh hcong
    exact assoc_spec_promote (not_not.mp h1) h16 hwf hh
  | case8 shift hash key val mutid m b_bitmap b_array bit h1 n h16 =>
    intro hwf hmul hle hh hcong
    exact assoc_spec_insert (not_not.mp h1) h16 hwf hh
  | case9 shift hash key val mutid m a_count a_array idx hget =>
    intro hwf hmul hle hh hcong
    exact assoc_spec_array_oob hget hwf
  | case10 shift hash key val mutid m a_count a_array idx hget =>
    intro hwf hmul hle hh hcong
    exact assoc_spec_array_empty hget hwf hh
  | case11 shift hash key val mutid m a_count a_array idx child hget ih =>
    intro hwf hmul hle hh hcong
    exact assoc_spec_array_child hget ih hwf hh hcong
  | case12 shift hash key val mutid m c_array hfi =>
    intro hwf hmul hle hh hcong
    exact assoc_spec_collision_append hfi hwf hh
  | case13 shift hash key val mutid m c_array i hfi hget =>
    intro hwf hmul hle hh hcong
    exact assoc_spec_collision_oob hfi hget
  | case14 shift hash key mutid m c_array i hfi key' val' hget =>
    intro hwf hmul hle hh hcong
    exact assoc_spec_collision_found hfi hget hwf
  | case15 shift hash key val mutid m c_array i hfi key' val' hget hv =>
    intro hwf hmul hle hh hcong
    exact assoc_spec_collision_replace hfi hget hv hwf
  | case16 shift hash key val mutid m c_hash c_array hne hbp h30 =>
    intro hwf hmul hle hh hcong
    exact assoc_spec_collision_deep hne h30 hwf hmul hle hh hcong
  | case17 shift hash key val mutid m c_hash c_array hne hbp h30 ih =>
    intro hwf hmul hle hh hcong
    exact assoc_spec_collision_wrap hne hbp h30 ih hwf hmul hle hh hcong
  | case18 shift hash key val mutid m c_hash c_array hne hbp hlt =>
    intro hwf hmul hle hh hcong
    exact assoc_spec_collision_leaf_lt hne hbp hlt hwf hmul hle hh
  | case19 shift hash key val mutid m c_hash c_array hne hbp hge =>
    intro hwf hmul hle hh hcong
    exact assoc_spec_collision_leaf_ge hne hbp hge hwf hmul hle hh

/-! ## No nonempty proper subtree holds exactly one binding

Used to show the `W_EMPTY` abort in the bitmap delete path (line 1067)
is unreachable: a bitmap child is never a single-leaf bitmap node, and
every other shape holds two or more bindings or recursively delegates. -/

theorem entryItems_pos {s j : Nat} {e : BEntry} (h : BEntryWF s j e) :
    1 ≤ (entryItems e).length := by
  cases h with
  | leaf hmask => simp [entryItems]
  | child hwf hkeys hshape hcnt => exact hcnt

theorem filterMap_length_le_slots (l : List (Option MapNode))
    (h : ∀ c, some c ∈ l → 1 ≤ (map_node_toList c).length) :
    (l.filterMap id).length ≤ (slots_toList l).length := by
  rw [slots_toList_eq]
  induction l with
  | nil => simp
  | cons a rest ih =>
    rw [List.filterMap_cons, List.flatMap_cons, List.length_append]
    have ih2 := ih (fun c hc => h c (by simp [hc]))
    cases a with
    | none => simpa [slotItems] using ih2
    | some c =>
      have h1 := h c (by simp)
      simp only [id, List.length_cons, slotItems]
      omega

theorem leafCount_array_ge {m cnt s : Nat} {arr : List (Option MapNode)}
    (hwf : NodeWF (.arrayN m cnt arr) s) : 16 ≤ leafCount (.arrayN m cnt arr) := by
  obtain ⟨hs, hmul, hlen, hcount, hge, hwfs, hkeyss, hshapes⟩ := NodeWF_array_parts hwf
  have hslots : ∀ c, some c ∈ arr → 1 ≤ (map_node_toList c).length := by
    intro c hc
    obtain ⟨j, hj⟩ := List.get?_of_mem hc
    exact (hshapes j c hj).2
  have hle := filterMap_length_le_slots arr hslots
  rw [leafCount, map_node_toList_arrayN]
  omega

theorem leafCount_collision_ge {m ch s : Nat} {arr : List (Key × Val)}
    (hwf : NodeWF (.collisionN m ch arr) s) :
    2 ≤ leafCount (.collisionN m ch arr) := by
  obtain ⟨hlen, hhash⟩ := NodeWF_collision_parts hwf
  rw [leafCount, map_node_toList]
  exact hlen

theorem leafCount_ne_one_aux : ∀ (sz : Nat) (n : MapNode) (s : Nat), nsize n ≤ sz →
    NodeWF n s → bitmapChildShape n → leafCount n ≠ 1 := by
  intro sz
  induction sz with
  | zero =>
    intro n s hsz
    exfalso
    cases n <;> simp [nsize] at hsz
  | succ sz ih =>
    intro n s hsz hwf hshape h1
    cases n with
    | collisionN m ch arr =>
      have := leafCount_collision_ge hwf
      omega
    | arrayN m cnt arr =>
      have := leafCount_array_ge hwf
      omega
    | bitmapN m bmp arr =>
      rcases arr with _ | ⟨e, rest⟩
      · rw [leafCount, map_node_toList_bitmapN] at h1
        simp [entries_toList] at h1
      · rcases rest with _ | ⟨e2, rest2⟩
        · cases e with
          | inl p =>
            exact hshape.2 p.1 p.2 rfl
          | inr c =>
            obtain ⟨j, hbj, hbi, hea, hewf⟩ :=
              NodeWF_entry_of_get? hwf (show [Sum.inr c].get? 0 = some (.inr c) from rfl)
            cases hewf with
            | child hwfc hkeysc hshapec hcntc =>
              have hsz2 : nsize c ≤ sz := by
                have := nsize_lt_of_entry_mem
                  (show (Sum.inr c : BEntry) ∈ [Sum.inr c] from by simp)
                rw [nsize] at hsz
                omega
              apply ih c (s + 5) hsz2 hwfc hshapec
              rw [leafCount, map_node_toList_bitmapN, entries_toList_eq] at h1
              simp only [List.flatMap_cons, List.flatMap_nil, List.append_nil,
                entryItems] at h1
              rw [leafCount]
              exact h1
        · obtain ⟨j1, hbj1, hbi1, hea1, hewf1⟩ :=
            NodeWF_entry_of_get? hwf
              (show (e :: e2 :: rest2).get? 0 = some e from rfl)
          obtain ⟨j2, hbj2, hbi2, hea2, hewf2⟩ :=
            NodeWF_entry_of_get? hwf
              (show (e :: e2 :: rest2).get? 1 = some e2 from rfl)
          have hp1 := entryItems_pos hewf1
          have hp2 := entryItems_pos hewf2
          rw [leafCount, map_node_toList_bitmapN, entries_toList_eq] at h1
          simp only [List.flatMap_cons, List.length_append] at h1
          omega

theorem leafCount_ne_one_of_shape {n : MapNode} {s : Nat} (hwf : NodeWF n s)
    (hshape : bitmapChildShape n) : leafCount n ≠ 1 :=
  leafCount_ne_one_aux (nsize n) n s (le_refl _) hwf hshape

theorem arrayChildShape_of_leafCount {r : MapNode} (hcnt : 1 ≤ leafCount r) :
    arrayChildShape r := by
  cases r with
  | bitmapN m bmp arr =>
    intro hc
    subst hc
    rw [leafCount, map_node_toList_bitmapN] at hcnt
    simp [entries_toList] at hcnt
  | arrayN m cnt arr => exact trivial
  | collisionN m ch arr => exact trivial

theorem bitmapChildShape_of_not_single {r : MapNode} (hcnt : 1 ≤ leafCount r)
    (hns : ∀ mb bb p, r ≠ .bitmapN mb bb [.inl p]) : bitmapChildShape r := by
  cases r with
  | bitmapN m bmp arr =>
    refine ⟨?_, ?_⟩
    · intro hc
      subst hc
      rw [leafCount, map_node_toList_bitmapN] at hcnt
      simp [entries_toList] at hcnt
    · intro k v hc
      exact hns m bmp (k, v) (by rw [hc])
  | arrayN m cnt arr => exact trivial
  | collisionN m ch arr => exact trivial

/-! ## The without specification -/

/-- What `map_node_without` guarantees on a well-formed subtree:
`W_NOT_FOUND` means the key is absent; `W_EMPTY` means the subtree held
exactly the one binding being deleted; `W_NEWNODE r` returns a subtree
with the key's binding removed — well-formed at this shift (except for the
single-leaf collision collapse, which the caller inlines), holding one
fewer binding, no new keys, and at least one binding. -/
def WithoutSpec (node : MapNode) (shift hash : Nat) (key : Key) (mutid : Nat) : Prop :=
  match map_node_without node shift hash key mutid with
  | .W_NOT_FOUND => map_node_find node shift hash key = none
  | .W_EMPTY => leafCount node = 1 ∧ (map_node_find node shift hash key).isSome = true
  | .W_NEWNODE r =>
      ((shift ≤ 30 ∨ ∀ mb bb p, r ≠ .bitmapN mb bb [.inl p]) → NodeWF r shift) ∧
      (∀ k ∈ nodeKeys r, k ∈ nodeKeys node) ∧
      leafCount r + 1 = leafCount node ∧
      (map_node_find node shift hash key).isSome = true ∧
      1 ≤ leafCount r

/-! ## Branch values of map_node_without -/

theorem wo_bitmap_unset {b_mutid b_bitmap shift hash : Nat} {b_array : List BEntry}
    {key : Key} {mutid : Nat}
    (hbit : b_bitmap &&& map_bitpos hash shift = 0) :
    map_node_without (.bitmapN b_mutid b_bitmap b_array) shift hash key mutid
      = .W_NOT_FOUND := by
  rw [map_node_without]
  simp [hbit]

theorem wo_bitmap_child_notfound {b_mutid b_bitmap shift hash : Nat}
    {b_array : List BEntry} {key : Key} {mutid : Nat} {von : MapNode}
    (hbit : ¬ b_bitmap &&& map_bitpos hash shift = 0)
    (hget : b_array.get? (map_bitindex b_bitmap (map_bitpos hash shift))
      = some (.inr von))
    (hrec : map_node_without von (shift + 5) hash key mutid = .W_NOT_FOUND) :
    map_node_without (.bitmapN b_mutid b_bitmap b_array) shift hash key mutid
      = .W_NOT_FOUND := by
  rw [map_node_without]
  simp only []
  rw [if_neg hbit]
  split
  · rfl
  · rename_i von0 heq
    rw [hget] at heq
    simp only [Option.some.injEq, Sum.inr.injEq] at heq
    subst heq
    rw [hrec]
  · rename_i k0 v0 heq
    rw [hget] at heq
    simp at heq

theorem wo_bitmap_child_single {b_mutid b_bitmap shift hash : Nat}
    {b_array : List BEntry} {key : Key} {mutid : Nat} {von : MapNode}
    {ms bs : Nat} {k : Key} {v : Val}
    (hbit : ¬ b_bitmap &&& map_bitpos hash shift = 0)
    (hget : b_array.get? (map_bitindex b_bitmap (map_bitpos hash shift))
      = some (.inr von))
    (hrec : map_node_without von (shift + 5) hash key mutid
      = .W_NEWNODE (.bitmapN ms bs [.inl (k, v)])) :
    map_node_without (.bitmapN b_mutid b_bitmap b_array) shift hash key mutid
      = .W_NEWNODE (.bitmapN mutid b_bitmap
        (b_array.set (map_bitindex b_bitmap (map_bitpos hash shift)) (.inl (k, v)))) := by
  rw [map_node_without]
  simp only []
  rw [if_neg hbit]
  split
  · rename_i heq
    rw [hget] at heq
    exact Option.noConfusion heq
  · rename_i von0 heq
    rw [hget] at heq
    simp only [Option.some.injEq, Sum.inr.injEq] at heq
    subst heq
    rw [hrec]
  · rename_i k0 v0 heq
    rw [hget] at heq
    simp at heq

theorem wo_bitmap_child_other {b_mutid b_bitmap shift hash : Nat}
    {b_array : List BEntry} {key : Key} {mutid : Nat} {von sub : MapNode}
    (hbit : ¬ b_bitmap &&& map_bitpos hash shift = 0)
    (hget : b_array.get? (map_bitindex b_bitmap (map_bitpos hash shift))
      = some (.inr von))
    (hrec : map_node_without von (shift + 5) hash key mutid = .W_NEWNODE sub)
    (hns : ∀ mb bb p, sub ≠ .bitmapN mb bb [.inl p]) :
    map_node_without (.bitmapN b_mutid b_bitmap b_array) shift hash key mutid
      = .W_NEWNODE (.bitmapN mutid b_bitmap
        (b_array.set (map_bitindex b_bitmap (map_bitpos hash shift)) (.inr sub))) := by
  rw [map_node_without]
  simp only []
  rw [if_neg hbit]
  split
  · rename_i heq
    rw [hget] at heq
    exact Option.noConfusion heq
  · rename_i von0 heq
    rw [hget] at heq
    simp only [Option.some.injEq, Sum.inr.injEq] at heq
    subst heq
    rw [hrec]
    dsimp only
    split
    · rename_i mb0 bb0 k0 v0
      exact absurd rfl (hns mb0 bb0 (k0, v0))
    · rfl
  · rename_i k0 v0 heq
    rw [hget] at heq
    simp at heq

theorem wo_bitmap_leaf_found_one {b_mutid b_bitmap shift hash : Nat}
    {b_array : List BEntry} {key key' : Key} {val' : Val} {mutid : Nat}
    (hbit : ¬ b_bitmap &&& map_bitpos hash shift = 0)
    (hget : b_array.get? (map_bitindex b_bitmap (map_bitpos hash shift))
      = some (.inl (key', val')))
    (hk : key' = key) (hlen1 : b_array.length = 1) :
    map_node_without (.bitmapN b_mutid b_bitmap b_array) shift hash key mutid
      = .W_EMPTY := by
  rw [map_node_without]
  simp only []
  rw [if_neg hbit]
  split
  · rename_i heq
    rw [hget] at heq
    exact Option.noConfusion heq
  · rename_i von0 heq
    rw [hget] at heq
    simp at heq
  · rename_i k0 v0 heq
    rw [hget] at heq
    simp only [Option.some.injEq, Sum.inl.injEq, Prod.mk.injEq] at heq
    obtain ⟨rfl, rfl⟩ := heq
    rw [if_pos hk, if_pos hlen1]

theorem wo_bitmap_leaf_found_many {b_mutid b_bitmap shift hash : Nat}
    {b_array : List BEntry} {key key' : Key} {val' : Val} {mutid : Nat}
    (hbit : ¬ b_bitmap &&& map_bitpos hash shift = 0)
    (hget : b_array.get? (map_bitindex b_bitmap (map_bitpos hash shift))
      = some (.inl (key', val')))
    (hk : key' = key) (hlen1 : ¬ b_array.length = 1) :
    map_node_without (.bitmapN b_mutid b_bitmap b_array) shift hash key mutid
      = .W_NEWNODE (.bitmapN mutid (b_bitmap ^^^ map_bitpos hash shift)
        (b_array.take (map_bitindex b_bitmap (map_bitpos hash shift))
          ++ b_array.drop (map_bitindex b_bitmap (map_bitpos hash shift) + 1))) := by
  rw [map_node_without]
  simp only []
  rw [if_neg hbit]
  split
  · rename_i heq
    rw [hget] at heq
    exact Option.noConfusion heq
  · rename_i von0 heq
    rw [hget] at heq
    simp at heq
  · rename_i k0 v0 heq
    rw [hget] at heq
    simp only [Option.some.injEq, Sum.inl.injEq, Prod.mk.injEq] at heq
    obtain ⟨rfl, rfl⟩ := heq
    rw [if_pos hk, if_neg hlen1]

theorem wo_bitmap_leaf_other {b_mutid b_bitmap shift hash : Nat}
    {b_array : List BEntry} {key key' : Key} {val' : Val} {mutid : Nat}
    (hbit : ¬ b_bitmap &&& map_bitpos hash shift = 0)
    (hget : b_array.get? (map_bitindex b_bitmap (map_bitpos hash shift))
      = some (.inl (key', val')))
    (hk : ¬ key' = key) :
    map_node_without (.bitmapN b_mutid b_bitmap b_array) shift hash key mutid
      = .W_NOT_FOUND := by
  rw [map_node_without]
  simp only []
  rw [if_neg hbit]
  split
  · rfl
  · rename_i von0 heq
    rw [hget] at heq
    simp at heq
  · rename_i k0 v0 heq
    rw [hget] at heq
    simp only [Option.some.injEq, Sum.inl.injEq, Prod.mk.injEq] at heq
    obtain ⟨rfl, rfl⟩ := heq
    rw [if_neg hk]

theorem wo_array_none {a_mutid a_count shift hash : Nat} {a_array : List (Option MapNode)}
    {key : Key} {mutid : Nat}
    (hget : a_array.get? (map_mask hash shift) = none) :
    map_node_without (.arrayN a_mutid a_count a_array) shift hash key mutid
      = .W_NOT_FOUND := by
  rw [map_node_without]
  simp only []
  split
  · rfl
  · rfl
  · rename_i child heq
    rw [hget] at heq <;> simp at heq

theorem wo_array_empty_slot {a_mutid a_count shift hash : Nat}
    {a_array : List (Option MapNode)} {key : Key} {mutid : Nat}
    (hget : a_array.get? (map_mask hash shift) = some none) :
    map_node_without (.arrayN a_mutid a_count a_array) shift hash key mutid
      = .W_NOT_FOUND := by
  rw [map_node_without]
  simp only []
  split
  · rfl
  · rfl
  · rename_i child heq
    rw [hget] at heq <;> simp at heq

theorem wo_array_child_notfound {a_mutid a_count shift hash : Nat}
    {a_array : List (Option MapNode)} {key : Key} {mutid : Nat} {child : MapNode}
    (hget : a_array.get? (map_mask hash shift) = some (some child))
    (hrec : map_node_without child (shift + 5) hash key mutid = .W_NOT_FOUND) :
    map_node_without (.arrayN a_mutid a_count a_array) shift hash key mutid
      = .W_NOT_FOUND := by
  rw [map_node_without]
  simp only []
  split
  · rfl
  · rfl
  · rename_i child0 heq
    rw [hget] at heq
    obtain rfl : child = child0 := by simpa using heq
    rw [hrec]

theorem wo_array_child_newnode {a_mutid a_count shift hash : Nat}
    {a_array : List (Option MapNode)} {key : Key} {mutid : Nat} {child sub : MapNode}
    (hget : a_array.get? (map_mask hash shift) = some (some child))
    (hrec : map_node_without child (shift + 5) hash key mutid = .W_NEWNODE sub) :
    map_node_without (.arrayN a_mutid a_count a_array) shift hash key mutid
      = .W_NEWNODE (.arrayN mutid a_count
        (a_array.set (map_mask hash shift) (some sub))) := by
  rw [map_node_without]
  simp only []
  split
  · rename_i heq
    rw [hget] at heq <;> simp at heq
  · rename_i heq
    rw [hget] at heq <;> simp at heq
  · rename_i child0 heq
    rw [hget] at heq
    obtain rfl : child = child0 := by simpa using heq
    rw [hrec]

theorem wo_array_child_empty_keep {a_mutid a_count shift hash : Nat}
    {a_array : List (Option MapNode)} {key : Key} {mutid : Nat} {child : MapNode}
    (hget : a_array.get? (map_mask hash shift) = some (some child))
    (hrec : map_node_without child (shift + 5) hash key mutid = .W_EMPTY)
    (h16 : 16 ≤ a_count - 1) :
    map_node_without (.arrayN a_mutid a_count a_array) shift hash key mutid
      = .W_NEWNODE (.arrayN mutid (a_count - 1)
        (a_array.set (map_mask hash shift) none)) := by
  rw [map_node_without]
  simp only []
  split
  · rename_i heq
    rw [hget] at heq <;> simp at heq
  · rename_i heq
    rw [hget] at heq <;> simp at heq
  · rename_i child0 heq
    rw [hget] at heq
    obtain rfl : child = child0 := by simpa using heq
    rw [hrec]
    rw [if_neg (by omega), if_pos h16]

theorem wo_array_child_empty_demote {a_mutid a_count shift hash : Nat}
    {a_array : List (Option MapNode)} {key : Key} {mutid : Nat} {child : MapNode}
    (hget : a_array.get? (map_mask hash shift) = some (some child))
    (hrec : map_node_without child (shift + 5) hash key mutid = .W_EMPTY)
    (hpos : ¬ a_count - 1 = 0) (h16 : ¬ 16 ≤ a_count - 1) :
    map_node_without (.arrayN a_mutid a_count a_array) shift hash key mutid
      = .W_NEWNODE (.bitmapN mutid
        ((array_demote_kept (map_mask hash shift) a_array).foldl
          (fun b p => b ||| (1 <<< p.1)) 0)
        ((array_demote_kept (map_mask hash shift) a_array).map
          (fun p => array_demote_entry p.2))) := by
  rw [map_node_without]
  simp only []
  split
  · rename_i heq
    rw [hget] at heq <;> simp at heq
  · rename_i heq
    rw [hget] at heq <;> simp at heq
  · rename_i child0 heq
    rw [hget] at heq
    obtain rfl : child = child0 := by simpa using heq
    rw [hrec]
    rw [if_neg hpos, if_neg h16]

theorem wo_collision_hash_ne {c_mutid c_hash shift hash : Nat}
    {c_array : List (Key × Val)} {key : Key} {mutid : Nat}
    (hne : hash ≠ c_hash) :
    map_node_without (.collisionN c_mutid c_hash c_array) shift hash key mutid
      = .W_NOT_FOUND := by
  rw [map_node_without]
  simp [hne]

theorem wo_collision_notfound {c_mutid c_hash shift hash : Nat}
    {c_array : List (Key × Val)} {key : Key} {mutid : Nat}
    (hh : hash = c_hash)
    (hfi : map_node_collision_find_index key c_array = none) :
    map_node_without (.collisionN c_mutid c_hash c_array) shift hash key mutid
      = .W_NOT_FOUND := by
  rw [map_node_without]
  simp [hh, hfi]

theorem wo_collision_collapse {c_mutid c_hash shift hash : Nat}
    {c_array : List (Key × Val)} {key : Key} {mutid : Nat} {i : Nat} {k : Key} {v : Val}
    (hh : hash = c_hash)
    (hfi : map_node_collision_find_index key c_array = some i)
    (hlen2 : c_array.length = 2)
    (hother : (if i = 0 then c_array.get? 1 else c_array.get? 0) = some (k, v)) :
    map_node_without (.collisionN c_mutid c_hash c_array) shift hash key mutid
      = .W_NEWNODE (.bitmapN mutid (map_bitpos hash shift) [.inl (k, v)]) := by
  rw [map_node_without]
  simp only [hh, ne_eq, not_true_eq_false, if_false, ite_false, hfi]
  rw [if_neg (by omega), if_pos (by omega), hother]

theorem wo_collision_remove {c_mutid c_hash shift hash : Nat}
    {c_array : List (Key × Val)} {key : Key} {mutid : Nat} {i : Nat}
    (hh : hash = c_hash)
    (hfi : map_node_collision_find_index key c_array = some i)
    (hlen3 : 3 ≤ c_array.length) :
    map_node_without (.collisionN c_mutid c_hash c_array) shift hash key mutid
      = .W_NEWNODE (.collisionN mutid c_hash
        (c_array.take i ++ c_array.drop (i + 1))) := by
  rw [map_node_without]
  simp only [hh, ne_eq, not_true_eq_false, if_false, ite_false, hfi]
  rw [if_neg (by omega), if_neg (by omega)]

/-! ## The Array→Bitmap demotion -/

theorem array_demote_slot_eq_some {idx : Nat} {arr : List (Option MapNode)} {i : Nat}
    {c : MapNode} :
    array_demote_slot idx arr i = some c ↔ i ≠ idx ∧ arr.get? i = some (some c) := by
  rw [array_demote_slot]
  by_cases hi : i = idx
  · simp [hi]
  · rw [if_neg hi]
    constructor
    · intro h
      refine ⟨hi, ?_⟩
      rcases hg : arr.get? i with _ | x
      · rw [hg] at h
        cases h
      · rcases x with _ | c0
        · rw [hg] at h
          cases h
        · rw [hg] at h
          cases h
          rfl
    · intro ⟨_, hg⟩
      rw [hg]

theorem array_demote_kept_mem {idx : Nat} {arr : List (Option MapNode)}
    {p : Nat × MapNode} :
    p ∈ array_demote_kept idx arr ↔
      p.1 < 32 ∧ p.1 ≠ idx ∧ arr.get? p.1 = some (some p.2) := by
  rw [array_demote_kept, List.mem_filterMap]
  constructor
  · intro ⟨i, hi, hmap⟩
    rcases hs : array_demote_slot idx arr i with _ | c
    · rw [hs] at hmap
      cases hmap
    · rw [hs] at hmap
      simp only [Option.map_some', Option.some.injEq] at hmap
      obtain rfl : (i, c) = p := hmap
      obtain ⟨hne, hget⟩ := array_demote_slot_eq_some.mp hs
      exact ⟨by simpa using hi, hne, hget⟩
  · intro ⟨h32, hne, hget⟩
    refine ⟨p.1, by simpa using h32, ?_⟩
    rw [array_demote_slot_eq_some.mpr ⟨hne, hget⟩]
    rfl

theorem array_demote_kept_pairwise (idx : Nat) (arr : List (Option MapNode)) :
    (array_demote_kept idx arr).Pairwise (fun a b => a.1 < b.1) := by
  rw [array_demote_kept, List.pairwise_filterMap]
  apply List.Pairwise.imp ?_ (List.pairwise_lt_range 32)
  intro i j hij x hx y hy
  rcases hs : array_demote_slot idx arr i with _ | c
  · rw [hs] at hx
    cases hx
  · rw [hs] at hx
    cases hx
    rcases ht : array_demote_slot idx arr j with _ | d
    · rw [ht] at hy
      cases hy
    · rw [ht] at hy
      cases hy
      exact hij

theorem array_demote_entry_items (c : MapNode) :
    entryItems (array_demote_entry c) = map_node_toList c := by
  cases c with
  | bitmapN m bmp arr =>
    rcases arr with _ | ⟨e, rest⟩
    · rfl
    · rcases rest with _ | ⟨e2, rest2⟩
      · cases e with
        | inl p =>
          rcases p with ⟨k, v⟩
          rw [array_demote_entry]
          simp [entryItems, entries_toList]
        | inr c2 => rfl
      · cases e with
        | inl p =>
          rcases p with ⟨k, v⟩
          rfl
        | inr c2 => rfl
  | arrayN m cnt arr => rfl
  | collisionN m ch arr => rfl

theorem popcount_xor_two_pow {n j : Nat} (h : n.testBit j = true) :
    popcount (n ^^^ 2 ^ j) + 1 = popcount n := by
  have hx : (n ^^^ 2 ^ j).testBit j = false := by
    rw [Nat.testBit_xor, h, Nat.testBit_two_pow_self]
    rfl
  have hor : (n ^^^ 2 ^ j) ||| 2 ^ j = n := by
    apply Nat.eq_of_testBit_eq
    intro i
    rcases eq_or_ne i j with rfl | hij
    · simp [Nat.testBit_or, Nat.testBit_xor, h]
    · simp [Nat.testBit_or, Nat.testBit_xor, Nat.testBit_two_pow_of_ne hij.symm]
  conv_rhs => rw [← hor]
  rw [popcount_lor_two_pow hx]

theorem length_le_length_flatMap {α β : Type _} (l : List α) (g : α → List β)
    (h : ∀ a ∈ l, 1 ≤ (g a).length) : l.length ≤ (l.flatMap g).length := by
  induction l with
  | nil => simp
  | cons a rest ih =>
    rw [List.flatMap_cons, List.length_append, List.length_cons]
    have h1 := h a (by simp)
    have h2 := ih (fun b hb => h b (by simp [hb]))
    omega

theorem leafCount_bitmap_ge_entries {m bmp s : Nat} {arr : List BEntry}
    (hwf : NodeWF (.bitmapN m bmp arr) s) :
    arr.length ≤ leafCount (.bitmapN m bmp arr) := by
  rw [leafCount, map_node_toList_bitmapN, entries_toList_eq]
  apply length_le_length_flatMap
  intro e he
  obtain ⟨i, hi⟩ := List.get?_of_mem he
  obtain ⟨j, _, _, _, hewf⟩ := NodeWF_entry_of_get? hwf hi
  exact entryItems_pos hewf

theorem leafCount_bitmap_ge_child {m bmp : Nat} {arr : List BEntry} {idx : Nat}
    {von : MapNode} (hget : arr.get? idx = some (.inr von)) :
    leafCount von ≤ leafCount (.bitmapN m bmp arr) := by
  have hsplit := (entries_toList_set (Sum.inr von : BEntry) hget).2
  rw [leafCount, leafCount, map_node_toList_bitmapN, hsplit]
  simp only [List.length_append, entryItems]
  omega

theorem array_demote_entry_eq_inr {c : MapNode}
    (hns : ∀ mb bb (k : Key) (v : Val), c ≠ .bitmapN mb bb [.inl (k, v)]) :
    array_demote_entry c = .inr c := by
  cases c with
  | bitmapN m bmp arr =>
    rcases arr with _ | ⟨e, rest⟩
    · rfl
    · rcases rest with _ | ⟨e2, rest2⟩
      · cases e with
        | inl p =>
          rcases p with ⟨k, v⟩
          exact absurd rfl (hns m bmp k v)
        | inr c2 => rfl
      · cases e with
        | inl p =>
          rcases p with ⟨k, v⟩
          rfl
        | inr c2 => rfl
  | arrayN m cnt arr => rfl
  | collisionN m ch arr => rfl

theorem array_demote_entry_wf {s j0 : Nat} {c : MapNode}
    (hwfc : NodeWF c (s + 5))
    (hkeysc : ∀ k ∈ nodeKeys c, map_mask (hash32 k) s = j0)
    (hcnt : 1 ≤ leafCount c) :
    BEntryWF s j0 (array_demote_entry c) := by
  by_cases hsingle : ∃ mb bb k v, c = MapNode.bitmapN mb bb [Sum.inl (k, v)]
  · obtain ⟨mb, bb, k, v, rfl⟩ := hsingle
    have hd : array_demote_entry (MapNode.bitmapN mb bb [Sum.inl (k, v)])
        = Sum.inl (k, v) := rfl
    rw [hd]
    refine BEntryWF.leaf (hkeysc k ?_)
    rw [nodeKeys]
    simp [entries_toList]
  · push_neg at hsingle
    rw [array_demote_entry_eq_inr hsingle]
    refine BEntryWF.child hwfc hkeysc ?_ hcnt
    exact bitmapChildShape_of_not_single hcnt
      (fun mb bb p hc => hsingle mb bb p.1 p.2 (by rw [hc]))

theorem sum_map_filterMap_range {α : Type _} (g : Nat → Option α) (w : α → Nat)
    (m : Nat) :
    (((List.range m).filterMap (fun i => (g i).map (fun x => (i, x)))).map
      (fun p => w p.2)).sum
      = ((List.range m).map (fun i => ((g i).map w).getD 0)).sum := by
  induction m with
  | zero => rfl
  | succ m ih =>
    rw [List.range_succ, List.filterMap_append, List.map_append, List.sum_append,
      List.map_append, List.sum_append, ih]
    cases hg : g m <;> simp [hg]

/-! ## Per-case without specification lemmas: Bitmap nodes -/

/-- Case: the hash window bit is not set — the key is absent. -/
theorem wo_spec_bitmap_unset {m b_bitmap shift hash : Nat} {b_array : List BEntry}
    {key : Key} {mutid : Nat}
    (hbit : b_bitmap &&& map_bitpos hash shift = 0) :
    WithoutSpec (.bitmapN m b_bitmap b_array) shift hash key mutid := by
  unfold WithoutSpec
  rw [wo_bitmap_unset hbit]
  rw [map_node_find]
  simp only []
  rw [if_pos hbit]

/-- Case: occupied bit, get? out of range — impossible under
well-formedness. -/
theorem wo_spec_bitmap_oob {m b_bitmap shift hash : Nat} {b_array : List BEntry}
    {key : Key} {mutid : Nat}
    (hbit : ¬ b_bitmap &&& map_bitpos hash shift = 0)
    (hget : b_array.get? (map_bitindex b_bitmap (map_bitpos hash shift)) = none)
    (hwf : NodeWF (.bitmapN m b_bitmap b_array) shift) :
    WithoutSpec (.bitmapN m b_bitmap b_array) shift hash key mutid := by
  exfalso
  have hb : b_bitmap.testBit (map_mask hash shift) = true := by
    rw [← and_two_pow_ne_zero_iff, ← map_bitpos_eq]
    exact hbit
  obtain ⟨hs, hmul, hlen, hentries⟩ := NodeWF_bitmap_parts hwf
  have hlt := bitindex_lt_of_testBit hlen hb
  rw [map_bitpos_eq] at hget
  rw [List.get?_eq_getElem?, List.getElem?_eq_none_iff] at hget
  omega

/-- Case: the recursion on a bitmap child reports `W_EMPTY` — impossible:
a bitmap child of a bitmap node holds at least two bindings. -/
theorem wo_spec_bitmap_child_empty {m b_bitmap shift hash : Nat}
    {b_array : List BEntry} {key : Key} {mutid : Nat} {von : MapNode}
    (hbit : ¬ b_bitmap &&& map_bitpos hash shift = 0)
    (hget : b_array.get? (map_bitindex b_bitmap (map_bitpos hash shift))
      = some (.inr von))
    (hrec : map_node_without von (shift + 5) hash key mutid = .W_EMPTY)
    (ih : NodeWF von (shift + 5) → (shift + 5) % 5 = 0 → shift + 5 ≤ 35 →
      hash = hash32 key → KeysBelowCongr von (shift + 5) hash →
      WithoutSpec von (shift + 5) hash key mutid)
    (hwf : NodeWF (.bitmapN m b_bitmap b_array) shift)
    (hh : hash = hash32 key)
    (hcong : KeysBelowCongr (.bitmapN m b_bitmap b_array) shift hash) :
    WithoutSpec (.bitmapN m b_bitmap b_array) shift hash key mutid := by
  exfalso
  obtain ⟨hb, hwfc, hkeysc, hshapec, hcntc, hcongc, hmemc, hfindb⟩ :=
    bitmap_child_facts hwf hcong hbit hget
  obtain ⟨hs, hmul0, hlen, hentries⟩ := NodeWF_bitmap_parts hwf
  have hspec := ih hwfc (by omega) (by omega) hh hcongc
  unfold WithoutSpec at hspec
  rw [hrec] at hspec
  exact leafCount_ne_one_of_shape hwfc hshapec (And.left hspec)

/-- Case: the recursion on a bitmap child returns a single-leaf bitmap —
the parent inlines the leaf in place of the child pointer. -/
theorem wo_spec_bitmap_child_single {m b_bitmap shift hash : Nat}
    {b_array : List BEntry} {key : Key} {mutid : Nat} {von : MapNode}
    {ms bs : Nat} {k : Key} {v : Val}
    (hbit : ¬ b_bitmap &&& map_bitpos hash shift = 0)
    (hget : b_array.get? (map_bitindex b_bitmap (map_bitpos hash shift))
      = some (.inr von))
    (hrec : map_node_without von (shift + 5) hash key mutid
      = .W_NEWNODE (.bitmapN ms bs [.inl (k, v)]))
    (ih : NodeWF von (shift + 5) → (shift + 5) % 5 = 0 → shift + 5 ≤ 35 →
      hash = hash32 key → KeysBelowCongr von (shift + 5) hash →
      WithoutSpec von (shift + 5) hash key mutid)
    (hwf : NodeWF (.bitmapN m b_bitmap b_array) shift)
    (hh : hash = hash32 key)
    (hcong : KeysBelowCongr (.bitmapN m b_bitmap b_array) shift hash) :
    WithoutSpec (.bitmapN m b_bitmap b_array) shift hash key mutid := by
  obtain ⟨hb, hwfc, hkeysc, hshapec, hcntc, hcongc, hmemc, hfindb⟩ :=
    bitmap_child_facts hwf hcong hbit hget
  obtain ⟨hs, hmul0, hlen, hentries⟩ := NodeWF_bitmap_parts hwf
  have hspec := ih hwfc (by omega) (by omega) hh hcongc
  unfold WithoutSpec at hspec
  rw [hrec] at hspec
  obtain ⟨ewf, ekeys, ecnt, efind, epos⟩ := hspec
  have hcnt_sub : leafCount (MapNode.bitmapN ms bs [Sum.inl (k, v)]) = 1 := by
    rw [leafCount, map_node_toList_bitmapN]
    simp [entries_toList]
  have hkmem : k ∈ nodeKeys von := by
    apply ekeys
    rw [nodeKeys, map_node_toList_bitmapN]
    simp [entries_toList]
  have hmask : map_mask (hash32 k) shift = map_mask hash shift := hkeysc k hkmem
  have hget2 : b_array.get? (map_bitindex b_bitmap (2 ^ map_mask hash shift))
      = some (.inr von) := by
    rw [← map_bitpos_eq]
    exact hget
  have hlc := @leafCount_set m mutid b_bitmap b_bitmap _ _ _
    (Sum.inl (k, v) : BEntry) hget2
  simp only [entryItems, List.length_cons, List.length_nil] at hlc
  have hitems : (map_node_toList von).length = leafCount von := rfl
  rw [hitems] at hlc
  have hge := @leafCount_bitmap_ge_child m b_bitmap b_array _ von hget2
  unfold WithoutSpec
  rw [wo_bitmap_child_single hbit hget hrec, map_bitpos_eq]
  refine ⟨fun _ => ?_, ?_, ?_, ?_, ?_⟩
  · exact NodeWF_bitmap_set hwf hb (BEntryWF.leaf hmask)
  · intro k0 hk0
    rcases @nodeKeys_set_subset m mutid b_bitmap b_bitmap _ _ _ _ hget2 k0 hk0
      with h0 | h0
    · obtain ⟨v0, hv0⟩ := h0
      simp only [entryItems, List.mem_singleton, Prod.mk.injEq] at hv0
      exact hmemc k0 (hv0.1 ▸ hkmem)
    · exact h0
  · omega
  · rw [hfindb key]
    exact efind
  · omega

/-- Case: the recursion on a bitmap child returns a replacement node that
is not a single-leaf bitmap — the parent stores it in place. -/
theorem wo_spec_bitmap_child_other {m b_bitmap shift hash : Nat}
    {b_array : List BEntry} {key : Key} {mutid : Nat} {von sub : MapNode}
    (hbit : ¬ b_bitmap &&& map_bitpos hash shift = 0)
    (hget : b_array.get? (map_bitindex b_bitmap (map_bitpos hash shift))
      = some (.inr von))
    (hns : ∀ mb bb (k : Key) (v : Val), sub = .bitmapN mb bb [.inl (k, v)] → False)
    (hrec : map_node_without von (shift + 5) hash key mutid = .W_NEWNODE sub)
    (ih : NodeWF von (shift + 5) → (shift + 5) % 5 = 0 → shift + 5 ≤ 35 →
      hash = hash32 key → KeysBelowCongr von (shift + 5) hash →
      WithoutSpec von (shift + 5) hash key mutid)
    (hwf : NodeWF (.bitmapN m b_bitmap b_array) shift)
    (hh : hash = hash32 key)
    (hcong : KeysBelowCongr (.bitmapN m b_bitmap b_array) shift hash) :
    WithoutSpec (.bitmapN m b_bitmap b_array) shift hash key mutid := by
  obtain ⟨hb, hwfc, hkeysc, hshapec, hcntc, hcongc, hmemc, hfindb⟩ :=
    bitmap_child_facts hwf hcong hbit hget
  obtain ⟨hs, hmul0, hlen, hentries⟩ := NodeWF_bitmap_parts hwf
  have hspec := ih hwfc (by omega) (by omega) hh hcongc
  unfold WithoutSpec at hspec
  rw [hrec] at hspec
  obtain ⟨ewf, ekeys, ecnt, efind, epos⟩ := hspec
  have hns2 : ∀ mb bb p, sub ≠ MapNode.bitmapN mb bb [Sum.inl p] :=
    fun mb bb p hc => hns mb bb p.1 p.2 (by rw [hc])
  have hwfsub : NodeWF sub (shift + 5) := ewf (Or.inr hns2)
  have hget2 : b_array.get? (map_bitindex b_bitmap (2 ^ map_mask hash shift))
      = some (.inr von) := by
    rw [← map_bitpos_eq]
    exact hget
  have hlc := @leafCount_set m mutid b_bitmap b_bitmap _ _ _
    (Sum.inr sub : BEntry) hget2
  simp only [entryItems] at hlc
  have hit1 : (map_node_toList von).length = leafCount von := rfl
  have hit2 : (map_node_toList sub).length = leafCount sub := rfl
  rw [hit1, hit2] at hlc
  have hge := @leafCount_bitmap_ge_child m b_bitmap b_array _ von hget2
  unfold WithoutSpec
  rw [wo_bitmap_child_other hbit hget hrec hns2, map_bitpos_eq]
  refine ⟨fun _ => ?_, ?_, ?_, ?_, ?_⟩
  · refine NodeWF_bitmap_set hwf hb (BEntryWF.child hwfsub ?_ ?_ epos)
    · intro k0 hk0
      exact hkeysc k0 (ekeys k0 hk0)
    · exact bitmapChildShape_of_not_single epos hns2
  · intro k0 hk0
    rcases @nodeKeys_set_subset m mutid b_bitmap b_bitmap _ _ _ _ hget2 k0 hk0
      with h0 | h0
    · obtain ⟨v0, hv0⟩ := h0
      simp only [entryItems] at hv0
      exact hmemc k0 (ekeys k0 (mem_nodeKeys_iff.mpr ⟨v0, hv0⟩))
    · exact h0
  · omega
  · rw [hfindb key]
    exact efind
  · omega

/-- Case: the recursion on a bitmap child reports the key absent. -/
theorem wo_spec_bitmap_child_notfound {m b_bitmap shift hash : Nat}
    {b_array : List BEntry} {key : Key} {mutid : Nat} {von : MapNode}
    (hbit : ¬ b_bitmap &&& map_bitpos hash shift = 0)
    (hget : b_array.get? (map_bitindex b_bitmap (map_bitpos hash shift))
      = some (.inr von))
    (hrec : map_node_without von (shift + 5) hash key mutid = .W_NOT_FOUND)
    (ih : NodeWF von (shift + 5) → (shift + 5) % 5 = 0 → shift + 5 ≤ 35 →
      hash = hash32 key → KeysBelowCongr von (shift + 5) hash →
      WithoutSpec von (shift + 5) hash key mutid)
    (hwf : NodeWF (.bitmapN m b_bitmap b_array) shift)
    (hh : hash = hash32 key)
    (hcong : KeysBelowCongr (.bitmapN m b_bitmap b_array) shift hash) :
    WithoutSpec (.bitmapN m b_bitmap b_array) shift hash key mutid := by
  obtain ⟨hb, hwfc, hkeysc, hshapec, hcntc, hcongc, hmemc, hfindb⟩ :=
    bitmap_child_facts hwf hcong hbit hget
  obtain ⟨hs, hmul0, hlen, hentries⟩ := NodeWF_bitmap_parts hwf
  have hspec := ih hwfc (by omega) (by omega) hh hcongc
  unfold WithoutSpec at hspec
  rw [hrec] at hspec
  unfold WithoutSpec
  rw [wo_bitmap_child_notfound hbit hget hrec]
  rw [hfindb key]
  exact hspec

/-- Case: the bit holds the key's leaf and it is the only entry — the
whole node empties. -/
theorem wo_spec_bitmap_leaf_one {m b_bitmap shift hash : Nat}
    {b_array : List BEntry} {key' : Key} {val' : Val} {mutid : Nat}
    (hbit : ¬ b_bitmap &&& map_bitpos hash shift = 0)
    (hget : b_array.get? (map_bitindex b_bitmap (map_bitpos hash shift))
      = some (.inl (key', val')))
    (hlen1 : b_array.length = 1)
    (hwf : NodeWF (.bitmapN m b_bitmap b_array) shift) :
    WithoutSpec (.bitmapN m b_bitmap b_array) shift hash key' mutid := by
  obtain ⟨hb, hget2, hea, hmask, hmem, hfind1, hfind2⟩ := bitmap_leaf_facts hwf hbit hget
  unfold WithoutSpec
  rw [wo_bitmap_leaf_found_one hbit hget rfl hlen1]
  refine ⟨?_, ?_⟩
  · have hidx : map_bitindex b_bitmap (map_bitpos hash shift) < b_array.length :=
      (List.get?_eq_some.mp hget).1
    rcases b_array with _ | ⟨e, rest⟩
    · simp at hlen1
    · have hrest : rest = [] := by
        simp only [List.length_cons] at hlen1
        exact List.eq_nil_of_length_eq_zero (by omega)
      subst hrest
      have hidx0 : map_bitindex b_bitmap (map_bitpos hash shift) = 0 := by
        simp only [List.length_cons, List.length_nil] at hidx
        omega
      rw [hidx0] at hget
      simp only [List.get?_cons_zero, Option.some.injEq] at hget
      subst hget
      rw [leafCount, map_node_toList_bitmapN]
      simp [entries_toList]
  · rw [hfind1]
    rfl

/-- Case: the bit holds the key's leaf among several entries — the bit is
cleared and the entry removed. -/
theorem wo_spec_bitmap_leaf_many {m b_bitmap shift hash : Nat}
    {b_array : List BEntry} {key' : Key} {val' : Val} {mutid : Nat}
    (hbit : ¬ b_bitmap &&& map_bitpos hash shift = 0)
    (hget : b_array.get? (map_bitindex b_bitmap (map_bitpos hash shift))
      = some (.inl (key', val')))
    (hlen1 : ¬ b_array.length = 1)
    (hwf : NodeWF (.bitmapN m b_bitmap b_array) shift) :
    WithoutSpec (.bitmapN m b_bitmap b_array) shift hash key' mutid := by
  obtain ⟨hb, hget2, hea, hmask, hmem, hfind1, hfind2⟩ := bitmap_leaf_facts hwf hbit hget
  obtain ⟨hs, hmul0, hlen, hentries⟩ := NodeWF_bitmap_parts hwf
  have hrem := entryAtBit_remove hb hlen
  have hidx : map_bitindex b_bitmap (map_bitpos hash shift) < b_array.length :=
    (List.get?_eq_some.mp hget).1
  have hglen := leafCount_bitmap_ge_entries hwf
  have hlc : leafCount (.bitmapN m b_bitmap b_array)
      = (entries_toList (b_array.take (map_bitindex b_bitmap (2 ^ map_mask hash shift)))).length
        + 1
        + (entries_toList (b_array.drop
            (map_bitindex b_bitmap (2 ^ map_mask hash shift) + 1))).length := by
    rw [leafCount, map_node_toList_bitmapN,
      (entries_toList_set (Sum.inl (key', val') : BEntry) hget2).2]
    simp only [List.length_append, entryItems, List.length_cons, List.length_nil]
  unfold WithoutSpec
  rw [wo_bitmap_leaf_found_many hbit hget rfl hlen1, map_bitpos_eq]
  refine ⟨fun _ => ?_, ?_, ?_, ?_, ?_⟩
  · refine NodeWF.bitmap hs hmul0 ?_ ?_
    · rw [List.length_append, List.length_take, List.length_drop, hlen]
      have hpc := popcount_xor_two_pow hb
      have hbi : map_bitindex b_bitmap (2 ^ map_mask hash shift) < popcount b_bitmap := by
        rw [← hlen]
        rw [map_bitpos_eq] at hidx
        exact hidx
      omega
    · intro j e he
      rcases eq_or_ne j (map_mask hash shift) with rfl | hj
      · rw [hrem.2] at he
        cases he
      · rw [hrem.1 j hj] at he
        exact hentries j e he
  · intro k hk
    rw [mem_nodeKeys_iff] at hk
    obtain ⟨v0, hv0⟩ := hk
    rw [map_node_toList_bitmapN, entries_toList_remove hget2] at hv0
    rw [mem_nodeKeys_iff]
    refine ⟨v0, ?_⟩
    rw [map_node_toList_bitmapN,
      (entries_toList_set (Sum.inl (key', val') : BEntry) hget2).2]
    rcases List.mem_append.mp hv0 with h0 | h0
    · rw [List.mem_append, List.mem_append]
      exact Or.inl (Or.inl h0)
    · rw [List.mem_append]
      exact Or.inr h0
  · rw [hlc, leafCount, map_node_toList_bitmapN, entries_toList_remove hget2]
    simp only [List.length_append]
    omega
  · rw [hfind1]
    rfl
  · rw [leafCount, map_node_toList_bitmapN, entries_toList_remove hget2]
    have h2 : 2 ≤ b_array.length := by omega
    rw [List.length_append]
    have := hlc
    omega

/-- Case: the bit holds a leaf with another key — the key is absent. -/
theorem wo_spec_bitmap_leaf_other {m b_bitmap shift hash : Nat}
    {b_array : List BEntry} {key key' : Key} {val' : Val} {mutid : Nat}
    (hbit : ¬ b_bitmap &&& map_bitpos hash shift = 0)
    (hget : b_array.get? (map_bitindex b_bitmap (map_bitpos hash shift))
      = some (.inl (key', val')))
    (hk : ¬ key' = key)
    (hwf : NodeWF (.bitmapN m b_bitmap b_array) shift) :
    WithoutSpec (.bitmapN m b_bitmap b_array) shift hash key mutid := by
  obtain ⟨hb, hget2, hea, hmask, hmem, hfind1, hfind2⟩ := bitmap_leaf_facts hwf hbit hget
  unfold WithoutSpec
  rw [wo_bitmap_leaf_other hbit hget hk]
  exact hfind2 key (fun hc => hk hc.symm)

/-! ## Per-case without specification lemmas: Array nodes -/

/-- Clearing an occupied array slot lowers the occupancy count by one. -/
theorem filterMap_id_length_set_to_none {arr : List (Option MapNode)} {idx : Nat}
    {c : MapNode} (hget : arr.get? idx = some (some c)) :
    ((arr.set idx none).filterMap id).length + 1 = (arr.filterMap id).length := by
  have hidx : idx < arr.length := (List.get?_eq_some.mp hget).1
  have hold : arr[idx] = some c := by
    have := List.get?_eq_get hidx
    rw [hget] at this
    simpa using this.symm
  rw [List.set_eq_take_cons_drop _ hidx]
  conv_rhs => rw [← List.take_append_drop idx arr, List.drop_eq_getElem_cons hidx, hold]
  simp [List.filterMap_append]
  omega

/-- Case: array slot out of range — impossible under well-formedness. -/
theorem wo_spec_array_oob {m a_count shift hash : Nat}
    {a_array : List (Option MapNode)} {key : Key} {mutid : Nat}
    (hget : a_array.get? (map_mask hash shift) = none)
    (hwf : NodeWF (.arrayN m a_count a_array) shift) :
    WithoutSpec (.arrayN m a_count a_array) shift hash key mutid := by
  exfalso
  obtain ⟨hs, hmul, hlen, _⟩ := NodeWF_array_parts hwf
  rw [List.get?_eq_getElem?, List.getElem?_eq_none_iff, hlen] at hget
  exact absurd (map_mask_lt hash shift) (by omega)

/-- Case: empty array slot — the key is absent. -/
theorem wo_spec_array_empty_slot {m a_count shift hash : Nat}
    {a_array : List (Option MapNode)} {key : Key} {mutid : Nat}
    (hget : a_array.get? (map_mask hash shift) = some none) :
    WithoutSpec (.arrayN m a_count a_array) shift hash key mutid := by
  unfold WithoutSpec
  rw [wo_array_empty_slot hget]
  show map_node_find (MapNode.arrayN m a_count a_array) shift hash key = none
  rw [map_node_find]
  split
  · rfl
  · rfl
  · rename_i child heq
    rw [hget] at heq
    simp at heq

/-- Facts available for the child in an occupied slot of a well-formed
array node. -/
theorem array_child_facts {shift hash : Nat} {m a_count : Nat}
    {a_array : List (Option MapNode)} {child : MapNode}
    (hget : a_array.get? (map_mask hash shift) = some (some child))
    (hwf : NodeWF (.arrayN m a_count a_array) shift)
    (hcong : KeysBelowCongr (.arrayN m a_count a_array) shift hash) :
    NodeWF child (shift + 5) ∧
    KeysBelowCongr child (shift + 5) hash ∧
    (∀ k ∈ nodeKeys child, k ∈ nodeKeys (.arrayN m a_count a_array)) ∧
    (∀ key0, map_node_find (.arrayN m a_count a_array) shift hash key0
      = map_node_find child (shift + 5) hash key0) := by
  obtain ⟨hs, hmul, hlen, hcount, hge, hwfs, hkeyss, hshapes⟩ := NodeWF_array_parts hwf
  have hmemc : ∀ k ∈ nodeKeys child, k ∈ nodeKeys (.arrayN m a_count a_array) := by
    intro k hk
    rw [mem_nodeKeys_iff] at hk ⊢
    obtain ⟨v, hv⟩ := hk
    refine ⟨v, ?_⟩
    rw [map_node_toList_arrayN]
    exact mem_slots_toList_of_slot (List.get?_mem hget) hv
  refine ⟨hwfs _ _ hget,
    child_congr (hkeyss _ _ hget) (fun k hk => hcong k (hmemc k hk)), hmemc, ?_⟩
  intro key0
  rw [map_node_find]
  split
  · rename_i heq
    rw [hget] at heq
    simp at heq
  · rename_i heq
    rw [hget] at heq
    simp at heq
  · rename_i c0 heq
    rw [hget] at heq
    obtain rfl : child = c0 := by simpa using heq
    rfl

/-- Case: the recursion on the slot's child reports the key absent. -/
theorem wo_spec_array_child_notfound {m a_count shift hash : Nat}
    {a_array : List (Option MapNode)} {key : Key} {mutid : Nat} {child : MapNode}
    (hget : a_array.get? (map_mask hash shift) = some (some child))
    (hrec : map_node_without child (shift + 5) hash key mutid = .W_NOT_FOUND)
    (ih : NodeWF child (shift + 5) → (shift + 5) % 5 = 0 → shift + 5 ≤ 35 →
      hash = hash32 key → KeysBelowCongr child (shift + 5) hash →
      WithoutSpec child (shift + 5) hash key mutid)
    (hwf : NodeWF (.arrayN m a_count a_array) shift)
    (hh : hash = hash32 key)
    (hcong : KeysBelowCongr (.arrayN m a_count a_array) shift hash) :
    WithoutSpec (.arrayN m a_count a_array) shift hash key mutid := by
  obtain ⟨hwfc, hcongc, hmemc, hbridge⟩ := array_child_facts hget hwf hcong
  obtain ⟨hs, hmul, hlen, hcount, hge, hwfs, hkeyss, hshapes⟩ := NodeWF_array_parts hwf
  have hspec := ih hwfc (by omega) (by omega) hh hcongc
  unfold WithoutSpec at hspec
  rw [hrec] at hspec
  unfold WithoutSpec
  rw [wo_array_child_notfound hget hrec, hbridge key]
  exact hspec

/-- Case: the recursion on the slot's child returns a replacement node —
the slot is overwritten with it (no inlining in array nodes). -/
theorem wo_spec_array_child_newnode {m a_count shift hash : Nat}
    {a_array : List (Option MapNode)} {key : Key} {mutid : Nat} {child sub : MapNode}
    (hget : a_array.get? (map_mask hash shift) = some (some child))
    (hrec : map_node_without child (shift + 5) hash key mutid = .W_NEWNODE sub)
    (ih : NodeWF child (shift + 5) → (shift + 5) % 5 = 0 → shift + 5 ≤ 35 →
      hash = hash32 key → KeysBelowCongr child (shift + 5) hash →
      WithoutSpec child (shift + 5) hash key mutid)
    (hwf : NodeWF (.arrayN m a_count a_array) shift)
    (hh : hash = hash32 key)
    (hcong : KeysBelowCongr (.arrayN m a_count a_array) shift hash) :
    WithoutSpec (.arrayN m a_count a_array) shift hash key mutid := by
  obtain ⟨hwfc, hcongc, hmemc, hbridge⟩ := array_child_facts hget hwf hcong
  obtain ⟨hs, hmul, hlen, hcount, hge, hwfs, hkeyss, hshapes⟩ := NodeWF_array_parts hwf
  have hspec := ih hwfc (by omega) (by omega) hh hcongc
  unfold WithoutSpec at hspec
  rw [hrec] at hspec
  obtain ⟨ewf, ekeys, ecnt, efind, epos⟩ := hspec
  have hwfsub : NodeWF sub (shift + 5) := ewf (Or.inl (by omega))
  have hsplit := slots_toList_set (some sub) hget
  have hmid1 : (slotItems (some sub)).length = leafCount sub := rfl
  have hmid2 : (slotItems (some child)).length = leafCount child := rfl
  unfold WithoutSpec
  rw [wo_array_child_newnode hget hrec]
  refine ⟨fun _ => ?_, ?_, ?_, ?_, ?_⟩
  · refine NodeWF.array hs hmul (by rw [List.length_set]; exact hlen) ?_ (by omega)
      ?_ ?_ ?_
    · rw [filterMap_id_length_set_some hget]
      exact hcount
    · intro j c hc
      by_cases hj : j = map_mask hash shift
      · subst hj
        rw [List.get?_set_eq_of_lt _ (by rw [hlen]; exact map_mask_lt hash shift)] at hc
        obtain rfl : sub = c := by simpa using hc
        exact hwfsub
      · rw [List.get?_set_ne _ _ (fun hc2 => hj hc2.symm)] at hc
        exact hwfs j c hc
    · intro j c hc
      by_cases hj : j = map_mask hash shift
      · subst hj
        rw [List.get?_set_eq_of_lt _ (by rw [hlen]; exact map_mask_lt hash shift)] at hc
        obtain rfl : sub = c := by simpa using hc
        intro k hk
        exact hkeyss _ _ hget k (ekeys k hk)
      · rw [List.get?_set_ne _ _ (fun hc2 => hj hc2.symm)] at hc
        exact hkeyss j c hc
    · intro j c hc
      by_cases hj : j = map_mask hash shift
      · subst hj
        rw [List.get?_set_eq_of_lt _ (by rw [hlen]; exact map_mask_lt hash shift)] at hc
        obtain rfl : sub = c := by simpa using hc
        exact ⟨arrayChildShape_of_leafCount epos, epos⟩
      · rw [List.get?_set_ne _ _ (fun hc2 => hj hc2.symm)] at hc
        exact hshapes j c hc
  · intro k hk
    rw [mem_nodeKeys_iff] at hk
    obtain ⟨v, hv⟩ := hk
    rw [map_node_toList_arrayN, hsplit.1] at hv
    rw [List.mem_append] at hv
    rcases hv with hv | hv
    · rw [List.mem_append] at hv
      rcases hv with hv | hv
      · refine mem_nodeKeys_iff.mpr ⟨v, ?_⟩
        rw [map_node_toList_arrayN, hsplit.2, List.mem_append, List.mem_append]
        exact Or.inl (Or.inl hv)
      · exact hmemc k (ekeys k (mem_nodeKeys_iff.mpr ⟨v, hv⟩))
    · refine mem_nodeKeys_iff.mpr ⟨v, ?_⟩
      rw [map_node_toList_arrayN, hsplit.2, List.mem_append]
      exact Or.inr hv
  · rw [leafCount, leafCount, map_node_toList_arrayN, map_node_toList_arrayN,
      hsplit.1, hsplit.2]
    simp only [List.length_append]
    rw [hmid1, hmid2]
    omega
  · rw [hbridge key]
    exact efind
  · rw [leafCount, map_node_toList_arrayN, hsplit.1]
    simp only [List.length_append]
    rw [hmid1]
    omega

/-- Case: the recursion on the slot's child emptied it and the node would
drop to zero slots — impossible: array nodes hold at least 16. -/
theorem wo_spec_array_empty_zero {m a_count shift hash : Nat}
    {a_array : List (Option MapNode)} {key : Key} {mutid : Nat} {child : MapNode}
    (hget : a_array.get? (map_mask hash shift) = some (some child))
    (hzero : a_count - 1 = 0)
    (hwf : NodeWF (.arrayN m a_count a_array) shift) :
    WithoutSpec (.arrayN m a_count a_array) shift hash key mutid := by
  exfalso
  obtain ⟨hs, hmul, hlen, hcount, hge, _⟩ := NodeWF_array_parts hwf
  omega

/-- Case: the child emptied and at least 16 slots remain occupied — the
slot is cleared in place. -/
theorem wo_spec_array_empty_keep {m a_count shift hash : Nat}
    {a_array : List (Option MapNode)} {key : Key} {mutid : Nat} {child : MapNode}
    (hget : a_array.get? (map_mask hash shift) = some (some child))
    (hrec : map_node_without child (shift + 5) hash key mutid = .W_EMPTY)
    (h16 : 16 ≤ a_count - 1)
    (ih : NodeWF child (shift + 5) → (shift + 5) % 5 = 0 → shift + 5 ≤ 35 →
      hash = hash32 key → KeysBelowCongr child (shift + 5) hash →
      WithoutSpec child (shift + 5) hash key mutid)
    (hwf : NodeWF (.arrayN m a_count a_array) shift)
    (hh : hash = hash32 key)
    (hcong : KeysBelowCongr (.arrayN m a_count a_array) shift hash) :
    WithoutSpec (.arrayN m a_count a_array) shift hash key mutid := by
  obtain ⟨hwfc, hcongc, hmemc, hbridge⟩ := array_child_facts hget hwf hcong
  obtain ⟨hs, hmul, hlen, hcount, hge, hwfs, hkeyss, hshapes⟩ := NodeWF_array_parts hwf
  have hspec := ih hwfc (by omega) (by omega) hh hcongc
  unfold WithoutSpec at hspec
  rw [hrec] at hspec
  obtain ⟨eone, efind⟩ := hspec
  have hsplit := slots_toList_set (none : Option MapNode) hget
  have hmid1 : (slotItems (none : Option MapNode)).length = 0 := rfl
  have hmid2 : (slotItems (some child)).length = leafCount child := rfl
  have hcnt16 := leafCount_array_ge hwf
  unfold WithoutSpec
  rw [wo_array_child_empty_keep hget hrec h16]
  have hlcs : leafCount (.arrayN mutid (a_count - 1)
      (a_array.set (map_mask hash shift) none)) + leafCount child
      = leafCount (.arrayN m a_count a_array) := by
    have h1 : map_node_toList (MapNode.arrayN mutid (a_count - 1)
        (a_array.set (map_mask hash shift) none))
        = slots_toList (a_array.take (map_mask hash shift))
          ++ slots_toList (a_array.drop (map_mask hash shift + 1)) := by
      rw [map_node_toList_arrayN, hsplit.1]
      simp [slotItems]
    have h2 : map_node_toList (MapNode.arrayN m a_count a_array)
        = slots_toList (a_array.take (map_mask hash shift))
          ++ map_node_toList child
          ++ slots_toList (a_array.drop (map_mask hash shift + 1)) := by
      rw [map_node_toList_arrayN, hsplit.2]
      rfl
    rw [leafCount, leafCount, leafCount, h1, h2]
    simp only [List.length_append]
    omega
  refine ⟨fun _ => ?_, ?_, ?_, ?_, ?_⟩
  · refine NodeWF.array hs hmul (by rw [List.length_set]; exact hlen) ?_ h16
      ?_ ?_ ?_
    · have hfm := filterMap_id_length_set_to_none hget
      omega
    · intro j c hc
      by_cases hj : j = map_mask hash shift
      · subst hj
        rw [List.get?_set_eq_of_lt _ (by rw [hlen]; exact map_mask_lt hash shift)] at hc
        simp at hc
      · rw [List.get?_set_ne _ _ (fun hc2 => hj hc2.symm)] at hc
        exact hwfs j c hc
    · intro j c hc
      by_cases hj : j = map_mask hash shift
      · subst hj
        rw [List.get?_set_eq_of_lt _ (by rw [hlen]; exact map_mask_lt hash shift)] at hc
        simp at hc
      · rw [List.get?_set_ne _ _ (fun hc2 => hj hc2.symm)] at hc
        exact hkeyss j c hc
    · intro j c hc
      by_cases hj : j = map_mask hash shift
      · subst hj
        rw [List.get?_set_eq_of_lt _ (by rw [hlen]; exact map_mask_lt hash shift)] at hc
        simp at hc
      · rw [List.get?_set_ne _ _ (fun hc2 => hj hc2.symm)] at hc
        exact hshapes j c hc
  · intro k hk
    rw [mem_nodeKeys_iff] at hk
    obtain ⟨v, hv⟩ := hk
    rw [map_node_toList_arrayN, hsplit.1] at hv
    rw [List.mem_append] at hv
    rcases hv with hv | hv
    · rw [List.mem_append] at hv
      rcases hv with hv | hv
      · refine mem_nodeKeys_iff.mpr ⟨v, ?_⟩
        rw [map_node_toList_arrayN, hsplit.2, List.mem_append, List.mem_append]
        exact Or.inl (Or.inl hv)
      · simp [slotItems] at hv
    · refine mem_nodeKeys_iff.mpr ⟨v, ?_⟩
      rw [map_node_toList_arrayN, hsplit.2, List.mem_append]
      exact Or.inr hv
  · omega
  · rw [hbridge key]
    exact efind
  · omega

/-- Case: the child emptied and fewer than 16 slots would remain — the
array node is demoted to a bitmap node over the remaining slots. -/
theorem wo_spec_array_empty_demote {m a_count shift hash : Nat}
    {a_array : List (Option MapNode)} {key : Key} {mutid : Nat} {child : MapNode}
    (hget : a_array.get? (map_mask hash shift) = some (some child))
    (hrec : map_node_without child (shift + 5) hash key mutid = .W_EMPTY)
    (hpos : ¬ a_count - 1 = 0) (h16 : ¬ 16 ≤ a_count - 1)
    (ih : NodeWF child (shift + 5) → (shift + 5) % 5 = 0 → shift + 5 ≤ 35 →
      hash = hash32 key → KeysBelowCongr child (shift + 5) hash →
      WithoutSpec child (shift + 5) hash key mutid)
    (hwf : NodeWF (.arrayN m a_count a_array) shift)
    (hh : hash = hash32 key)
    (hcong : KeysBelowCongr (.arrayN m a_count a_array) shift hash) :
    WithoutSpec (.arrayN m a_count a_array) shift hash key mutid := by
  obtain ⟨hwfc, hcongc, hmemc, hbridge⟩ := array_child_facts hget hwf hcong
  obtain ⟨hs, hmul, hlen, hcount, hge, hwfs, hkeyss, hshapes⟩ := NodeWF_array_parts hwf
  have hspec := ih hwfc (by omega) (by omega) hh hcongc
  unfold WithoutSpec at hspec
  rw [hrec] at hspec
  obtain ⟨eone, efind⟩ := hspec
  have hcnt16 := leafCount_array_ge hwf
  have hpw : ((array_demote_kept (map_mask hash shift) a_array).map
      (fun p => (p.1, array_demote_entry p.2))).Pairwise (fun a b => a.1 < b.1) := by
    rw [List.pairwise_map]
    exact array_demote_kept_pairwise _ _
  obtain ⟨hpc, htb, hsome, hnone⟩ := ascending_build _ hpw
  have hdb : (array_demote_kept (map_mask hash shift) a_array).foldl
      (fun b p => b ||| (1 <<< p.1)) 0
      = pairsBitmap ((array_demote_kept (map_mask hash shift) a_array).map
        (fun p => (p.1, array_demote_entry p.2))) := by
    rw [pairsBitmap, List.foldl_map]
    simp only [Nat.one_shiftLeft]
  have hde : (array_demote_kept (map_mask hash shift) a_array).map
      (fun p => array_demote_entry p.2)
      = ((array_demote_kept (map_mask hash shift) a_array).map
        (fun p => (p.1, array_demote_entry p.2))).map Prod.snd := by
    rw [List.map_map]
    rfl
  have hsum1 : leafCount (MapNode.bitmapN mutid
        ((array_demote_kept (map_mask hash shift) a_array).foldl
          (fun b p => b ||| (1 <<< p.1)) 0)
        ((array_demote_kept (map_mask hash shift) a_array).map
          (fun p => array_demote_entry p.2)))
      = ((array_demote_kept (map_mask hash shift) a_array).map
          (fun p => leafCount p.2)).sum := by
    rw [leafCount, map_node_toList_bitmapN, entries_toList_eq,
      length_flatMap_eq_sum, List.map_map]
    congr 1
    apply List.map_congr_left
    intro q hq
    simp only [Function.comp_def]
    rw [array_demote_entry_items]
    rfl
  have hsum2 : ((array_demote_kept (map_mask hash shift) a_array).map
        (fun p => leafCount p.2)).sum
      = ((List.range 32).map (fun i =>
          ((array_demote_slot (map_mask hash shift) a_array i).map
            leafCount).getD 0)).sum := by
    rw [array_demote_kept]
    exact sum_map_filterMap_range _ _ 32
  have hsum3 : leafCount (MapNode.arrayN m a_count a_array)
      = ((List.range 32).map (fun i =>
          (((a_array.get? i).map slotItems).getD []).length)).sum := by
    rw [leafCount, map_node_toList_arrayN, slots_toList_eq,
      flatMap_get?_enum slotItems a_array, hlen, length_flatMap_eq_sum]
  have hpt : ∀ i, i ≠ map_mask hash shift →
      ((array_demote_slot (map_mask hash shift) a_array i).map leafCount).getD 0
      = (((a_array.get? i).map slotItems).getD []).length := by
    intro i hi
    rw [array_demote_slot, if_neg hi]
    rcases hg : a_array.get? i with _ | x
    · rfl
    · rcases x with _ | c
      · rfl
      · rfl
  have hf2idx : (((a_array.get? (map_mask hash shift)).map slotItems).getD []).length
      = leafCount child := by
    rw [hget]
    rfl
  have hf1idx : ((array_demote_slot (map_mask hash shift) a_array
      (map_mask hash shift)).map leafCount).getD 0 = 0 := by
    rw [array_demote_slot, if_pos rfl]
    rfl
  have hcmp := @sum_range_congr_except
    (fun i => ((array_demote_slot (map_mask hash shift) a_array i).map leafCount).getD 0)
    (fun i => (((a_array.get? i).map slotItems).getD []).length)
    32 (map_mask hash shift) (map_mask_lt hash shift) hpt
  dsimp only at hcmp
  rw [hf2idx, hf1idx] at hcmp
  have hlcs : leafCount (MapNode.bitmapN mutid
        ((array_demote_kept (map_mask hash shift) a_array).foldl
          (fun b p => b ||| (1 <<< p.1)) 0)
        ((array_demote_kept (map_mask hash shift) a_array).map
          (fun p => array_demote_entry p.2))) + leafCount child
      = leafCount (MapNode.arrayN m a_count a_array) := by
    rw [hsum1, hsum2, hsum3]
    omega
  unfold WithoutSpec
  rw [wo_array_child_empty_demote hget hrec hpos h16]
  refine ⟨fun _ => ?_, ?_, ?_, ?_, ?_⟩
  · rw [hdb, hde]
    refine NodeWF.bitmap (by omega) hmul ?_ ?_
    · rw [List.length_map, hpc, List.length_map]
    · intro j e he
      by_cases hj : j ∈ ((array_demote_kept (map_mask hash shift) a_array).map
          (fun p => (p.1, array_demote_entry p.2))).map Prod.fst
      · obtain ⟨p, hpl, hpj⟩ := List.mem_map.mp hj
        subst hpj
        obtain ⟨n, hn⟩ := List.get?_of_mem hpl
        have hsome2 := (hsome n p hn).1
        rw [hsome2] at he
        obtain rfl : p.2 = e := Option.some.inj he
        obtain ⟨q, hq, hpq⟩ := List.mem_map.mp hpl
        obtain ⟨h32, hne, hgq⟩ := array_demote_kept_mem.mp hq
        have hp1 : p.1 = q.1 := by rw [← hpq]
        have hp2 : p.2 = array_demote_entry q.2 := by rw [← hpq]
        rw [hp2, hp1]
        exact array_demote_entry_wf (hwfs _ _ hgq) (hkeyss _ _ hgq) (hshapes _ _ hgq).2
      · have hn := hnone j hj
        rw [hn] at he
        exact Option.noConfusion he
  · intro k hk
    rw [mem_nodeKeys_iff] at hk
    obtain ⟨v, hv⟩ := hk
    rw [map_node_toList_bitmapN, entries_toList_eq, List.mem_flatMap] at hv
    obtain ⟨e, hel, hv2⟩ := hv
    obtain ⟨q, hq, rfl⟩ := List.mem_map.mp hel
    rw [array_demote_entry_items] at hv2
    obtain ⟨h32, hne, hgq⟩ := array_demote_kept_mem.mp hq
    refine mem_nodeKeys_iff.mpr ⟨v, ?_⟩
    rw [map_node_toList_arrayN]
    exact mem_slots_toList_of_slot (List.get?_mem hgq) hv2
  · omega
  · rw [hbridge key]
    exact efind
  · omega

/-! ## Per-case without specification lemmas: Collision nodes -/

/-- Case: the lookup hash differs from the node hash — the key is absent
(the scan cannot match: every stored key hashes to the node hash). -/
theorem wo_spec_collision_hash_ne {m c_hash shift hash : Nat}
    {c_array : List (Key × Val)} {key : Key} {mutid : Nat}
    (hne : hash ≠ c_hash)
    (hwf : NodeWF (.collisionN m c_hash c_array) shift)
    (hh : hash = hash32 key) :
    WithoutSpec (.collisionN m c_hash c_array) shift hash key mutid := by
  obtain ⟨hlen, hhash⟩ := NodeWF_collision_parts hwf
  have hfi : map_node_collision_find_index key c_array = none := by
    apply find_index_eq_none
    intro p hp hc
    apply hne
    rw [hh, hc]
    exact hhash p hp
  unfold WithoutSpec
  rw [wo_collision_hash_ne hne]
  rw [map_node_find, hfi]

/-- Case: the scan misses — the key is absent. -/
theorem wo_spec_collision_notfound {m c_hash shift hash : Nat}
    {c_array : List (Key × Val)} {key : Key} {mutid : Nat}
    (hh2 : ¬ hash ≠ c_hash)
    (hfi : map_node_collision_find_index key c_array = none) :
    WithoutSpec (.collisionN m c_hash c_array) shift hash key mutid := by
  unfold WithoutSpec
  rw [wo_collision_notfound (not_not.mp hh2) hfi]
  rw [map_node_find, hfi]

/-- Case: deleting would leave zero pairs — impossible: collision nodes
hold at least two. -/
theorem wo_spec_collision_zero {m c_hash shift hash : Nat}
    {c_array : List (Key × Val)} {key : Key} {mutid : Nat} {i : Nat}
    (hfi : map_node_collision_find_index key c_array = some i)
    (hzero : c_array.length - 1 = 0)
    (hwf : NodeWF (.collisionN m c_hash c_array) shift) :
    WithoutSpec (.collisionN m c_hash c_array) shift hash key mutid := by
  exfalso
  obtain ⟨hlen, hhash⟩ := NodeWF_collision_parts hwf
  omega

/-- Case: one pair remains after the deletion — the node collapses to a
single-leaf bitmap node holding the surviving pair. -/
theorem wo_spec_collision_collapse {m c_hash shift hash : Nat}
    {c_array : List (Key × Val)} {key : Key} {mutid : Nat} {i : Nat}
    {k : Key} {v : Val}
    (hh2 : ¬ hash ≠ c_hash)
    (hfi : map_node_collision_find_index key c_array = some i)
    (hnc1 : c_array.length - 1 = 1)
    (hother : (if i = 0 then c_array.get? 1 else c_array.get? 0) = some (k, v))
    (hwf : NodeWF (.collisionN m c_hash c_array) shift)
    (hmul : shift % 5 = 0) :
    WithoutSpec (.collisionN m c_hash c_array) shift hash key mutid := by
  obtain ⟨hlen, hhash⟩ := NodeWF_collision_parts hwf
  have hhc : hash = c_hash := not_not.mp hh2
  have hlen2 : c_array.length = 2 := by omega
  have hkmem : (k, v) ∈ c_array := by
    by_cases hi0 : i = 0
    · rw [if_pos hi0] at hother
      exact List.get?_mem hother
    · rw [if_neg hi0] at hother
      exact List.get?_mem hother
  have hkhash : hash32 k = hash := by
    rw [hhc]
    exact hhash (k, v) hkmem
  obtain ⟨p, hpi, hpk⟩ := find_index_some hfi
  have hfindsome : (map_node_find (.collisionN m c_hash c_array) shift hash
      key).isSome = true := by
    rw [map_node_find, hfi]
    dsimp only
    rw [hpi]
    rfl
  unfold WithoutSpec
  rw [wo_collision_collapse hhc hfi hlen2 hother]
  refine ⟨?_, ?_, ?_, hfindsome, ?_⟩
  · intro hpre
    rcases hpre with h30 | habs
    · refine NodeWF.bitmap h30 hmul ?_ ?_
      · rw [map_bitpos_eq, popcount_two_pow]
        rfl
      · intro j e he
        rw [map_bitpos_eq, entryAtBit_single] at he
        rcases eq_or_ne j (map_mask hash shift) with rfl | hj
        · rw [if_pos rfl] at he
          cases he
          exact BEntryWF.leaf (by rw [hkhash])
        · rw [if_neg hj] at he
          cases he
    · exact absurd rfl (habs mutid (map_bitpos hash shift) (k, v))
  · intro k0 hk0
    rw [nodeKeys, map_node_toList_bitmapN] at hk0
    simp only [entries_toList, List.map_cons, List.map_nil,
      List.mem_singleton] at hk0
    subst hk0
    rw [nodeKeys_collisionN]
    exact List.mem_map.mpr ⟨(k0, v), hkmem, rfl⟩
  · rw [leafCount, leafCount, map_node_toList_bitmapN, map_node_toList_collisionN,
      hlen2]
    simp [entries_toList]
  · rw [leafCount, map_node_toList_bitmapN]
    simp [entries_toList]

/-- Case: the surviving-pair probe missed — impossible: the array holds
exactly two pairs, so both probed indices are in range. -/
theorem wo_spec_collision_collapse_oob {m c_hash shift hash : Nat}
    {c_array : List (Key × Val)} {key : Key} {mutid : Nat} {i : Nat}
    (hfi : map_node_collision_find_index key c_array = some i)
    (hnc1 : c_array.length - 1 = 1)
    (hother : (if i = 0 then c_array.get? 1 else c_array.get? 0) = none)
    (hwf : NodeWF (.collisionN m c_hash c_array) shift) :
    WithoutSpec (.collisionN m c_hash c_array) shift hash key mutid := by
  exfalso
  obtain ⟨hlen, hhash⟩ := NodeWF_collision_parts hwf
  by_cases hi0 : i = 0
  · rw [if_pos hi0, List.get?_eq_none] at hother
    omega
  · rw [if_neg hi0, List.get?_eq_none] at hother
    omega

/-- Case: at least two pairs remain — the matched pair is spliced out of
the collision array. -/
theorem wo_spec_collision_remove {m c_hash shift hash : Nat}
    {c_array : List (Key × Val)} {key : Key} {mutid : Nat} {i : Nat}
    (hh2 : ¬ hash ≠ c_hash)
    (hfi : map_node_collision_find_index key c_array = some i)
    (hnc0 : ¬ c_array.length - 1 = 0) (hnc1 : ¬ c_array.length - 1 = 1)
    (hwf : NodeWF (.collisionN m c_hash c_array) shift) :
    WithoutSpec (.collisionN m c_hash c_array) shift hash key mutid := by
  obtain ⟨hlen, hhash⟩ := NodeWF_collision_parts hwf
  have hhc : hash = c_hash := not_not.mp hh2
  have hlen3 : 3 ≤ c_array.length := by omega
  obtain ⟨p, hpi, hpk⟩ := find_index_some hfi
  have hi : i < c_array.length := (List.get?_eq_some.mp hpi).1
  have hfindsome : (map_node_find (.collisionN m c_hash c_array) shift hash
      key).isSome = true := by
    rw [map_node_find, hfi]
    dsimp only
    rw [hpi]
    rfl
  have hsub : ∀ q ∈ c_array.take i ++ c_array.drop (i + 1), q ∈ c_array := by
    intro q hq
    rcases List.mem_append.mp hq with h0 | h0
    · exact List.take_subset _ _ h0
    · exact List.drop_subset _ _ h0
  have hremlen : (c_array.take i ++ c_array.drop (i + 1)).length
      = c_array.length - 1 := by
    rw [List.length_append, List.length_take, List.length_drop]
    omega
  unfold WithoutSpec
  rw [wo_collision_remove hhc hfi hlen3]
  refine ⟨fun _ => ?_, ?_, ?_, hfindsome, ?_⟩
  · refine NodeWF.collision (by omega) ?_
    intro q hq
    exact hhash q (hsub q hq)
  · intro k0 hk0
    rw [nodeKeys_collisionN, List.mem_map] at hk0
    obtain ⟨q, hq, rfl⟩ := hk0
    rw [nodeKeys_collisionN]
    exact List.mem_map.mpr ⟨q, hsub q hq, rfl⟩
  · rw [leafCount, leafCount, map_node_toList_collisionN, map_node_toList_collisionN,
      hremlen]
    omega
  · rw [leafCount, map_node_toList_collisionN, hremlen]
    omega

/-- The full correctness of `map_node_without` on well-formed subtrees,
by the recursion structure of the source function. -/
theorem map_node_without_spec (node : MapNode) (shift hash : Nat) (key : Key)
    (mutid : Nat) :
    NodeWF node shift → shift % 5 = 0 → shift ≤ 35 → hash = hash32 key →
    KeysBelowCongr node shift hash →
    WithoutSpec node shift hash key mutid := by
  induction node, shift, hash, key, mutid using map_node_without.induct with
  | case1 shift hash key mutid m b_bitmap b_array bit hbit =>
    intro hwf hmul hle hh hcong
    exact wo_spec_bitmap_unset hbit
  | case2 shift hash key mutid m b_bitmap b_array bit hbit idx hget =>
    intro hwf hmul hle hh hcong
    exact wo_spec_bitmap_oob hbit hget hwf
  | case3 shift hash key mutid m b_bitmap b_array bit hbit idx von hget hrec ih =>
    intro hwf hmul hle hh hcong
    exact wo_spec_bitmap_child_empty hbit hget hrec ih hwf hh hcong
  | case4 shift hash key mutid m b_bitmap b_array bit hbit idx von hget ms bs k v
      hrec ih =>
    intro hwf hmul hle hh hcong
    exact wo_spec_bitmap_child_single hbit hget hrec ih hwf hh hcong
  | case5 shift hash key mutid m b_bitmap b_array bit hbit idx von hget x hns
      hrec ih =>
    intro hwf hmul hle hh hcong
    exact wo_spec_bitmap_child_other hbit hget hns hrec ih hwf hh hcong
  | case6 shift hash key mutid m b_bitmap b_array bit hbit idx von hget hrec ih =>
    intro hwf hmul hle hh hcong
    exact wo_spec_bitmap_child_notfound hbit hget hrec ih hwf hh hcong
  | case7 shift hash mutid m b_bitmap b_array bit hbit idx key' val' hget hlen1 =>
    intro hwf hmul hle hh hcong
    exact wo_spec_bitmap_leaf_one hbit hget hlen1 hwf
  | case8 shift hash mutid m b_bitmap b_array bit hbit idx key' val' hget hlen1 =>
    intro hwf hmul hle hh hcong
    exact wo_spec_bitmap_leaf_many hbit hget hlen1 hwf
  | case9 shift hash key mutid m b_bitmap b_array bit hbit idx key' val' hget hk =>
    intro hwf hmul hle hh hcong
    exact wo_spec_bitmap_leaf_other hbit hget hk hwf
  | case10 shift hash key mutid m a_count a_array idx hget =>
    intro hwf hmul hle hh hcong
    exact wo_spec_array_oob hget hwf
  | case11 shift hash key mutid m a_count a_array idx hget =>
    intro hwf hmul hle hh hcong
    exact wo_spec_array_empty_slot hget
  | case12 shift hash key mutid m a_count a_array idx child hget hrec ih =>
    intro hwf hmul hle hh hcong
    exact wo_spec_array_child_notfound hget hrec ih hwf hh hcong
  | case13 shift hash key mutid m a_count a_array idx child hget sub hrec ih =>
    intro hwf hmul hle hh hcong
    exact wo_spec_array_child_newnode hget hrec ih hwf hh hcong
  | case14 shift hash key mutid m a_count a_array idx child hget hrec nc hzero ih =>
    intro hwf hmul hle hh hcong
    exact wo_spec_array_empty_zero hget hzero hwf
  | case15 shift hash key mutid m a_count a_array idx child hget hrec nc hnz
      h16 ih =>
    intro hwf hmul hle hh hcong
    exact wo_spec_array_empty_keep hget hrec h16 ih hwf hh hcong
  | case16 shift hash key mutid m a_count a_array idx child hget hrec nc hnz
      h16n ih =>
    intro hwf hmul hle hh hcong
    exact wo_spec_array_empty_demote hget hrec hnz h16n ih hwf hh hcong
  | case17 shift hash key mutid m c_hash c_array hne =>
    intro hwf hmul hle hh hcong
    exact wo_spec_collision_hash_ne hne hwf hh
  | case18 shift hash key mutid m c_hash c_array hh2 hfi =>
    intro hwf hmul hle hh hcong
    exact wo_spec_collision_notfound hh2 hfi
  | case19 shift hash key mutid m c_hash c_array hh2 i hfi nc hzero =>
    intro hwf hmul hle hh hcong
    exact wo_spec_collision_zero hfi hzero hwf
  | case20 shift hash key mutid m c_hash c_array hh2 i hfi nc hnz hnc1 k v
      hother =>
    intro hwf hmul hle hh hcong
    rw [dite_eq_ite] at hother
    exact wo_spec_collision_collapse hh2 hfi hnc1 hother hwf hmul
  | case21 shift hash key mutid m c_hash c_array hh2 i hfi nc hnz hnc1 hother =>
    intro hwf hmul hle hh hcong
    rw [dite_eq_ite] at hother
    exact wo_spec_collision_collapse_oob hfi hnc1 hother hwf
  | case22 shift hash key mutid m c_hash c_array hh2 i hfi nc hnz hn1 =>
    intro hwf hmul hle hh hcong
    exact wo_spec_collision_remove hh2 hfi hnz hn1 hwf

/-! ## Map-level well-formedness -/

theorem map_new_wf : MapWF map_new := by
  refine ⟨?_, rfl⟩
  refine NodeWF.bitmap (by omega) rfl (by simp [popcount_zero]) ?_
  intro j e he
  rw [entryAtBit] at he
  simp [Nat.zero_testBit] at he

theorem keysBelowCongr_zero (n : MapNode) (hash : Nat) : KeysBelowCongr n 0 hash := by
  intro k hk
  omega

theorem find_none_of_leafCount_zero {s h : Nat} {k : Key} {n : MapNode}
    (hwf : NodeWF n s) (h0 : leafCount n = 0) :
    map_node_find n s h k = none := by
  cases n with
  | arrayN m cnt arr =>
    have := leafCount_array_ge hwf
    omega
  | collisionN m ch arr =>
    have := leafCount_collision_ge hwf
    omega
  | bitmapN m bmp arr =>
    rcases arr with _ | ⟨e, rest⟩
    · rw [map_node_find_bitmapN]
      have he : entryAtBit bmp ([] : List BEntry) (map_mask h s) = none := by
        rw [entryAtBit]
        split
        · rfl
        · rfl
      rw [he]
    · exfalso
      have hge := leafCount_bitmap_ge_entries hwf
      simp only [List.length_cons] at hge
      omega

theorem map_find_eq_node {o : MapObject} (hwf : MapWF o) (key : Key) :
    map_find o key = map_node_find o.h_root 0 (hash32 key) key := by
  rw [map_find]
  by_cases h0 : o.h_count = 0
  · rw [if_pos h0, find_none_of_leafCount_zero hwf.1 (by rw [← hwf.2]; exact h0)]
  · rw [if_neg h0]

theorem map_assoc_wf {o : MapObject} (hwf : MapWF o) (key : Key) (val : Val) :
    MapWF (map_assoc o key val) := by
  obtain ⟨awf, akeys, acnt, afind, aiff, hbs, has⟩ :=
    map_node_assoc_spec o.h_root 0 (hash32 key) key val 0 hwf.1 rfl (by omega) rfl
      (keysBelowCongr_zero _ _)
  refine ⟨awf, ?_⟩
  have hc := hwf.2
  rw [map_assoc]
  dsimp only
  rw [acnt, hc]
  cases hb : (map_node_assoc o.h_root 0 (hash32 key) key val 0).2 with
  | false => simp [hb]
  | true => simp [hb]

theorem map_assoc_len {o : MapObject} (hwf : MapWF o) (key : Key) (val : Val) :
    map_len (map_assoc o key val)
      = map_len o + (if map_find o key = none then 1 else 0) := by
  obtain ⟨awf, akeys, acnt, afind, aiff, hbs, has⟩ :=
    map_node_assoc_spec o.h_root 0 (hash32 key) key val 0 hwf.1 rfl (by omega) rfl
      (keysBelowCongr_zero _ _)
  rw [map_len, map_len, map_assoc]
  dsimp only
  rw [map_find_eq_node hwf key]
  cases hb : (map_node_assoc o.h_root 0 (hash32 key) key val 0).2 with
  | false =>
    have hnn : ¬ map_node_find o.h_root 0 (hash32 key) key = none := by
      intro hc
      have := aiff.mpr hc
      rw [hb] at this
      cases this
    rw [if_neg hnn]
    simp
  | true =>
    rw [if_pos (aiff.mp hb)]
    simp

theorem map_without_wf {o o' : MapObject} (hwf : MapWF o) {key : Key}
    (h : map_without o key = some o') :
    MapWF o' ∧ o'.h_count + 1 = o.h_count := by
  have wspec := map_node_without_spec o.h_root 0 (hash32 key) key 0 hwf.1 rfl
    (by omega) rfl (keysBelowCongr_zero _ _)
  unfold WithoutSpec at wspec
  rw [map_without] at h
  rcases hw : map_node_without o.h_root 0 (hash32 key) key 0 with _ | _ | r
  · rw [hw] at h
    cases h
  · rw [hw] at h wspec
    obtain ⟨hone, hfs⟩ := wspec
    obtain rfl := Option.some.inj h
    refine ⟨map_new_wf, ?_⟩
    show 0 + 1 = o.h_count
    rw [hwf.2, hone]
  · rw [hw] at h wspec
    obtain ⟨rwf, rkeys, rcnt, rfind, rpos⟩ := wspec
    obtain rfl := Option.some.inj h
    have hwr : NodeWF r 0 := rwf (Or.inl (by omega))
    have hc := hwf.2
    refine ⟨⟨hwr, ?_⟩, ?_⟩
    · show o.h_count - 1 = leafCount r
      omega
    · show (o.h_count - 1) + 1 = o.h_count
      omega

theorem map_node_update_wf (mutid : Nat) (src : List (Key × Val)) :
    ∀ (root : MapNode) (count : Nat), NodeWF root 0 → count = leafCount root →
    NodeWF (map_node_update mutid src root count).1 0 ∧
    (map_node_update mutid src root count).2
      = leafCount (map_node_update mutid src root count).1 := by
  induction src with
  | nil =>
    intro root count h1 h2
    exact ⟨h1, h2⟩
  | cons kv rest ih =>
    intro root count h1 h2
    obtain ⟨awf, akeys, acnt, afind, aiff, hbs, has⟩ :=
      map_node_assoc_spec root 0 (hash32 kv.1) kv.1 kv.2 mutid h1 rfl (by omega) rfl
        (keysBelowCongr_zero _ _)
    have hstep2 : (if (map_node_assoc root 0 (hash32 kv.1) kv.1 kv.2 mutid).2
        then count + 1 else count)
        = leafCount (map_node_assoc root 0 (hash32 kv.1) kv.1 kv.2 mutid).1 := by
      rw [acnt, h2]
      cases hb : (map_node_assoc root 0 (hash32 kv.1) kv.1 kv.2 mutid).2 with
      | false => simp [hb]
      | true => simp [hb]
    have hres : map_node_update mutid (kv :: rest) root count
        = map_node_update mutid rest
          (map_node_assoc root 0 (hash32 kv.1) kv.1 kv.2 mutid).1
          (if (map_node_assoc root 0 (hash32 kv.1) kv.1 kv.2 mutid).2 then count + 1
            else count) := rfl
    rw [hres]
    exact ih _ _ awf hstep2

theorem map_update_wf {o : MapObject} (hwf : MapWF o) (mutid : Nat)
    (src : List (Key × Val)) : MapWF (map_update mutid o src) := by
  obtain ⟨h1, h2⟩ := map_node_update_wf mutid src o.h_root o.h_count hwf.1 hwf.2
  exact ⟨h1, h2⟩

/-! ## Mutation drafts: operations and well-formedness -/

/-- Well-formedness of a draft: a well-formed root at shift 0 and an
accurate running count. -/
def MutWF (d : MapMutationObject) : Prop :=
  NodeWF d.m_root 0 ∧ d.m_count = leafCount d.m_root

/-- The operations the mutation API exposes on a draft (`mapmut_py_set`,
`mapmut_tp_ass_sub`, `mapmut_py_delete`, `mapmut_py_pop`,
`mapmut_py_update`, lines 3756-4041): subscript assignment and `set` run
the same helper. -/
inductive DraftOp where
  | set (key : Key) (val : Val)
  | del (key : Key)
  | pop (key : Key)
  | upd (src : List (Key × Val))
deriving DecidableEq

/-- Apply one draft operation.  A failing delete or pop raises `KeyError`
in the source and leaves the draft as it was. -/
def applyDraftOp (d : MapMutationObject) : DraftOp → MapMutationObject
  | .set k v => mapmut_set d k v
  | .del k =>
    match mapmut_delete d k with
    | none => d
    | some d2 => d2
  | .pop k =>
    match mapmut_pop d k with
    | none => d
    | some r => r.2
  | .upd src => mapmut_update d src

/-- A whole draft session: the operations in program order. -/
def applyDraftOps (d : MapMutationObject) (ops : List DraftOp) : MapMutationObject :=
  ops.foldl applyDraftOp d

theorem map_py_mutate_wf {o : MapObject} (hwf : MapWF o) (fresh : Nat) :
    MutWF (map_py_mutate o fresh) :=
  ⟨hwf.1, hwf.2⟩

theorem mapmut_set_wf {d : MapMutationObject} (hwf : MutWF d) (key : Key)
    (val : Val) : MutWF (mapmut_set d key val) := by
  obtain ⟨awf, akeys, acnt, afind, aiff, hbs, has⟩ :=
    map_node_assoc_spec d.m_root 0 (hash32 key) key val d.m_mutid hwf.1 rfl
      (by omega) rfl (keysBelowCongr_zero _ _)
  refine ⟨awf, ?_⟩
  have hc := hwf.2
  rw [mapmut_set]
  dsimp only
  rw [acnt, hc]
  cases hb : (map_node_assoc d.m_root 0 (hash32 key) key val d.m_mutid).2 with
  | false => simp [hb]
  | true => simp [hb]

theorem mapmut_delete_wf {d d2 : MapMutationObject} (hwf : MutWF d) {key : Key}
    (h : mapmut_delete d key = some d2) :
    MutWF d2 ∧ d2.m_mutid = d.m_mutid := by
  have wspec := map_node_without_spec d.m_root 0 (hash32 key) key d.m_mutid hwf.1 rfl
    (by omega) rfl (keysBelowCongr_zero _ _)
  unfold WithoutSpec at wspec
  rw [mapmut_delete] at h
  rcases hw : map_node_without d.m_root 0 (hash32 key) key d.m_mutid with _ | _ | r
  · rw [hw] at h
    cases h
  · rw [hw] at h wspec
    obtain rfl := Option.some.inj h
    refine ⟨⟨?_, rfl⟩, rfl⟩
    refine NodeWF.bitmap (by omega) rfl (by simp [popcount_zero]) ?_
    intro j e he
    rw [entryAtBit] at he
    simp [Nat.zero_testBit] at he
  · rw [hw] at h wspec
    obtain ⟨rwf, rkeys, rcnt, rfind, rpos⟩ := wspec
    obtain rfl := Option.some.inj h
    have hwr : NodeWF r 0 := rwf (Or.inl (by omega))
    have hc := hwf.2
    refine ⟨⟨hwr, ?_⟩, rfl⟩
    show d.m_count - 1 = leafCount r
    omega

theorem mapmut_pop_wf {d : MapMutationObject} {key : Key} {v : Val}
    {d2 : MapMutationObject} (hwf : MutWF d)
    (h : mapmut_pop d key = some (v, d2)) :
    MutWF d2 ∧ d2.m_mutid = d.m_mutid := by
  rw [mapmut_pop] at h
  by_cases h0 : d.m_count = 0
  · rw [if_pos h0] at h
    cases h
  · rw [if_neg h0] at h
    rcases hf : map_node_find d.m_root 0 (hash32 key) key with _ | v0
    · rw [hf] at h
      cases h
    · rw [hf] at h
      rcases hd : mapmut_delete d key with _ | d3
      · rw [hd] at h
        cases h
      · rw [hd] at h
        simp only [Option.some.injEq, Prod.mk.injEq] at h
        obtain ⟨h1, h2⟩ := h
        subst h2
        exact mapmut_delete_wf hwf hd

theorem mapmut_update_wf {d : MapMutationObject} (hwf : MutWF d)
    (src : List (Key × Val)) : MutWF (mapmut_update d src) := by
  obtain ⟨h1, h2⟩ := map_node_update_wf d.m_mutid src d.m_root d.m_count hwf.1 hwf.2
  exact ⟨h1, h2⟩

theorem applyDraftOp_wf {d : MapMutationObject} (hwf : MutWF d) (op : DraftOp) :
    MutWF (applyDraftOp d op) ∧ (applyDraftOp d op).m_mutid = d.m_mutid := by
  cases op with
  | set k v => exact ⟨mapmut_set_wf hwf k v, rfl⟩
  | del k =>
    rw [applyDraftOp]
    rcases hd : mapmut_delete d k with _ | d2
    · exact ⟨hwf, rfl⟩
    · exact mapmut_delete_wf hwf hd
  | pop k =>
    rw [applyDraftOp]
    rcases hp : mapmut_pop d k with _ | r
    · exact ⟨hwf, rfl⟩
    · rcases r with ⟨v, d2⟩
      exact mapmut_pop_wf hwf hp
  | upd src => exact ⟨mapmut_update_wf hwf src, rfl⟩

theorem applyDraftOps_wf {d : MapMutationObject} (hwf : MutWF d)
    (ops : List DraftOp) :
    MutWF (applyDraftOps d ops) ∧ (applyDraftOps d ops).m_mutid = d.m_mutid := by
  induction ops generalizing d with
  | nil => exact ⟨hwf, rfl⟩
  | cons op rest ih =>
    have hstep := applyDraftOp_wf hwf op
    have hres : applyDraftOps d (op :: rest) = applyDraftOps (applyDraftOp d op) rest :=
      rfl
    rw [hres]
    obtain ⟨h1, h2⟩ := ih hstep.1
    exact ⟨h1, by rw [h2, hstep.2]⟩

theorem mapmut_finish_wf {d : MapMutationObject} (hwf : MutWF d) :
    MapWF (mapmut_finish d) :=
  ⟨hwf.1, hwf.2⟩

/-! ## The reachable maps -/

/-- The maps the public API can build: the empty map, persistent assoc and
without, `update`, and any finished draft session. -/
inductive MapReach : MapObject → Prop where
  | new : MapReach map_new
  | assoc {o : MapObject} (h : MapReach o) (key : Key) (val : Val) :
      MapReach (map_assoc o key val)
  | without {o o' : MapObject} (h : MapReach o) (key : Key)
      (hw : map_without o key = some o') : MapReach o'
  | update {o : MapObject} (h : MapReach o) (mutid : Nat) (src : List (Key × Val)) :
      MapReach (map_update mutid o src)
  | draft {o : MapObject} (h : MapReach o) (fresh : Nat) (ops : List DraftOp) :
      MapReach (mapmut_finish (applyDraftOps (map_py_mutate o fresh) ops))

theorem MapReach_wf {o : MapObject} (h : MapReach o) : MapWF o := by
  induction h with
  | new => exact map_new_wf
  | assoc h key val ih => exact map_assoc_wf ih key val
  | without h key hw ih => exact (map_without_wf ih hw).1
  | update h mutid src ih => exact map_update_wf ih mutid src
  | draft h fresh ops ih =>
    exact mapmut_finish_wf (applyDraftOps_wf (map_py_mutate_wf ih fresh) _).1

/-! ## Claim C2: functional correctness of assoc followed by find -/

/-- **C2**: for every well-formed map `M`, key `k` and value `v`,
`find(assoc(M, k, v), k)` returns exactly `v` (`map_assoc` lines
2425-2462, `map_node_find` lines 2212-2247). -/
theorem C2_assoc_find (o : MapObject) (hwf : MapWF o) (key : Key) (val : Val) :
    map_find (map_assoc o key val) key = some val := by
  have hwf2 := map_assoc_wf hwf key val
  rw [map_find_eq_node hwf2 key]
  obtain ⟨awf, akeys, acnt, afind, aiff, hbs, has⟩ :=
    map_node_assoc_spec o.h_root 0 (hash32 key) key val 0 hwf.1 rfl (by omega) rfl
      (keysBelowCongr_zero _ _)
  exact afind

theorem C2_assoc_find_witness :
    MapWF map_new ∧ map_find (map_assoc map_new ⟨3, 0⟩ 7) ⟨3, 0⟩ = some 7 :=
  ⟨map_new_wf, C2_assoc_find map_new map_new_wf ⟨3, 0⟩ 7⟩

/-! ## Claim C3: the count invariant and the length laws -/

/-- **C3**: every map reachable from `new()` through `assoc`, `without`,
`update` and finished drafts has `h_count` equal to the number of leaf
bindings reachable from its root; moreover `len(assoc(M, k, v))` is
`len(M) + 1` exactly when `k` is absent (`find` misses) and `len(M)`
otherwise, and a successful `without` lowers the length by one
(`map_assoc` lines 2438-2460, `map_without` lines 2488-2501). -/
theorem C3_count_invariant (o : MapObject) (h : MapReach o) :
    o.h_count = leafCount o.h_root ∧
    (∀ key val, map_len (map_assoc o key val)
      = map_len o + (if map_find o key = none then 1 else 0)) ∧
    (∀ key o', map_without o key = some o' → map_len o' + 1 = map_len o) := by
  have hwf := MapReach_wf h
  refine ⟨hwf.2, ?_, ?_⟩
  · intro key val
    exact map_assoc_len hwf key val
  · intro key o' hw
    exact (map_without_wf hwf hw).2

theorem C3_count_invariant_witness :
    (map_assoc map_new ⟨1, 0⟩ 5).h_count
      = leafCount (map_assoc map_new ⟨1, 0⟩ 5).h_root ∧
    (∀ key val, map_len (map_assoc (map_assoc map_new ⟨1, 0⟩ 5) key val)
      = map_len (map_assoc map_new ⟨1, 0⟩ 5)
        + (if map_find (map_assoc map_new ⟨1, 0⟩ 5) key = none then 1 else 0)) ∧
    (∀ key o', map_without (map_assoc map_new ⟨1, 0⟩ 5) key = some o' →
      map_len o' + 1 = map_len (map_assoc map_new ⟨1, 0⟩ 5)) :=
  C3_count_invariant (map_assoc map_new ⟨1, 0⟩ 5)
    (MapReach.assoc MapReach.new ⟨1, 0⟩ 5)

/-! ## Claim C4 support: the depth bound

`_Py_HAMT_MAX_TREE_DEPTH` is 8 in the header compiled with the C file
(`src/unnamed/part_004`, line 7; the stale copy under `src/immutables`
still says 7). -/

def _Py_HAMT_MAX_TREE_DEPTH : Nat := 8

theorem nodeDepth_pos (n : MapNode) : 1 ≤ nodeDepth n := by
  cases n with
  | bitmapN m b arr =>
    rw [nodeDepth]
    omega
  | arrayN m c arr =>
    rw [nodeDepth]
    omega
  | collisionN m c arr =>
    rw [nodeDepth]

theorem entriesDepth_le {arr : List BEntry} {d : Nat}
    (h : ∀ c : MapNode, Sum.inr c ∈ arr → nodeDepth c ≤ d) :
    entriesDepth arr ≤ d := by
  induction arr with
  | nil => simp [entriesDepth]
  | cons e es ih =>
    have ih2 := ih (fun c hc => h c (by simp [hc]))
    cases e with
    | inl p =>
      rw [entriesDepth]
      exact ih2
    | inr n =>
      rw [entriesDepth]
      have := h n (by simp)
      omega

theorem slotsDepth_le {arr : List (Option MapNode)} {d : Nat}
    (h : ∀ c : MapNode, some c ∈ arr → nodeDepth c ≤ d) :
    slotsDepth arr ≤ d := by
  induction arr with
  | nil => simp [slotsDepth]
  | cons e es ih =>
    have ih2 := ih (fun c hc => h c (by simp [hc]))
    cases e with
    | none =>
      rw [slotsDepth]
      exact ih2
    | some n =>
      rw [slotsDepth]
      have := h n (by simp)
      omega

theorem entriesDepth_child_le {arr : List BEntry} {c : MapNode}
    (h : Sum.inr c ∈ arr) : nodeDepth c ≤ entriesDepth arr := by
  induction arr with
  | nil => cases h
  | cons e es ih =>
    rcases List.mem_cons.mp h with he | h2
    · rw [← he, entriesDepth]
      omega
    · have := ih h2
      cases e with
      | inl p =>
        rw [entriesDepth]
        exact this
      | inr n =>
        rw [entriesDepth]
        omega

theorem slotsDepth_child_le {arr : List (Option MapNode)} {c : MapNode}
    (h : some c ∈ arr) : nodeDepth c ≤ slotsDepth arr := by
  induction arr with
  | nil => cases h
  | cons e es ih =>
    rcases List.mem_cons.mp h with he | h2
    · rw [← he, slotsDepth]
      omega
    · have := ih h2
      cases e with
      | none =>
        rw [slotsDepth]
        exact this
      | some n =>
        rw [slotsDepth]
        omega

theorem nodeDepth_le_aux : ∀ (sz : Nat) (n : MapNode) (s : Nat), nsize n ≤ sz →
    NodeWF n s → s % 5 = 0 → s ≤ 35 → nodeDepth n ≤ 8 - s / 5 := by
  intro sz
  induction sz with
  | zero =>
    intro n s hsz
    exfalso
    cases n <;> simp [nsize] at hsz
  | succ sz ih =>
    intro n s hsz hwf hmul hle
    cases n with
    | collisionN m ch arr =>
      rw [nodeDepth]
      omega
    | bitmapN m bmp arr =>
      obtain ⟨hs, hmul0, hlen, hentries⟩ := NodeWF_bitmap_parts hwf
      rw [nodeDepth]
      have hch : ∀ c : MapNode, Sum.inr c ∈ arr → nodeDepth c ≤ 8 - (s + 5) / 5 := by
        intro c hc
        obtain ⟨i, hi⟩ := List.get?_of_mem hc
        obtain ⟨j, _, _, _, hewf⟩ := NodeWF_entry_of_get? hwf hi
        cases hewf with
        | child hwfc hkeysc hshapec hcntc =>
          have hszc : nsize c ≤ sz := by
            have := nsize_lt_of_entry_mem hc
            rw [nsize] at hsz
            omega
          exact ih c (s + 5) hszc hwfc (by omega) (by omega)
      have := entriesDepth_le hch
      omega
    | arrayN m cnt arr =>
      obtain ⟨hs, hmul0, hlen, hcount, hge, hwfs, hkeyss, hshapes⟩ :=
        NodeWF_array_parts hwf
      rw [nodeDepth]
      have hch : ∀ c : MapNode, some c ∈ arr → nodeDepth c ≤ 8 - (s + 5) / 5 := by
        intro c hc
        obtain ⟨i, hi⟩ := List.get?_of_mem hc
        have hwfc := hwfs i c hi
        have hszc : nsize c ≤ sz := by
          have := nsize_lt_of_slot_mem hc
          rw [nsize] at hsz
          omega
        exact ih c (s + 5) hszc hwfc (by omega) (by omega)
      have := slotsDepth_le hch
      omega

theorem nodeDepth_le {n : MapNode} {s : Nat} (hwf : NodeWF n s) (hmul : s % 5 = 0)
    (hle : s ≤ 35) : nodeDepth n ≤ 8 - s / 5 :=
  nodeDepth_le_aux (nsize n) n s (le_refl _) hwf hmul hle

/-! ## Claim C4 support: the iterator machine

`MapIteratorState` (header lines 60-64) holds fixed arrays
`i_nodes[_Py_HAMT_MAX_TREE_DEPTH]` and `i_pos[_Py_HAMT_MAX_TREE_DEPTH]`
plus the level index `i_level`.  The live prefix of the two stacks is a
pair of lists here, top first: `i_level` is `i_nodes.length - 1`, and the
empty list is `i_level = -1`.  Bitmap and collision nodes store their
pairs flattened two C-array slots per pair and the iterator advances
`pos` by two (a child entry has a `NULL` key slot); the lists here hold
the pairs and entries themselves, so positions advance by one. -/

structure MapIteratorState where
  i_nodes : List MapNode
  i_pos : List Nat
deriving DecidableEq

/-- `map_iterator_init` (lines 2282-2294): the root at level 0. -/
def map_iterator_init (root : MapNode) : MapIteratorState := ⟨[root], [0]⟩

/-- One dispatch of `map_iterator_next` (lines 2396-2419): an item with
the updated state, an internal transition (a recursive tail-call in the
source), or the end of the iteration. -/
inductive IterStep where
  | item (key : Key) (val : Val) (st : MapIteratorState)
  | again (st : MapIteratorState)
  | stop
deriving DecidableEq

/-- The scan loop of `map_iterator_array_next` (lines 2374-2387): the
first occupied slot at index `p` or later, or `none` when the position is
past the end (`pos >= HAMT_ARRAY_NODE_SIZE`, with 32 = `a_array.length`
for well-formed nodes) or every remaining slot is empty. -/
def array_scan (a_array : List (Option MapNode)) (p : Nat) : Option (Nat × MapNode) :=
  if h : p < a_array.length then
    match a_array.get? p with
    | some (some c) => some (p, c)
    | _ => array_scan a_array (p + 1)
  else none
termination_by a_array.length - p
decreasing_by omega

/-- One step of the iterator loop (`map_iterator_next` and the per-kind
bodies `map_iterator_bitmap_next`, `map_iterator_array_next`,
`map_iterator_collision_next`, lines 2296-2419).  An empty stack is the
`i_level < 0` return of `I_END`; the mismatched-stacks and
out-of-range-index arms return `stop` and are unreachable from `init`. -/
def map_iterator_step : MapIteratorState → IterStep
  | ⟨[], _⟩ => .stop
  | ⟨_ :: _, []⟩ => .stop
  | ⟨node :: rest_n, p :: rest_p⟩ =>
    match node with
    | .bitmapN _ _ arr =>
      if arr.length ≤ p then .again ⟨rest_n, rest_p⟩
      else
        match arr.get? p with
        | none => .stop
        | some (.inr child) =>
          .again ⟨child :: node :: rest_n, 0 :: (p + 1) :: rest_p⟩
        | some (.inl (k, v)) => .item k v ⟨node :: rest_n, (p + 1) :: rest_p⟩
    | .arrayN _ _ arr =>
      match array_scan arr p with
      | some ic => .again ⟨ic.2 :: node :: rest_n, 0 :: (ic.1 + 1) :: rest_p⟩
      | none => .again ⟨rest_n, rest_p⟩
    | .collisionN _ _ arr =>
      if arr.length ≤ p then .again ⟨rest_n, rest_p⟩
      else
        match arr.get? p with
        | none => .stop
        | some (k, v) => .item k v ⟨node :: rest_n, (p + 1) :: rest_p⟩

/-- The iterator states a traversal can reach from a root. -/
inductive IterReach (root : MapNode) : MapIteratorState → Prop where
  | init : IterReach root (map_iterator_init root)
  | again {st st' : MapIteratorState} (h : IterReach root st)
      (hs : map_iterator_step st = .again st') : IterReach root st'
  | item {st st' : MapIteratorState} {k : Key} {v : Val} (h : IterReach root st)
      (hs : map_iterator_step st = .item k v st') : IterReach root st'

/-- The iterator stack is a strictly-deepening path ending at the root. -/
def stackChain (root : MapNode) : List MapNode → Prop
  | [] => True
  | [n] => n = root
  | n :: m :: rest => nodeDepth n < nodeDepth m ∧ stackChain root (m :: rest)

theorem stackChain_pop {root n : MapNode} {t : List MapNode}
    (h : stackChain root (n :: t)) : stackChain root t := by
  cases t with
  | nil => exact trivial
  | cons m rest => exact h.2

theorem stackChain_push {root n c : MapNode} {t : List MapNode}
    (h : stackChain root (n :: t)) (hc : nodeDepth c < nodeDepth n) :
    stackChain root (c :: n :: t) := ⟨hc, h⟩

theorem stackChain_length {root : MapNode} :
    ∀ (t : List MapNode) (n : MapNode), stackChain root (n :: t) →
    (n :: t).length + nodeDepth n ≤ nodeDepth root + 1 := by
  intro t
  induction t with
  | nil =>
    intro n h
    have h2 : n = root := h
    subst h2
    simp only [List.length_cons, List.length_nil]
    omega
  | cons m rest ih =>
    intro n h
    obtain ⟨h1, h2⟩ := h
    have := ih m h2
    simp only [List.length_cons] at this ⊢
    omega

/-- The invariant the iterator maintains: a deepening path and stacks
advancing in lockstep. -/
def iterInv (root : MapNode) (st : MapIteratorState) : Prop :=
  stackChain root st.i_nodes ∧ st.i_nodes.length = st.i_pos.length

theorem array_scan_some : ∀ (fuel : Nat) (a_array : List (Option MapNode)) (p : Nat),
    a_array.length ≤ p + fuel →
    ∀ i c, array_scan a_array p = some (i, c) → a_array.get? i = some (some c) := by
  intro fuel
  induction fuel with
  | zero =>
    intro arr p hf i c h
    rw [array_scan, dif_neg (by omega)] at h
    cases h
  | succ fuel ih =>
    intro arr p hf i c h
    rw [array_scan] at h
    by_cases hlt : p < arr.length
    · rw [dif_pos hlt] at h
      rcases hg : arr.get? p with _ | x
      · rw [hg] at h
        exact ih arr (p + 1) (by omega) i c h
      · rcases x with _ | c0
        · rw [hg] at h
          exact ih arr (p + 1) (by omega) i c h
        · rw [hg] at h
          simp only [Option.some.injEq, Prod.mk.injEq] at h
          obtain ⟨rfl, rfl⟩ := h
          exact hg
    · rw [dif_neg hlt] at h
      cases h

theorem map_iterator_step_inv {root : MapNode} {st st' : MapIteratorState}
    (hinv : iterInv root st)
    (h : map_iterator_step st = .again st' ∨
      ∃ k v, map_iterator_step st = .item k v st') :
    iterInv root st' := by
  obtain ⟨hchain, hlen⟩ := hinv
  rcases st with ⟨nodes, pos⟩
  rcases nodes with _ | ⟨node, rest_n⟩
  · rcases h with h | ⟨k, v, h⟩ <;> (rw [map_iterator_step] at h; cases h)
  · rcases pos with _ | ⟨p, rest_p⟩
    · rcases h with h | ⟨k, v, h⟩ <;> (rw [map_iterator_step] at h; cases h)
    · simp only [List.length_cons] at hlen
      cases node with
      | bitmapN mb bb arr =>
        rw [map_iterator_step] at h
        by_cases hp : arr.length ≤ p
        · rw [if_pos hp] at h
          rcases h with h | ⟨k, v, h⟩
          · cases h
            exact ⟨stackChain_pop hchain, by simpa using hlen⟩
          · cases h
        · rw [if_neg hp] at h
          rcases hg : arr.get? p with _ | e
          · rw [hg] at h
            rcases h with h | ⟨k, v, h⟩ <;> cases h
          · rcases e with ⟨k0, v0⟩ | child
            · rw [hg] at h
              rcases h with h | ⟨k, v, h⟩
              · cases h
              · cases h
                exact ⟨hchain, by simpa using hlen⟩
            · rw [hg] at h
              rcases h with h | ⟨k, v, h⟩
              · cases h
                refine ⟨stackChain_push hchain ?_, by simpa using hlen⟩
                have := entriesDepth_child_le (List.get?_mem hg)
                rw [nodeDepth]
                omega
              · cases h
      | arrayN ma ca arr =>
        rw [map_iterator_step] at h
        rcases hs : array_scan arr p with _ | ic
        · rw [hs] at h
          rcases h with h | ⟨k, v, h⟩
          · cases h
            exact ⟨stackChain_pop hchain, by simpa using hlen⟩
          · cases h
        · rw [hs] at h
          rcases h with h | ⟨k, v, h⟩
          · cases h
            refine ⟨stackChain_push hchain ?_, by simpa using hlen⟩
            have hmem : arr.get? ic.1 = some (some ic.2) := by
              rcases ic with ⟨i, c⟩
              exact array_scan_some arr.length arr p (by omega) i c hs
            have := slotsDepth_child_le (List.get?_mem hmem)
            rw [nodeDepth]
            omega
          · cases h
      | collisionN mc hc arr =>
        rw [map_iterator_step] at h
        by_cases hp : arr.length ≤ p
        · rw [if_pos hp] at h
          rcases h with h | ⟨k, v, h⟩
          · cases h
            exact ⟨stackChain_pop hchain, by simpa using hlen⟩
          · cases h
        · rw [if_neg hp] at h
          rcases hg : arr.get? p with _ | q
          · rw [hg] at h
            rcases h with h | ⟨k, v, h⟩ <;> cases h
          · rcases q with ⟨k0, v0⟩
            rw [hg] at h
            rcases h with h | ⟨k, v, h⟩
            · cases h
            · cases h
              exact ⟨hchain, by simpa using hlen⟩

theorem IterReach_inv {root : MapNode} {st : MapIteratorState}
    (h : IterReach root st) : iterInv root st := by
  induction h with
  | init => exact ⟨rfl, rfl⟩
  | again h hs ih => exact map_iterator_step_inv ih (Or.inl hs)
  | item h hs ih => exact map_iterator_step_inv ih (Or.inr ⟨_, _, hs⟩)

theorem iterInv_length_le {root : MapNode} {st : MapIteratorState}
    (hinv : iterInv root st) : st.i_nodes.length ≤ nodeDepth root := by
  rcases st with ⟨nodes, pos⟩
  rcases nodes with _ | ⟨n, t⟩
  · exact Nat.zero_le _
  · have h1 := stackChain_length t n hinv.1
    have h2 := nodeDepth_pos n
    simp only [List.length_cons] at h1 ⊢
    omega

/-! ## Claim C4: the depth bound and the iterator stacks -/

/-- **C4**: a well-formed map's tree is at most `_Py_HAMT_MAX_TREE_DEPTH
= 8` nodes deep (seven 5-bit branching levels plus a terminal collision
level; the header compiled with the C file, `src/unnamed/part_004` line
7), every state a traversal reaches keeps its live stack within the
fixed `i_nodes[]`/`i_pos[]` arrays, and one more step from any reachable
state still fits: the descend-time assertion
`level + 1 < _Py_HAMT_MAX_TREE_DEPTH` holds for every tree. -/
theorem C4_depth_iterator_safe (o : MapObject) (hwf : MapWF o)
    (st : MapIteratorState) (hreach : IterReach o.h_root st) :
    nodeDepth o.h_root ≤ _Py_HAMT_MAX_TREE_DEPTH ∧
    st.i_nodes.length ≤ _Py_HAMT_MAX_TREE_DEPTH ∧
    (∀ st2 : MapIteratorState,
      (map_iterator_step st = .again st2 ∨
        ∃ k v, map_iterator_step st = .item k v st2) →
      st2.i_nodes.length ≤ _Py_HAMT_MAX_TREE_DEPTH) := by
  have hdepth : nodeDepth o.h_root ≤ 8 := by
    have := nodeDepth_le hwf.1 rfl (by omega)
    omega
  have hinv := IterReach_inv hreach
  refine ⟨hdepth, ?_, ?_⟩
  · have := iterInv_length_le hinv
    rw [_Py_HAMT_MAX_TREE_DEPTH]
    omega
  · intro st2 hstep
    have hinv2 := map_iterator_step_inv hinv hstep
    have := iterInv_length_le hinv2
    rw [_Py_HAMT_MAX_TREE_DEPTH]
    omega

theorem C4_depth_iterator_safe_witness :
    MapWF map_new ∧
    (nodeDepth map_new.h_root ≤ _Py_HAMT_MAX_TREE_DEPTH ∧
    (map_iterator_init map_new.h_root).i_nodes.length ≤ _Py_HAMT_MAX_TREE_DEPTH ∧
    (∀ st2 : MapIteratorState,
      (map_iterator_step (map_iterator_init map_new.h_root) = .again st2 ∨
        ∃ k v, map_iterator_step (map_iterator_init map_new.h_root)
          = .item k v st2) →
      st2.i_nodes.length ≤ _Py_HAMT_MAX_TREE_DEPTH)) :=
  ⟨map_new_wf, C4_depth_iterator_safe map_new map_new_wf
    (map_iterator_init map_new.h_root) IterReach.init⟩

/-! ## The store embedding: nodes on a heap

Claims C1 and C5 are about aliasing: a draft mutates nodes in place when
its nonzero token matches the node's stamp (`mutid != 0 &&
self->?_mutid == mutid`, e.g. lines 784-832), and otherwise clones.  The
pure embedding above cannot express writes, so the node operations are
re-embedded here over an explicit store: a node's children are heap
addresses, the heap is a list of nodes indexed by address, allocation
appends (`map_node_bitmap_new`, `map_node_array_new`,
`map_node_collision_new` return fresh objects), and the guarded in-place
branches overwrite the matched address.  Recursion over addresses is by
fuel; `none` reports exhausted fuel or a corrupt heap, both impossible on
real trees. -/

/-- A stored node: as `MapNode`, with child pointers as addresses. -/
inductive SNode where
  | bitmapN (s_mutid s_bitmap : Nat) (arr : List (Sum (Key × Val) Nat))
  | arrayN (s_mutid s_count : Nat) (arr : List (Option Nat))
  | collisionN (s_mutid s_hash : Nat) (arr : List (Key × Val))
deriving DecidableEq

/-- The node heap: the address of a node is its list position. -/
abbrev Heap := List SNode

/-- The mutation-token stamp of a stored node (`b_mutid` / `a_mutid` /
`c_mutid`). -/
def snodeToken : SNode → Nat
  | .bitmapN m _ _ => m
  | .arrayN m _ _ => m
  | .collisionN m _ _ => m

/-- `map_node_new_bitmap_or_collision` (lines 657-719) on the store: the
same structure as the pure embedding, each node a fresh allocation. -/
def mkBoC_store (h : Heap) (shift : Nat) (key1 : Key) (val1 : Val)
    (key2_hash : Nat) (key2 : Key) (val2 : Val) (mutid : Nat) : Heap × Nat :=
  let key1_hash := hash32 key1
  if key1_hash = key2_hash then
    (h ++ [.collisionN mutid key1_hash [(key1, val1), (key2, val2)]], h.length)
  else if map_bitpos key2_hash shift = map_bitpos key1_hash shift then
    if key2 = key1 then
      (h ++ [.bitmapN mutid (map_bitpos key1_hash shift) [.inl (key1, val2)]],
       h.length)
    else if 30 < shift then
      (h ++ [.collisionN mutid key1_hash [(key1, val1), (key2, val2)]], h.length)
    else
      let r := mkBoC_store h (shift + 5) key1 val1 key2_hash key2 val2 mutid
      (r.1 ++ [.bitmapN mutid (map_bitpos key1_hash shift) [.inr r.2]],
       r.1.length)
  else if map_mask key2_hash shift < map_mask key1_hash shift then
    (h ++ [.bitmapN mutid (map_bitpos key1_hash shift ||| map_bitpos key2_hash shift)
      [.inl (key2, val2), .inl (key1, val1)]], h.length)
  else
    (h ++ [.bitmapN mutid (map_bitpos key1_hash shift ||| map_bitpos key2_hash shift)
      [.inl (key1, val1), .inl (key2, val2)]], h.length)
termination_by 31 - shift
decreasing_by omega

/-- `map_node_assoc` on the store (`map_node_bitmap_assoc` lines 721-1018,
`map_node_array_assoc` lines 1768-1867, `map_node_collision_assoc` lines
1395-1514).  Each `mutid != 0 && self->?_mutid == mutid` branch overwrites
the node's address; every other constructed node is a fresh allocation.
The collision different-hash path allocates the one-child wrapper node
and re-enters bitmap assoc on it at the same shift (lines 1489-1513); the
assoc into a fresh empty bitmap node (array empty slot, promotion) is the
single allocation it produces. -/
def assoc_store : Nat → Heap → Nat → Nat → Nat → Key → Val → Nat →
    Option (Heap × Nat × Bool)
  | 0, _, _, _, _, _, _, _ => none
  | fuel + 1, h, addr, shift, hash, key, val, mutid =>
    match h.get? addr with
    | none => none
    | some (.bitmapN b_mutid b_bitmap b_array) =>
      let bit := map_bitpos hash shift
      let idx := map_bitindex b_bitmap bit
      if b_bitmap &&& bit ≠ 0 then
        match b_array.get? idx with
        | none => none
        | some (.inr child) =>
          match assoc_store fuel h child (shift + 5) hash key val mutid with
          | none => none
          | some (h1, sub, flag) =>
            if sub = child then some (h1, addr, flag)
            else if mutid ≠ 0 ∧ b_mutid = mutid then
              some (h1.set addr
                (.bitmapN b_mutid b_bitmap (b_array.set idx (.inr sub))),
                addr, flag)
            else
              some (h1 ++ [.bitmapN mutid b_bitmap (b_array.set idx (.inr sub))],
                h1.length, flag)
        | some (.inl (key', val')) =>
          if key = key' then
            if val = val' then some (h, addr, false)
            else if mutid ≠ 0 ∧ b_mutid = mutid then
              some (h.set addr
                (.bitmapN b_mutid b_bitmap (b_array.set idx (.inl (key', val)))),
                addr, false)
            else
              some (h ++
                [.bitmapN mutid b_bitmap (b_array.set idx (.inl (key', val)))],
                h.length, false)
          else
            -- leaf conflict: the sub-node is stamped with self's token (line 848)
            let r := mkBoC_store h (shift + 5) key' val' hash key val b_mutid
            if mutid ≠ 0 ∧ b_mutid = mutid then
              some (r.1.set addr
                (.bitmapN b_mutid b_bitmap (b_array.set idx (.inr r.2))),
                addr, true)
            else
              some (r.1 ++ [.bitmapN mutid b_bitmap (b_array.set idx (.inr r.2))],
                r.1.length, true)
      else
        let n := map_bitcount b_bitmap
        if 16 ≤ n then
          -- promotion (lines 880-972): fresh single-leaf bitmap nodes for the
          -- new pair and for each inline leaf, shared child addresses
          let jdx := map_mask hash shift
          let r := (List.range 32).foldl (fun (acc : Heap × List (Option Nat)) i =>
            if i = jdx then
              (acc.1 ++ [.bitmapN mutid (map_bitpos hash (shift + 5))
                [.inl (key, val)]], acc.2 ++ [some acc.1.length])
            else if b_bitmap.testBit i then
              match b_array.get? (map_bitindex b_bitmap (2 ^ i)) with
              | some (.inr child) => (acc.1, acc.2 ++ [some child])
              | some (.inl (k, v)) =>
                (acc.1 ++ [.bitmapN mutid (map_bitpos (hash32 k) (shift + 5))
                  [.inl (k, v)]], acc.2 ++ [some acc.1.length])
              | none => (acc.1, acc.2 ++ [none])  -- unreachable
            else (acc.1, acc.2 ++ [none])) (h, [])
          some (r.1 ++ [.arrayN mutid (n + 1) r.2], r.1.length, true)
        else
          some (h ++ [.bitmapN mutid (b_bitmap ||| bit)
            (b_array.take idx ++ .inl (key, val) :: b_array.drop idx)],
            h.length, true)
    | some (.arrayN a_mutid a_count a_array) =>
      let idx := map_mask hash shift
      match a_array.get? idx with
      | none => none
      | some none =>
        let h1 := h ++ [.bitmapN mutid (map_bitpos hash (shift + 5))
          [.inl (key, val)]]
        if mutid ≠ 0 ∧ a_mutid = mutid then
          some (h1.set addr
            (.arrayN a_mutid (a_count + 1) (a_array.set idx (some h.length))),
            addr, true)
        else
          some (h1 ++
            [.arrayN mutid (a_count + 1) (a_array.set idx (some h.length))],
            h1.length, true)
      | some (some child) =>
        match assoc_store fuel h child (shift + 5) hash key val mutid with
        | none => none
        | some (h1, sub, flag) =>
          if sub = addr then some (h1, addr, flag)
          else if mutid ≠ 0 ∧ a_mutid = mutid then
            some (h1.set addr
              (.arrayN a_mutid a_count (a_array.set idx (some sub))), addr, flag)
          else
            some (h1 ++ [.arrayN mutid a_count (a_array.set idx (some sub))],
              h1.length, flag)
    | some (.collisionN c_mutid c_hash c_array) =>
      if hash = c_hash then
        match map_node_collision_find_index key c_array with
        | none =>
          some (h ++ [.collisionN mutid c_hash (c_array ++ [(key, val)])],
            h.length, true)
        | some i =>
          match c_array.get? i with
          | none => none
          | some (key', val') =>
            if val' = val then some (h, addr, false)
            else if mutid ≠ 0 ∧ c_mutid = mutid then
              some (h.set addr
                (.collisionN c_mutid c_hash (c_array.set i (key', val))),
                addr, false)
            else
              some (h ++ [.collisionN mutid c_hash (c_array.set i (key', val))],
                h.length, false)
      else
        let h1 := h ++ [.bitmapN mutid (map_bitpos c_hash shift) [.inr addr]]
        assoc_store fuel h1 h.length shift hash key val mutid

/-- Result of the store-level delete helpers. -/
inductive without_store_t where
  | W_NOT_FOUND
  | W_EMPTY
  | W_NEWNODE (a : Nat)
deriving DecidableEq

/-- The child the store-level Array→Bitmap demotion keeps for slot `i`. -/
def array_demote_slot_store (idx : Nat) (a_array : List (Option Nat)) (i : Nat) :
    Option Nat :=
  if i = idx then none
  else match a_array.get? i with
    | some (some x) => some x
    | _ => none

/-- Entry the store-level demotion stores for a kept child address: a
single-leaf bitmap child is inlined as a leaf, anything else points to
the shared child (lines 1982-2027). -/
def array_demote_entry_store (h : Heap) (a : Nat) : Sum (Key × Val) Nat :=
  match h.get? a with
  | some (.bitmapN _ _ [.inl (k, v)]) => .inl (k, v)
  | _ => .inr a

/-- The kept slots of the store-level demotion walk, ascending. -/
def array_demote_kept_store (h : Heap) (idx : Nat) (a_array : List (Option Nat)) :
    List (Nat × Sum (Key × Val) Nat) :=
  (List.range 32).filterMap (fun i => (array_demote_slot_store idx a_array i).map
    (fun x => (i, array_demote_entry_store h x)))

/-- `map_node_without` on the store (`map_node_bitmap_without` lines
1020-1173, `map_node_array_without` lines 1869-2040,
`map_node_collision_without` lines 1522-1615); in-place writes exactly at
the guarded branches, everything else fresh allocations.  The `W_EMPTY`
child arm of the bitmap case `abort()`s in the source and is `none`
here. -/
def without_store : Nat → Heap → Nat → Nat → Nat → Key → Nat →
    Option (Heap × without_store_t)
  | 0, _, _, _, _, _, _ => none
  | fuel + 1, h, addr, shift, hash, key, mutid =>
    match h.get? addr with
    | none => none
    | some (.bitmapN b_mutid b_bitmap b_array) =>
      let bit := map_bitpos hash shift
      if b_bitmap &&& bit = 0 then some (h, .W_NOT_FOUND)
      else
        let idx := map_bitindex b_bitmap bit
        match b_array.get? idx with
        | none => none
        | some (.inr child) =>
          match without_store fuel h child (shift + 5) hash key mutid with
          | none => none
          | some (_, .W_EMPTY) => none  -- abort() in the source
          | some (h1, .W_NOT_FOUND) => some (h1, .W_NOT_FOUND)
          | some (h1, .W_NEWNODE sub) =>
            match h1.get? sub with
            | some (.bitmapN _ _ [.inl (k, v)]) =>
              -- single-leaf bitmap child: merge the pair into this node
              if mutid ≠ 0 ∧ b_mutid = mutid then
                some (h1.set addr
                  (.bitmapN b_mutid b_bitmap (b_array.set idx (.inl (k, v)))),
                  .W_NEWNODE addr)
              else
                some (h1 ++
                  [.bitmapN mutid b_bitmap (b_array.set idx (.inl (k, v)))],
                  .W_NEWNODE h1.length)
            | _ =>
              if mutid ≠ 0 ∧ b_mutid = mutid then
                some (h1.set addr
                  (.bitmapN b_mutid b_bitmap (b_array.set idx (.inr sub))),
                  .W_NEWNODE addr)
              else
                some (h1 ++ [.bitmapN mutid b_bitmap (b_array.set idx (.inr sub))],
                  .W_NEWNODE h1.length)
        | some (.inl (key', _)) =>
          if key' = key then
            if b_array.length = 1 then some (h, .W_EMPTY)
            else
              -- map_node_bitmap_clone_without always allocates (lines 625-655)
              some (h ++ [.bitmapN mutid (b_bitmap ^^^ bit)
                (b_array.take idx ++ b_array.drop (idx + 1))],
                .W_NEWNODE h.length)
          else some (h, .W_NOT_FOUND)
    | some (.arrayN a_mutid a_count a_array) =>
      let idx := map_mask hash shift
      match a_array.get? idx with
      | none => none
      | some none => some (h, .W_NOT_FOUND)
      | some (some child) =>
        match without_store fuel h child (shift + 5) hash key mutid with
        | none => none
        | some (h1, .W_NOT_FOUND) => some (h1, .W_NOT_FOUND)
        | some (h1, .W_NEWNODE sub) =>
          if mutid ≠ 0 ∧ a_mutid = mutid then
            some (h1.set addr
              (.arrayN a_mutid a_count (a_array.set idx (some sub))),
              .W_NEWNODE addr)
          else
            some (h1 ++ [.arrayN mutid a_count (a_array.set idx (some sub))],
              .W_NEWNODE h1.length)
        | some (h1, .W_EMPTY) =>
          let new_count := a_count - 1
          if new_count = 0 then some (h1, .W_EMPTY)
          else if 16 ≤ new_count then
            if mutid ≠ 0 ∧ a_mutid = mutid then
              some (h1.set addr
                (.arrayN a_mutid new_count (a_array.set idx none)),
                .W_NEWNODE addr)
            else
              some (h1 ++ [.arrayN mutid new_count (a_array.set idx none)],
                .W_NEWNODE h1.length)
          else
            -- demotion to a fresh Bitmap node (lines 1955-2034)
            some (h1 ++ [.bitmapN mutid
              ((array_demote_kept_store h1 idx a_array).foldl
                (fun b p => b ||| (1 <<< p.1)) 0)
              ((array_demote_kept_store h1 idx a_array).map (fun p => p.2))],
              .W_NEWNODE h1.length)
    | some (.collisionN c_mutid c_hash c_array) =>
      if hash ≠ c_hash then some (h, .W_NOT_FOUND)
      else
        match map_node_collision_find_index key c_array with
        | none => some (h, .W_NOT_FOUND)
        | some i =>
          let new_count := c_array.length - 1
          if new_count = 0 then some (h, .W_EMPTY)
          else if new_count = 1 then
            match (if i = 0 then c_array.get? 1 else c_array.get? 0) with
            | some (k, v) =>
              some (h ++ [.bitmapN mutid (map_bitpos hash shift) [.inl (k, v)]],
                .W_NEWNODE h.length)
            | none => none
          else
            some (h ++ [.collisionN mutid c_hash
              (c_array.take i ++ c_array.drop (i + 1))], .W_NEWNODE h.length)

/-- `map_node_find` on the store (lines 2212-2247); never writes. -/
def find_store : Nat → Heap → Nat → Nat → Nat → Key → Option (Option Val)
  | 0, _, _, _, _, _ => none
  | fuel + 1, h, addr, shift, hash, key =>
    match h.get? addr with
    | none => none
    | some (.bitmapN _ b_bitmap b_array) =>
      let bit := map_bitpos hash shift
      if b_bitmap &&& bit = 0 then some none
      else
        match b_array.get? (map_bitindex b_bitmap bit) with
        | none => none
        | some (.inr child) => find_store fuel h child (shift + 5) hash key
        | some (.inl (key', v)) => some (if key = key' then some v else none)
    | some (.arrayN _ _ a_array) =>
      match a_array.get? (map_mask hash shift) with
      | none => none
      | some none => some none
      | some (some child) => find_store fuel h child (shift + 5) hash key
    | some (.collisionN _ _ c_array) =>
      match map_node_collision_find_index key c_array with
      | none => some none
      | some i =>
        match c_array.get? i with
        | none => none
        | some p => some (some p.2)

/-- A draft on the store: root address, running count, token
(`MapMutationObject`, header; `map_py_mutate` stamps
`o->m_mutid = mutid_counter++`, line 3105). -/
structure SMut where
  s_root : Nat
  s_count : Nat
  s_mutid : Nat
deriving DecidableEq

/-- `mapmut_py_update` / `map_update_inplace` on the store: fold the
source pairs into the draft root under its token. -/
def update_store : Nat → Heap → Nat → Nat → Nat → List (Key × Val) →
    Option (Heap × Nat × Nat)
  | _, h, root, count, _, [] => some (h, root, count)
  | fuel, h, root, count, mutid, kv :: rest =>
    match assoc_store fuel h root 0 (hash32 kv.1) kv.1 kv.2 mutid with
    | none => none
    | some (h1, r, flag) =>
      update_store fuel h1 r (if flag then count + 1 else count) mutid rest

/-- One draft operation on the store (`mapmut_py_set` /
`mapmut_tp_ass_sub` / `mapmut_py_delete` / `mapmut_py_pop` /
`mapmut_py_update`, lines 3756-4041).  A failing delete or pop raises
`KeyError` and leaves the draft as it was; a delete that empties the tree
installs a fresh empty bitmap root stamped with the draft's token. -/
def draft_step_store (fuel : Nat) (h : Heap) (d : SMut) :
    DraftOp → Option (Heap × SMut)
  | .set k v =>
    match assoc_store fuel h d.s_root 0 (hash32 k) k v d.s_mutid with
    | none => none
    | some (h1, r, flag) =>
      some (h1, ⟨r, if flag then d.s_count + 1 else d.s_count, d.s_mutid⟩)
  | .del k =>
    match without_store fuel h d.s_root 0 (hash32 k) k d.s_mutid with
    | none => none
    | some (h1, .W_NOT_FOUND) => some (h1, d)
    | some (h1, .W_EMPTY) =>
      some (h1 ++ [.bitmapN d.s_mutid 0 []], ⟨h1.length, 0, d.s_mutid⟩)
    | some (h1, .W_NEWNODE r) => some (h1, ⟨r, d.s_count - 1, d.s_mutid⟩)
  | .pop k =>
    if d.s_count = 0 then some (h, d)
    else
      match find_store fuel h d.s_root 0 (hash32 k) k with
      | none => none
      | some none => some (h, d)
      | some (some _) =>
        match without_store fuel h d.s_root 0 (hash32 k) k d.s_mutid with
        | none => none
        | some (h1, .W_NOT_FOUND) => some (h1, d)
        | some (h1, .W_EMPTY) =>
          some (h1 ++ [.bitmapN d.s_mutid 0 []], ⟨h1.length, 0, d.s_mutid⟩)
        | some (h1, .W_NEWNODE r) => some (h1, ⟨r, d.s_count - 1, d.s_mutid⟩)
  | .upd src =>
    match update_store fuel h d.s_root d.s_count d.s_mutid src with
    | none => none
    | some (h1, r, c) => some (h1, ⟨r, c, d.s_mutid⟩)

/-- A whole draft session on the store. -/
def draft_run_store (fuel : Nat) : Heap → SMut → List DraftOp →
    Option (Heap × SMut)
  | h, d, [] => some (h, d)
  | h, d, op :: ops =>
    match draft_step_store fuel h d op with
    | none => none
    | some (h1, d1) => draft_run_store fuel h1 d1 ops

/-- A finished map on the store (`MapObject`: root and count). -/
structure SMap where
  s_root : Nat
  s_count : Nat
deriving DecidableEq

/-- `mapmut_finish` + `mapmut_py_finish` (lines 3839-3844, 3931-3948):
zero the token of the draft object — not of any node — and hand the root
and count to a fresh map; the heap is untouched. -/
def mapmut_finish_store (h : Heap) (d : SMut) : Heap × SMut × SMap :=
  (h, ⟨d.s_root, d.s_count, 0⟩, ⟨d.s_root, d.s_count⟩)

/-- Every node reachable from `addr` exists and carries a token below
`t`.  On a map taken by `map.mutate()` this holds for `t` the draft's
fresh token: `mutid_counter` (line 312) starts at 1 and only increments,
so every stamp written before the draft was created is smaller. -/
def treeLT : Nat → Heap → Nat → Nat → Bool
  | 0, _, _, _ => false
  | fuel + 1, h, addr, t =>
    match h.get? addr with
    | none => false
    | some n =>
      decide (snodeToken n < t) &&
      match n with
      | .bitmapN _ _ arr => arr.all (fun e =>
          match e with
          | .inl _ => true
          | .inr c => treeLT fuel h c t)
      | .arrayN _ _ arr => arr.all (fun s =>
          match s with
          | none => true
          | some c => treeLT fuel h c t)
      | .collisionN _ _ _ => true

/-! ## The frame discipline of the store operations -/

/-- `h'` is `h` after writes that never touch an address whose node is
not stamped `mutid`: the heap may have grown, and every node stored at an
old address with a different stamp is still there, unchanged. -/
def HeapFrame (h h' : Heap) (mutid : Nat) : Prop :=
  h.length ≤ h'.length ∧
  ∀ a n, h.get? a = some n → snodeToken n ≠ mutid → h'.get? a = some n

theorem HeapFrame_refl (h : Heap) (mutid : Nat) : HeapFrame h h mutid :=
  ⟨le_refl _, fun _ _ hga _ => hga⟩

theorem HeapFrame_trans {h1 h2 h3 : Heap} {t : Nat} (f1 : HeapFrame h1 h2 t)
    (f2 : HeapFrame h2 h3 t) : HeapFrame h1 h3 t :=
  ⟨le_trans f1.1 f2.1, fun a n hga htn => f2.2 a n (f1.2 a n hga htn) htn⟩

theorem HeapFrame_append_of {h h1 : Heap} {t : Nat} (hf : HeapFrame h h1 t)
    (l : List SNode) : HeapFrame h (h1 ++ l) t := by
  refine ⟨?_, ?_⟩
  · rw [List.length_append]
    have := hf.1
    omega
  · intro a n hga htn
    have h1a := hf.2 a n hga htn
    have hlt : a < h1.length := (List.get?_eq_some.mp h1a).1
    rw [List.get?_append hlt]
    exact h1a

theorem HeapFrame_append (h : Heap) (t : Nat) (l : List SNode) :
    HeapFrame h (h ++ l) t :=
  HeapFrame_append_of (HeapFrame_refl h t) l

theorem HeapFrame_set_of {h h1 : Heap} {t addr : Nat} {n0 x : SNode}
    (hf : HeapFrame h h1 t)
    (hget : h.get? addr = some n0) (htok : snodeToken n0 = t) :
    HeapFrame h (h1.set addr x) t := by
  refine ⟨by rw [List.length_set]; exact hf.1, ?_⟩
  intro a n hga htn
  have h1a := hf.2 a n hga htn
  have hne : addr ≠ a := by
    intro hc
    subst hc
    rw [hga] at hget
    cases hget
    exact htn htok
  rw [List.get?_set_ne _ _ hne]
  exact h1a

theorem mkBoC_store_frame (t : Nat) : ∀ (gas : Nat) (shift : Nat) (h : Heap)
    (key1 : Key) (val1 : Val) (key2_hash : Nat) (key2 : Key) (val2 : Val)
    (mutid : Nat), 31 - shift ≤ gas →
    HeapFrame h (mkBoC_store h shift key1 val1 key2_hash key2 val2 mutid).1 t := by
  intro gas
  induction gas with
  | zero =>
    intro shift h key1 val1 key2_hash key2 val2 mutid hgas
    rw [mkBoC_store]
    have h31 : 30 < shift := by omega
    by_cases h1 : hash32 key1 = key2_hash
    · rw [if_pos h1]
      exact HeapFrame_append h t _
    · rw [if_neg h1]
      by_cases h2 : map_bitpos key2_hash shift = map_bitpos (hash32 key1) shift
      · rw [if_pos h2]
        by_cases h3 : key2 = key1
        · rw [if_pos h3]
          exact HeapFrame_append h t _
        · rw [if_neg h3, if_pos h31]
          exact HeapFrame_append h t _
      · rw [if_neg h2]
        by_cases h4 : map_mask key2_hash shift < map_mask (hash32 key1) shift
        · rw [if_pos h4]
          exact HeapFrame_append h t _
        · rw [if_neg h4]
          exact HeapFrame_append h t _
  | succ gas ih =>
    intro shift h key1 val1 key2_hash key2 val2 mutid hgas
    rw [mkBoC_store]
    by_cases h1 : hash32 key1 = key2_hash
    · rw [if_pos h1]
      exact HeapFrame_append h t _
    · rw [if_neg h1]
      by_cases h2 : map_bitpos key2_hash shift = map_bitpos (hash32 key1) shift
      · rw [if_pos h2]
        by_cases h3 : key2 = key1
        · rw [if_pos h3]
          exact HeapFrame_append h t _
        · rw [if_neg h3]
          by_cases h31 : 30 < shift
          · rw [if_pos h31]
            exact HeapFrame_append h t _
          · rw [if_neg h31]
            exact HeapFrame_append_of
              (ih (shift + 5) h key1 val1 key2_hash key2 val2 mutid (by omega)) _
      · rw [if_neg h2]
        by_cases h4 : map_mask key2_hash shift < map_mask (hash32 key1) shift
        · rw [if_pos h4]
          exact HeapFrame_append h t _
        · rw [if_neg h4]
          exact HeapFrame_append h t _

theorem foldl_heap_frame {α β : Type _} (t : Nat)
    (f : (Heap × List β) → α → (Heap × List β))
    (hf : ∀ acc i, (f acc i).1 = acc.1 ∨ ∃ x, (f acc i).1 = acc.1 ++ [x]) :
    ∀ (l : List α) (acc : Heap × List β), HeapFrame acc.1 ((l.foldl f acc).1) t := by
  intro l
  induction l with
  | nil =>
    intro acc
    exact HeapFrame_refl _ _
  | cons i rest ih =>
    intro acc
    rw [List.foldl_cons]
    have hstep : HeapFrame acc.1 ((f acc i).1) t := by
      rcases hf acc i with hk | ⟨x, hx⟩
      · rw [hk]
        exact HeapFrame_refl _ _
      · rw [hx]
        exact HeapFrame_append _ _ _
    exact HeapFrame_trans hstep (ih (f acc i))

/-- `map_node_assoc` on the store only writes in place at addresses whose
node is stamped with the operation's nonzero token; every other existing
node is untouched. -/
theorem assoc_store_frame : ∀ (fuel : Nat) (h : Heap) (addr shift hash : Nat)
    (key : Key) (val : Val) (mutid : Nat) (h' : Heap) (r : Nat) (flag : Bool),
    assoc_store fuel h addr shift hash key val mutid = some (h', r, flag) →
    HeapFrame h h' mutid := by
  intro fuel
  induction fuel with
  | zero =>
    intro h addr shift hash key val mutid h' r flag hres
    rw [assoc_store] at hres
    cases hres
  | succ fuel ih =>
    intro h addr shift hash key val mutid h' r flag hres
    rw [assoc_store] at hres
    rcases hga : h.get? addr with _ | node
    · rw [hga] at hres
      cases hres
    · rw [hga] at hres
      cases node with
      | bitmapN b_mutid b_bitmap b_array =>
        simp only [] at hres
        by_cases hbit : b_bitmap &&& map_bitpos hash shift ≠ 0
        · rw [if_pos hbit] at hres
          rcases hge : b_array.get? (map_bitindex b_bitmap (map_bitpos hash shift))
            with _ | e
          · rw [hge] at hres
            cases hres
          · rcases e with ⟨key', val'⟩ | child
            · rw [hge] at hres
              dsimp only at hres
              by_cases hk : key = key'
              · rw [if_pos hk] at hres
                by_cases hv : val = val'
                · rw [if_pos hv] at hres
                  cases hres
                  exact HeapFrame_refl h mutid
                · rw [if_neg hv] at hres
                  by_cases hg : mutid ≠ 0 ∧ b_mutid = mutid
                  · rw [if_pos hg] at hres
                    cases hres
                    exact HeapFrame_set_of (HeapFrame_refl h mutid) hga hg.2
                  · rw [if_neg hg] at hres
                    cases hres
                    exact HeapFrame_append h mutid _
              · rw [if_neg hk] at hres
                have hboc := mkBoC_store_frame mutid 31 (shift + 5) h key' val'
                  hash key val b_mutid (by omega)
                by_cases hg : mutid ≠ 0 ∧ b_mutid = mutid
                · rw [if_pos hg] at hres
                  cases hres
                  exact HeapFrame_set_of hboc hga hg.2
                · rw [if_neg hg] at hres
                  cases hres
                  exact HeapFrame_append_of hboc _
            · rw [hge] at hres
              dsimp only at hres
              rcases hrec : assoc_store fuel h child (shift + 5) hash key val mutid
                with _ | ⟨h1, sub, flag1⟩
              · rw [hrec] at hres
                cases hres
              · rw [hrec] at hres
                dsimp only at hres
                have hf1 := ih h child (shift + 5) hash key val mutid h1 sub flag1
                  hrec
                by_cases hs : sub = child
                · rw [if_pos hs] at hres
                  cases hres
                  exact hf1
                · rw [if_neg hs] at hres
                  by_cases hg : mutid ≠ 0 ∧ b_mutid = mutid
                  · rw [if_pos hg] at hres
                    cases hres
                    exact HeapFrame_set_of hf1 hga hg.2
                  · rw [if_neg hg] at hres
                    cases hres
                    exact HeapFrame_append_of hf1 _
        · rw [if_neg hbit] at hres
          by_cases h16 : 16 ≤ map_bitcount b_bitmap
          · rw [if_pos h16] at hres
            cases hres
            refine HeapFrame_append_of ?_ _
            refine foldl_heap_frame mutid _ ?_ (List.range 32) (h, [])
            intro acc i
            dsimp only
            by_cases hj : i = map_mask hash shift
            · rw [if_pos hj]
              exact Or.inr ⟨_, rfl⟩
            · rw [if_neg hj]
              by_cases htb : b_bitmap.testBit i
              · rw [if_pos htb]
                rcases hbe : b_array.get? (map_bitindex b_bitmap (2 ^ i)) with _ | e2
                · exact Or.inl rfl
                · rcases e2 with ⟨k2, v2⟩ | c2
                  · exact Or.inr ⟨_, rfl⟩
                  · exact Or.inl rfl
              · rw [if_neg htb]
                exact Or.inl rfl
          · rw [if_neg h16] at hres
            cases hres
            exact HeapFrame_append h mutid _
      | arrayN a_mutid a_count a_array =>
        simp only [] at hres
        rcases hge : a_array.get? (map_mask hash shift) with _ | s
        · rw [hge] at hres
          cases hres
        · rcases s with _ | child
          · rw [hge] at hres
            dsimp only at hres
            by_cases hg : mutid ≠ 0 ∧ a_mutid = mutid
            · rw [if_pos hg] at hres
              cases hres
              exact HeapFrame_set_of (HeapFrame_append h mutid _) hga hg.2
            · rw [if_neg hg] at hres
              cases hres
              exact HeapFrame_append_of (HeapFrame_append h mutid _) _
          · rw [hge] at hres
            dsimp only at hres
            rcases hrec : assoc_store fuel h child (shift + 5) hash key val mutid
              with _ | ⟨h1, sub, flag1⟩
            · rw [hrec] at hres
              cases hres
            · rw [hrec] at hres
              dsimp only at hres
              have hf1 := ih h child (shift + 5) hash key val mutid h1 sub flag1 hrec
              by_cases hs : sub = addr
              · rw [if_pos hs] at hres
                cases hres
                exact hf1
              · rw [if_neg hs] at hres
                by_cases hg : mutid ≠ 0 ∧ a_mutid = mutid
                · rw [if_pos hg] at hres
                  cases hres
                  exact HeapFrame_set_of hf1 hga hg.2
                · rw [if_neg hg] at hres
                  cases hres
                  exact HeapFrame_append_of hf1 _
      | collisionN c_mutid c_hash c_array =>
        dsimp only at hres
        by_cases hh : hash = c_hash
        · rw [if_pos hh] at hres
          rcases hfi : map_node_collision_find_index key c_array with _ | i
          · rw [hfi] at hres
            cases hres
            exact HeapFrame_append h mutid _
          · rw [hfi] at hres
            dsimp only at hres
            rcases hge : c_array.get? i with _ | p
            · rw [hge] at hres
              cases hres
            · rcases p with ⟨key', val'⟩
              rw [hge] at hres
              dsimp only at hres
              by_cases hv : val' = val
              · rw [if_pos hv] at hres
                cases hres
                exact HeapFrame_refl h mutid
              · rw [if_neg hv] at hres
                by_cases hg : mutid ≠ 0 ∧ c_mutid = mutid
                · rw [if_pos hg] at hres
                  cases hres
                  exact HeapFrame_set_of (HeapFrame_refl h mutid) hga hg.2
                · rw [if_neg hg] at hres
                  cases hres
                  exact HeapFrame_append h mutid _
        · rw [if_neg hh] at hres
          exact HeapFrame_trans (HeapFrame_append h mutid _)
            (ih _ _ _ _ _ _ _ _ _ _ hres)

/-- `map_node_without` on the store only writes in place at addresses
whose node is stamped with the operation's nonzero token. -/
theorem without_store_frame : ∀ (fuel : Nat) (h : Heap) (addr shift hash : Nat)
    (key : Key) (mutid : Nat) (h' : Heap) (w : without_store_t),
    without_store fuel h addr shift hash key mutid = some (h', w) →
    HeapFrame h h' mutid := by
  intro fuel
  induction fuel with
  | zero =>
    intro h addr shift hash key mutid h' w hres
    rw [without_store] at hres
    cases hres
  | succ fuel ih =>
    intro h addr shift hash key mutid h' w hres
    rw [without_store] at hres
    rcases hga : h.get? addr with _ | node
    · rw [hga] at hres
      cases hres
    · rw [hga] at hres
      cases node with
      | bitmapN b_mutid b_bitmap b_array =>
        simp only [] at hres
        by_cases hbit : b_bitmap &&& map_bitpos hash shift = 0
        · rw [if_pos hbit] at hres
          cases hres
          exact HeapFrame_refl h mutid
        · rw [if_neg hbit] at hres
          rcases hge : b_array.get? (map_bitindex b_bitmap (map_bitpos hash shift))
            with _ | e
          · rw [hge] at hres
            cases hres
          · rcases e with ⟨key', val'⟩ | child
            · rw [hge] at hres
              dsimp only at hres
              by_cases hk : key' = key
              · rw [if_pos hk] at hres
                by_cases h1 : b_array.length = 1
                · rw [if_pos h1] at hres
                  cases hres
                  exact HeapFrame_refl h mutid
                · rw [if_neg h1] at hres
                  cases hres
                  exact HeapFrame_append h mutid _
              · rw [if_neg hk] at hres
                cases hres
                exact HeapFrame_refl h mutid
            · rw [hge] at hres
              dsimp only at hres
              rcases hrec : without_store fuel h child (shift + 5) hash key mutid
                with _ | ⟨h1, wr⟩
              · rw [hrec] at hres
                cases hres
              · rw [hrec] at hres
                have hf1 := ih h child (shift + 5) hash key mutid h1 wr hrec
                cases wr with
                | W_EMPTY =>
                  dsimp only at hres
                  cases hres
                | W_NOT_FOUND =>
                  dsimp only at hres
                  cases hres
                  exact hf1
                | W_NEWNODE sub =>
                  dsimp only at hres
                  split at hres
                  · by_cases hg : mutid ≠ 0 ∧ b_mutid = mutid
                    · rw [if_pos hg] at hres
                      cases hres
                      exact HeapFrame_set_of hf1 hga hg.2
                    · rw [if_neg hg] at hres
                      cases hres
                      exact HeapFrame_append_of hf1 _
                  · by_cases hg : mutid ≠ 0 ∧ b_mutid = mutid
                    · rw [if_pos hg] at hres
                      cases hres
                      exact HeapFrame_set_of hf1 hga hg.2
                    · rw [if_neg hg] at hres
                      cases hres
                      exact HeapFrame_append_of hf1 _
      | arrayN a_mutid a_count a_array =>
        simp only [] at hres
        rcases hge : a_array.get? (map_mask hash shift) with _ | s
        · rw [hge] at hres
          cases hres
        · rcases s with _ | child
          · rw [hge] at hres
            cases hres
            exact HeapFrame_refl h mutid
          · rw [hge] at hres
            dsimp only at hres
            rcases hrec : without_store fuel h child (shift + 5) hash key mutid
              with _ | ⟨h1, wr⟩
            · rw [hrec] at hres
              cases hres
            · rw [hrec] at hres
              have hf1 := ih h child (shift + 5) hash key mutid h1 wr hrec
              cases wr with
              | W_NOT_FOUND =>
                dsimp only at hres
                cases hres
                exact hf1
              | W_NEWNODE sub =>
                dsimp only at hres
                by_cases hg : mutid ≠ 0 ∧ a_mutid = mutid
                · rw [if_pos hg] at hres
                  cases hres
                  exact HeapFrame_set_of hf1 hga hg.2
                · rw [if_neg hg] at hres
                  cases hres
                  exact HeapFrame_append_of hf1 _
              | W_EMPTY =>
                dsimp only at hres
                by_cases h0 : a_count - 1 = 0
                · rw [if_pos h0] at hres
                  cases hres
                  exact hf1
                · rw [if_neg h0] at hres
                  by_cases h16 : 16 ≤ a_count - 1
                  · rw [if_pos h16] at hres
                    by_cases hg : mutid ≠ 0 ∧ a_mutid = mutid
                    · rw [if_pos hg] at hres
                      cases hres
                      exact HeapFrame_set_of hf1 hga hg.2
                    · rw [if_neg hg] at hres
                      cases hres
                      exact HeapFrame_append_of hf1 _
                  · rw [if_neg h16] at hres
                    cases hres
                    exact HeapFrame_append_of hf1 _
      | collisionN c_mutid c_hash c_array =>
        dsimp only at hres
        by_cases hh : hash ≠ c_hash
        · rw [if_pos hh] at hres
          cases hres
          exact HeapFrame_refl h mutid
        · rw [if_neg hh] at hres
          rcases hfi : map_node_collision_find_index key c_array with _ | i
          · rw [hfi] at hres
            cases hres
            exact HeapFrame_refl h mutid
          · rw [hfi] at hres
            dsimp only at hres
            by_cases h0 : c_array.length - 1 = 0
            · rw [if_pos h0] at hres
              cases hres
              exact HeapFrame_refl h mutid
            · rw [if_neg h0] at hres
              by_cases h1 : c_array.length - 1 = 1
              · rw [if_pos h1] at hres
                rcases ho : (if i = 0 then c_array.get? 1 else c_array.get? 0)
                  with _ | p
                · rw [ho] at hres
                  cases hres
                · rcases p with ⟨k, v⟩
                  rw [ho] at hres
                  cases hres
                  exact HeapFrame_append h mutid _
              · rw [if_neg h1] at hres
                cases hres
                exact HeapFrame_append h mutid _

/-- `map_update_inplace` on the store: a fold of `assoc_store` under one
token only writes where that token is stamped. -/
theorem update_store_frame : ∀ (src : List (Key × Val)) (fuel : Nat) (h : Heap)
    (root count mutid : Nat) (h' : Heap) (r c : Nat),
    update_store fuel h root count mutid src = some (h', r, c) →
    HeapFrame h h' mutid := by
  intro src
  induction src with
  | nil =>
    intro fuel h root count mutid h' r c hres
    rw [update_store] at hres
    cases hres
    exact HeapFrame_refl h mutid
  | cons kv rest ih =>
    intro fuel h root count mutid h' r c hres
    rw [update_store] at hres
    rcases ha : assoc_store fuel h root 0 (hash32 kv.1) kv.1 kv.2 mutid
      with _ | ⟨h1, r1, flag⟩
    · rw [ha] at hres
      cases hres
    · rw [ha] at hres
      dsimp only at hres
      exact HeapFrame_trans
        (assoc_store_frame fuel h root 0 (hash32 kv.1) kv.1 kv.2 mutid h1 r1 flag ha)
        (ih fuel h1 r1 _ mutid h' r c hres)

/-- One draft operation only writes where the draft's token is stamped,
and never changes the draft's token. -/
theorem draft_step_store_frame (fuel : Nat) (h : Heap) (d : SMut)
    (op : DraftOp) (h' : Heap) (d' : SMut)
    (hres : draft_step_store fuel h d op = some (h', d')) :
    HeapFrame h h' d.s_mutid ∧ d'.s_mutid = d.s_mutid := by
  cases op with
  | set k v =>
    rw [draft_step_store] at hres
    rcases ha : assoc_store fuel h d.s_root 0 (hash32 k) k v d.s_mutid
      with _ | ⟨h1, r, flag⟩
    · rw [ha] at hres
      cases hres
    · rw [ha] at hres
      cases hres
      exact ⟨assoc_store_frame fuel h d.s_root 0 (hash32 k) k v d.s_mutid
        _ _ _ ha, rfl⟩
  | del k =>
    rw [draft_step_store] at hres
    rcases hw : without_store fuel h d.s_root 0 (hash32 k) k d.s_mutid
      with _ | ⟨h1, w⟩
    · rw [hw] at hres
      cases hres
    · rw [hw] at hres
      have hf1 := without_store_frame fuel h d.s_root 0 (hash32 k) k
        d.s_mutid h1 w hw
      cases w with
      | W_NOT_FOUND =>
        cases hres
        exact ⟨hf1, rfl⟩
      | W_EMPTY =>
        cases hres
        exact ⟨HeapFrame_append_of hf1 _, rfl⟩
      | W_NEWNODE r =>
        cases hres
        exact ⟨hf1, rfl⟩
  | pop k =>
    rw [draft_step_store] at hres
    by_cases h0 : d.s_count = 0
    · rw [if_pos h0] at hres
      cases hres
      exact ⟨HeapFrame_refl h d.s_mutid, rfl⟩
    · rw [if_neg h0] at hres
      rcases hfi : find_store fuel h d.s_root 0 (hash32 k) k with _ | ov
      · rw [hfi] at hres
        cases hres
      · rcases ov with _ | v0
        · rw [hfi] at hres
          cases hres
          exact ⟨HeapFrame_refl h d.s_mutid, rfl⟩
        · rw [hfi] at hres
          dsimp only at hres
          rcases hw : without_store fuel h d.s_root 0 (hash32 k) k d.s_mutid
            with _ | ⟨h1, w⟩
          · rw [hw] at hres
            cases hres
          · rw [hw] at hres
            have hf1 := without_store_frame fuel h d.s_root 0 (hash32 k) k
              d.s_mutid h1 w hw
            cases w with
            | W_NOT_FOUND =>
              cases hres
              exact ⟨hf1, rfl⟩
            | W_EMPTY =>
              cases hres
              exact ⟨HeapFrame_append_of hf1 _, rfl⟩
            | W_NEWNODE r =>
              cases hres
              exact ⟨hf1, rfl⟩
  | upd src =>
    rw [draft_step_store] at hres
    rcases hu : update_store fuel h d.s_root d.s_count d.s_mutid src
      with _ | ⟨h1, r, c⟩
    · rw [hu] at hres
      cases hres
    · rw [hu] at hres
      cases hres
      exact ⟨update_store_frame src fuel h d.s_root d.s_count d.s_mutid
        _ _ _ hu, rfl⟩

/-- A whole draft session only writes where the draft's token is stamped,
and the surviving draft keeps its token. -/
theorem draft_run_store_frame : ∀ (ops : List DraftOp) (fuel : Nat) (h : Heap)
    (d : SMut) (h' : Heap) (d' : SMut),
    draft_run_store fuel h d ops = some (h', d') →
    HeapFrame h h' d.s_mutid ∧ d'.s_mutid = d.s_mutid := by
  intro ops
  induction ops with
  | nil =>
    intro fuel h d h' d' hres
    rw [draft_run_store] at hres
    cases hres
    exact ⟨HeapFrame_refl h d.s_mutid, rfl⟩
  | cons op rest ih =>
    intro fuel h d h' d' hres
    rw [draft_run_store] at hres
    rcases hs : draft_step_store fuel h d op with _ | ⟨h1, d1⟩
    · rw [hs] at hres
      cases hres
    · rw [hs] at hres
      have hstep := draft_step_store_frame fuel h d op h1 d1 hs
      have hrest := ih fuel h1 d1 h' d' hres
      rw [hstep.2] at hrest
      exact ⟨HeapFrame_trans hstep.1 hrest.1, hrest.2⟩

/-- Reading through a frame: if every node reachable from `addr` in `h`
is stamped below `t`, and `h'` differs from `h` only at addresses stamped
`t`, then lookup from `addr` gives the same answer in both heaps. -/
theorem find_store_agree : ∀ (fuel : Nat) (h h' : Heap) (t addr shift hash : Nat)
    (key : Key), HeapFrame h h' t → treeLT fuel h addr t = true →
    find_store fuel h' addr shift hash key = find_store fuel h addr shift hash key := by
  intro fuel
  induction fuel with
  | zero =>
    intro h h' t addr shift hash key hf ht
    rw [treeLT] at ht
    cases ht
  | succ fuel ih =>
    intro h h' t addr shift hash key hf ht
    rw [treeLT] at ht
    rcases hga : h.get? addr with _ | n
    · rw [hga] at ht
      cases ht
    · rw [hga] at ht
      dsimp only at ht
      rw [Bool.and_eq_true] at ht
      have htok : snodeToken n < t := of_decide_eq_true ht.1
      have hga' : h'.get? addr = some n := hf.2 addr n hga (Nat.ne_of_lt htok)
      have ht2 := ht.2
      rw [find_store, find_store, hga, hga']
      cases n with
      | bitmapN m bmp arr =>
        dsimp only
        by_cases hbit : bmp &&& map_bitpos hash shift = 0
        · rw [if_pos hbit, if_pos hbit]
        · rw [if_neg hbit, if_neg hbit]
          rcases hge : arr.get? (map_bitindex bmp (map_bitpos hash shift))
            with _ | e
          · rfl
          · rcases e with p | child
            · rfl
            · have hmem : Sum.inr child ∈ arr := List.get?_mem hge
              have htc := List.all_eq_true.mp ht2 _ hmem
              dsimp only at htc
              exact ih h h' t child (shift + 5) hash key hf htc
      | arrayN m cnt arr =>
        dsimp only
        rcases hge : arr.get? (map_mask hash shift) with _ | s
        · rfl
        · rcases s with _ | child
          · rfl
          · have hmem : some child ∈ arr := List.get?_mem hge
            have htc := List.all_eq_true.mp ht2 _ hmem
            dsimp only at htc
            exact ih h h' t child (shift + 5) hash key hf htc
      | collisionN m chash arr =>
        rfl

/-- Claim C1: for every map (a root address into the heap whose reachable
nodes are all stamped below the draft's fresh token, as `mutid_counter`
guarantees) and every sequence of draft operations (set, delete, pop,
update) run on `M.mutate()` followed by `finish()`, the original map is
left in its pre-draft state: every pre-existing node stamped below the
fresh token is still stored unchanged at its address, and every lookup
through the original root returns exactly what it returned before the
draft. -/
theorem C1_draft_frame (fuel : Nat) (h0 : Heap) (root count0 fresh : Nat)
    (ops : List DraftOp) (h1 : Heap) (d1 : SMut)
    (ht : treeLT fuel h0 root fresh = true)
    (hrun : draft_run_store fuel h0 ⟨root, count0, fresh⟩ ops = some (h1, d1)) :
    (∀ a n, h0.get? a = some n → snodeToken n < fresh →
      (mapmut_finish_store h1 d1).1.get? a = some n) ∧
    (∀ key, find_store fuel (mapmut_finish_store h1 d1).1 root 0 (hash32 key) key =
      find_store fuel h0 root 0 (hash32 key) key) := by
  have hfr := (draft_run_store_frame ops fuel h0 ⟨root, count0, fresh⟩ h1 d1 hrun).1
  refine ⟨?_, ?_⟩
  · intro a n hga htok
    exact hfr.2 a n hga (Nat.ne_of_lt htok)
  · intro key
    exact find_store_agree fuel h0 h1 fresh root 0 (hash32 key) key hfr ht

/-- Witness for C1 at a concrete one-binding map, fresh token 5, one
draft insertion. -/
theorem C1_draft_frame_witness :
    treeLT 9 [SNode.bitmapN 0 1 [Sum.inl (⟨0, 0⟩, 0)]] 0 5 = true ∧
    draft_run_store 9 [SNode.bitmapN 0 1 [Sum.inl (⟨0, 0⟩, 0)]] ⟨0, 1, 5⟩
      [DraftOp.set ⟨1, 1⟩ 7] =
      some ([SNode.bitmapN 0 1 [Sum.inl (⟨0, 0⟩, 0)],
             SNode.bitmapN 5 3 [Sum.inl (⟨0, 0⟩, 0), Sum.inl (⟨1, 1⟩, 7)]],
            ⟨1, 2, 5⟩) ∧
    ((∀ a n, ([SNode.bitmapN 0 1 [Sum.inl (⟨0, 0⟩, 0)]] : Heap).get? a = some n →
        snodeToken n < 5 →
        (mapmut_finish_store
          [SNode.bitmapN 0 1 [Sum.inl (⟨0, 0⟩, 0)],
           SNode.bitmapN 5 3 [Sum.inl (⟨0, 0⟩, 0), Sum.inl (⟨1, 1⟩, 7)]]
          ⟨1, 2, 5⟩).1.get? a = some n) ∧
     (∀ key, find_store 9
        (mapmut_finish_store
          [SNode.bitmapN 0 1 [Sum.inl (⟨0, 0⟩, 0)],
           SNode.bitmapN 5 3 [Sum.inl (⟨0, 0⟩, 0), Sum.inl (⟨1, 1⟩, 7)]]
          ⟨1, 2, 5⟩).1 0 0 (hash32 key) key =
        find_store 9 [SNode.bitmapN 0 1 [Sum.inl (⟨0, 0⟩, 0)]] 0 0 (hash32 key) key)) :=
  ⟨by decide, by decide,
    C1_draft_frame 9 [SNode.bitmapN 0 1 [Sum.inl (⟨0, 0⟩, 0)]] 0 1 5
      [DraftOp.set ⟨1, 1⟩ 7]
      [SNode.bitmapN 0 1 [Sum.inl (⟨0, 0⟩, 0)],
       SNode.bitmapN 5 3 [Sum.inl (⟨0, 0⟩, 0), Sum.inl (⟨1, 1⟩, 7)]]
      ⟨1, 2, 5⟩ (by decide) (by decide)⟩

/-- Claim C5, amended: `mapmut_finish` zeroes only the draft object's own
mutation token (`o->m_mutid = 0`, line 3843) and hands the draft's root
and count to the new map verbatim; the heap — and hence the token stamped
on every node, including nodes the draft created with its nonzero token —
is untouched. -/
theorem C5_finish_token (h : Heap) (d : SMut) :
    (mapmut_finish_store h d).1 = h ∧
    (mapmut_finish_store h d).2.1.s_mutid = 0 ∧
    (mapmut_finish_store h d).2.2 = SMap.mk d.s_root d.s_count :=
  ⟨rfl, rfl, rfl⟩

/-- Counterexample to claim C5 as stated: insert one key into a draft of
the empty map and finish; the finished map's root is a node the draft
created, still stamped with the draft's token 1, not 0. -/
theorem C5_finish_token_counterexample :
    draft_run_store 9 [SNode.bitmapN 0 0 []] ⟨0, 0, 1⟩ [DraftOp.set ⟨0, 0⟩ 0] =
      some ([SNode.bitmapN 0 0 [], SNode.bitmapN 1 1 [Sum.inl (⟨0, 0⟩, 0)]],
            ⟨1, 1, 1⟩) ∧
    ((mapmut_finish_store
        [SNode.bitmapN 0 0 [], SNode.bitmapN 1 1 [Sum.inl (⟨0, 0⟩, 0)]]
        ⟨1, 1, 1⟩).1.get?
      (mapmut_finish_store
        [SNode.bitmapN 0 0 [], SNode.bitmapN 1 1 [Sum.inl (⟨0, 0⟩, 0)]]
        ⟨1, 1, 1⟩).2.2.s_root).map snodeToken = some 1 := by
  refine ⟨by decide, by decide⟩

end Immutables
